import Mathlib

/-!
# Google Photos takeout organizer: embedding of `main.go`

The program reads `<source>/Google Photos`, moves the photos of the year folders
into `<target>/Photos`, those of `Archive` into `<target>/Archive`, and turns every
album into a directory of relative symlinks under `<target>/Albums`, moving photos
that occur only in albums into `<target>/Album-only Photos`.

Modelling decisions (all stated here once):

* A path is the list of its components, already cleaned; `filepath.Join dir name`
  with a directory entry name is `dir ++ [name]`, `filepath.Dir` is `dropLast`.
* The file system is an association list from paths to nodes (regular file with its
  bytes, directory, symbolic link with a relative target).  The empty path is the
  origin directory and always exists.
* A lookup takes the path as it is written: the directories on the way are not
  resolved. This is what the kernel does when none of them is a symbolic link, and
  the statements about whole runs say so (`noSymlinks`, `plainPath`); the last
  component is followed where the call follows it (`os.Stat`, `os.Open`).
* Every operating-system call may additionally fail for a reason outside the modelled
  state (permissions, I/O errors, a missing `exiftool`): `Env.fault` decides that.
* Every call is appended to a log together with its outcome.
* `crypto/sha1` is implemented after FIPS 180-4.
-/

namespace Takeout

/-! ## SHA-1 (the `crypto/sha1` digest behind `getFileSha`) -/

namespace Sha1

/-- Rotate a 32-bit word left by `n` bits. -/
def rotl (n x : Nat) : Nat := ((x <<< n) ||| (x >>> (32 - n))) % 4294967296

/-- Big-endian encoding of `v` on `k` bytes. -/
def be (k : Nat) (v : Nat) : List Nat :=
  (List.range k).map (fun i => (v >>> (8 * (k - 1 - i))) % 256)

/-- Message padding: a one bit, zeros, and the bit length on eight bytes. -/
def pad (msg : List Nat) : List Nat :=
  msg ++ [128] ++ List.replicate ((119 - msg.length % 64) % 64) 0 ++ be 8 (8 * msg.length)

/-- Big-endian value of a byte list. -/
def word (bs : List Nat) : Nat := bs.foldl (fun a b => a * 256 + b % 256) 0

/-- The first `n` 32-bit words of a byte list. -/
def words : Nat → List Nat → List Nat
  | 0, _ => []
  | n + 1, bs => word (bs.take 4) :: words n (bs.drop 4)

/-- Message schedule, newest word first: `n` more words are added. -/
def extend : Nat → List Nat → List Nat
  | 0, ws => ws
  | n + 1, ws =>
    extend n (rotl 1 (ws.getD 2 0 ^^^ ws.getD 7 0 ^^^ ws.getD 13 0 ^^^ ws.getD 15 0) :: ws)

/-- The five chaining words. -/
structure H where
  a : Nat
  b : Nat
  c : Nat
  d : Nat
  e : Nat

/-- Addition modulo `2^32`. -/
def add32 (x y : Nat) : Nat := (x + y) % 4294967296

/-- Bitwise complement of a 32-bit word. -/
def not32 (x : Nat) : Nat := 4294967295 - x % 4294967296

/-- Round function of round `t`. -/
def f (t b c d : Nat) : Nat :=
  if t < 20 then (b &&& c) ||| (not32 b &&& d)
  else if t < 40 then b ^^^ c ^^^ d
  else if t < 60 then (b &&& c) ||| (b &&& d) ||| (c &&& d)
  else b ^^^ c ^^^ d

/-- Round constant of round `t`. -/
def k (t : Nat) : Nat :=
  if t < 20 then 0x5A827999 else if t < 40 then 0x6ED9EBA1
  else if t < 60 then 0x8F1BBCDC else 0xCA62C1D6

/-- One of the eighty rounds; `tw` is the round number and its schedule word. -/
def round (h : H) (tw : Nat × Nat) : H :=
  ⟨add32 (add32 (add32 (add32 (rotl 5 h.a) (f tw.1 h.b h.c h.d)) h.e) (k tw.1)) tw.2,
    h.a, rotl 30 h.b, h.c, h.d⟩

/-- Compression of one 64-byte block. -/
def block (h : H) (bs : List Nat) : H :=
  let w := (extend 64 (words 16 bs).reverse).reverse
  let r := ((List.range 80).zip w).foldl round h
  ⟨add32 h.a r.a, add32 h.b r.b, add32 h.c r.c, add32 h.d r.d, add32 h.e r.e⟩

/-- Compression of the first `n` blocks. -/
def blocks : Nat → H → List Nat → H
  | 0, h, _ => h
  | n + 1, h, bs => blocks n (block h (bs.take 64)) (bs.drop 64)

/-- Lower-case hexadecimal digit. -/
def hexDigit (n : Nat) : Char := "0123456789abcdef".toList.getD n '0'

/-- Two hexadecimal digits of a byte (`%x`). -/
def hexByte (b : Nat) : List Char := [hexDigit (b / 16), hexDigit (b % 16)]

/-- The twenty digest bytes. -/
def sum (msg : List Nat) : List Nat :=
  let p := pad msg
  let h := blocks (p.length / 64) ⟨0x67452301, 0xEFCDAB89, 0x98BADCFE, 0x10325476, 0xC3D2E1F0⟩ p
  be 4 h.a ++ be 4 h.b ++ be 4 h.c ++ be 4 h.d ++ be 4 h.e

/-- The digest as forty lower-case hexadecimal digits: `fmt.Sprintf("%x", hash.Sum(nil))`. -/
def hex (msg : List Nat) : String := ⟨(sum msg).flatMap hexByte⟩

end Sha1

/-! ## Paths -/

/-- A cleaned path, as the list of its components. -/
abbrev Path := List String

/-- The loop of `filepath.Ext`, scanning from the last character backwards; `acc` is
the part already passed. -/
def extScan : List Char → List Char → List Char
  | [], _ => []
  | c :: rest, acc =>
    if c = '/' then [] else if c = '.' then c :: acc else extScan rest (c :: acc)

/-- The `filepath.Ext` of a name: the suffix beginning at its final dot, empty if there is none. -/
def Ext (name : String) : String := ⟨extScan name.data.reverse []⟩

/-- The name without its extension: `name[:len(name)-len(ext)]`. -/
def stem (name : String) : String :=
  ⟨name.data.take (name.data.length - (Ext name).data.length)⟩

/-- The collision name `fmt.Sprintf("%s_%s%s", stem, sha, ext)`. -/
def suffixedName (name sha : String) : String :=
  stem name ++ "_" ++ sha ++ Ext name

/-- The collision path of `movePhotoIntoPlace`: the last component gets `_<sha>` before
its extension. -/
def suffixed (targetPath : Path) (sha : String) : Path :=
  targetPath.dropLast ++ [suffixedName (targetPath.getLastD "") sha]

/-- A decimal digit, the class `\d` of Go's `regexp`. -/
def isDigit (c : Char) : Bool := decide ('0' ≤ c) && decide (c ≤ '9')

/-- The pattern `Photos from (\d{4})` matched at the start of `cs`. -/
def matchHere (cs : List Char) : Bool :=
  "Photos from ".data.isPrefixOf cs &&
    (decide (4 ≤ (cs.drop 12).length) && ((cs.drop 12).take 4).all isDigit)

/-- The unanchored search of `regexp.MatchString`: a match at some position. -/
def matchAnywhere : List Char → Bool
  | [] => matchHere []
  | c :: cs => matchHere (c :: cs) || matchAnywhere cs

/-- The call `photosForYearRegex.MatchString(name)`. -/
def photosForYearRegex (name : String) : Bool := matchAnywhere name.data

/-! ## The file system -/

/-- The bytes of a file. -/
abbrev Content := List Nat

/-- A node: regular file, directory, or symbolic link `../`×`ups` followed by `down`. -/
inductive Node where
  | file (content : Content)
  | dir
  | symlink (ups : Nat) (down : Path)
  deriving DecidableEq, Repr

/-- Lookup in an association list: the first entry for the key. -/
def assocGet {κ ν : Type} [DecidableEq κ] : List (κ × ν) → κ → Option ν
  | [], _ => none
  | (k, v) :: rest, a => if k = a then some v else assocGet rest a

/-- Removal of a key. -/
def assocDel {κ ν : Type} [DecidableEq κ] (m : List (κ × ν)) (a : κ) : List (κ × ν) :=
  m.filter (fun e => decide (e.1 ≠ a))

/-- Insertion, replacing an earlier entry for the key. -/
def assocSet {κ ν : Type} [DecidableEq κ] (m : List (κ × ν)) (a : κ) (v : ν) : List (κ × ν) :=
  (a, v) :: assocDel m a

/-- The file system: paths to nodes. -/
abbrev FS := List (Path × Node)

/-- The relative link `ups`/`down` read from directory `dir`. -/
def resolve (dir : Path) (ups : Nat) (down : Path) : Path :=
  dir.take (dir.length - ups) ++ down

/-- Outcome of looking a path up. -/
inductive Lookup where
  | found (n : Node)
  | notExist
  | failed
  deriving DecidableEq, Repr

/-- The node a path leads to, following symbolic links at most `fuel` times. The link that
is followed is the one at the path itself; the directories above it are taken as written. -/
def follow : Nat → FS → Path → Lookup
  | 0, _, _ => .failed
  | fuel + 1, fs, p =>
    match assocGet fs p with
    | none => .notExist
    | some (.symlink ups down) => follow fuel fs (resolve p.dropLast ups down)
    | some n => .found n

/-- The number of links the kernel follows before `ELOOP`. -/
def maxLinks : Nat := 40

/-- A directory exists at `p`; the origin always does. -/
def isDirAt (fs : FS) (p : Path) : Bool :=
  decide (p = []) || decide (follow maxLinks fs p = .found .dir)

/-- The names of the entries of directory `p`: the entries written as `p` plus one name. -/
def children (fs : FS) (p : Path) : List String :=
  fs.filterMap (fun e => if e.1.dropLast = p then e.1.getLast? else none)

/-- Byte-wise order of file names, the order in which `os.ReadDir` sorts. -/
def charsLe : List Char → List Char → Bool
  | [], _ => true
  | _ :: _, [] => false
  | a :: as, b :: bs =>
    if a.toNat < b.toNat then true else if b.toNat < a.toNat then false else charsLe as bs

/-- A directory entry as `os.ReadDir` returns it. -/
structure DirEntry where
  name : String
  isDir : Bool
  deriving DecidableEq, Repr

/-- The entry of `p` called `name`; `IsDir` does not follow links. -/
def entryOf (fs : FS) (p : Path) (name : String) : DirEntry :=
  ⟨name, decide (assocGet fs (p ++ [name]) = some .dir)⟩

/-- The listing `os.ReadDir` gives: every entry once, sorted by file name. -/
def FS.readDir (fs : FS) (p : Path) : Option (List DirEntry) :=
  if isDirAt fs p then
    some (((children fs p).dedup.insertionSort (fun a b => charsLe a.data b.data = true)).map (entryOf fs p))
  else none

/-- The bytes `os.Open` and `io.Copy` read, following links. -/
def FS.readFile (fs : FS) (p : Path) : Option Content :=
  match follow maxLinks fs p with
  | .found (.file c) => some c
  | _ => none

/-- Creation of the directories `qs`, shortest first, keeping those that exist; it fails
when one of them is there and is not a directory. -/
def mkdirs : FS → List Path → Option FS
  | fs, [] => some fs
  | fs, q :: qs =>
    match assocGet fs q with
    | none => mkdirs (assocSet fs q .dir) qs
    | some _ => if follow maxLinks fs q = .found .dir then mkdirs fs qs else none

/-- The effect of `os.MkdirAll`: the path and all its missing ancestors become directories.
A call that fails leaves nothing behind. -/
def FS.mkdirAll (fs : FS) (p : Path) : Option FS := mkdirs fs p.inits.tail

/-- Every entry at or below `src` moved to the same place below `dst`. -/
def moveTree (fs : FS) (src dst : Path) : FS :=
  fs.map (fun e => if src.isPrefixOf e.1 then (dst ++ e.1.drop src.length, e.2) else e)

/-- The effect of `os.Rename` (`rename(2)`): the entry at `src` replaces what is at `dst`.
Both paths are taken as written. -/
def FS.rename (fs : FS) (src dst : Path) : Option FS :=
  match assocGet fs src with
  | none => none
  | some n =>
    if src = dst then some fs
    else if !isDirAt fs dst.dropLast then none
    else
      match n with
      | .dir =>
        if src.isPrefixOf dst then none
        else
          match assocGet fs dst with
          | none => some (moveTree fs src dst)
          | some .dir =>
            if children fs dst = [] then some (moveTree (assocDel fs dst) src dst) else none
          | some _ => none
      | _ =>
        match assocGet fs dst with
        | some .dir => none
        | _ => some (assocSet (assocDel fs src) dst n)

/-- The effect of `os.Symlink`: a new link at `p`, which must not exist. -/
def FS.symlink (fs : FS) (ups : Nat) (down : Path) (p : Path) : Option FS :=
  if assocGet fs p ≠ none then none
  else if !isDirAt fs p.dropLast then none
  else some (assocSet fs p (.symlink ups down))

/-- The length of the longest common beginning of two paths. -/
def commonLen : Path → Path → Nat
  | a :: as, b :: bs => if a = b then commonLen as bs + 1 else 0
  | _, _ => 0

/-- The relative path `filepath.Rel base targ` of cleaned paths: up out of what is left
of `base`, then down what is left of `targ`. -/
def Rel (base targ : Path) : Nat × Path :=
  (base.length - commonLen base targ, targ.drop (commonLen base targ))

/-! ## Operating-system calls, with their log -/

/-- The calls the program makes. -/
inductive Op where
  | readDir (p : Path)
  | mkdirAll (p : Path)
  | readFile (p : Path)
  | stat (p : Path)
  | rename (src dst : Path)
  | rel (base targ : Path)
  | symlink (ups : Nat) (down : Path) (p : Path)
  | exiftool (dir : Path)
  deriving DecidableEq, Repr

/-- The environment: which calls fail for a reason outside the modelled state. -/
structure Env where
  fault : Op → Bool

/-- The `photosIndex` map of `run`: fingerprint to target path. -/
abbrev Index := List (String × Path)

/-- The state of a run: file system, `photosIndex`, and the calls made so far, each
with whether it returned without error. -/
structure St where
  fs : FS
  index : Index
  log : List (Op × Bool)
  deriving DecidableEq

/-- Adds a call and its outcome to the log. -/
def St.logged (st : St) (op : Op) (ok : Bool) : St :=
  { st with log := st.log ++ [(op, ok)] }

/-- The call `os.ReadDir`. -/
def osReadDir (env : Env) (p : Path) (st : St) : Option (List DirEntry) × St :=
  if env.fault (.readDir p) then (none, st.logged (.readDir p) false)
  else
    match st.fs.readDir p with
    | some es => (some es, st.logged (.readDir p) true)
    | none => (none, st.logged (.readDir p) false)

/-- The call `os.MkdirAll`. -/
def osMkdirAll (env : Env) (p : Path) (st : St) : Option Unit × St :=
  if env.fault (.mkdirAll p) then (none, st.logged (.mkdirAll p) false)
  else
    match st.fs.mkdirAll p with
    | some fs => (some (), { st with fs := fs }.logged (.mkdirAll p) true)
    | none => (none, st.logged (.mkdirAll p) false)

/-- The call `os.Stat`, which follows links; the log notes whether something was found. -/
def osStat (env : Env) (p : Path) (st : St) : Lookup × St :=
  if env.fault (.stat p) then (.failed, st.logged (.stat p) false)
  else
    match follow maxLinks st.fs p with
    | .found n => (.found n, st.logged (.stat p) true)
    | r => (r, st.logged (.stat p) false)

/-- The call `os.Rename`. -/
def osRename (env : Env) (src dst : Path) (st : St) : Bool × St :=
  if env.fault (.rename src dst) then (false, st.logged (.rename src dst) false)
  else
    match st.fs.rename src dst with
    | some fs => (true, { st with fs := fs }.logged (.rename src dst) true)
    | none => (false, st.logged (.rename src dst) false)

/-- The call `filepath.Rel` on the cleaned paths the program passes. -/
def osRel (env : Env) (base targ : Path) (st : St) : Option (Nat × Path) × St :=
  if env.fault (.rel base targ) then (none, st.logged (.rel base targ) false)
  else (some (Rel base targ), st.logged (.rel base targ) true)

/-- The call `os.Symlink`. -/
def osSymlink (env : Env) (link : Nat × Path) (p : Path) (st : St) : Option Unit × St :=
  if env.fault (.symlink link.1 link.2 p) then (none, st.logged (.symlink link.1 link.2 p) false)
  else
    match st.fs.symlink link.1 link.2 p with
    | some fs => (some (), { st with fs := fs }.logged (.symlink link.1 link.2 p) true)
    | none => (none, st.logged (.symlink link.1 link.2 p) false)

/-- The command `exiftool -FileModifyDate<CreateDate -ext * -r dir`: it changes
modification times only, which the state does not hold. -/
def osExiftool (env : Env) (dir : Path) (st : St) : Option Unit × St :=
  if env.fault (.exiftool dir) then (none, st.logged (.exiftool dir) false)
  else (some (), st.logged (.exiftool dir) true)

/-! ## The program -/

/-- The function `getFileSha`: the SHA-1 of the file's bytes in hexadecimal, or an error. -/
def getFileSha (env : Env) (file : Path) (st : St) : Option String × St :=
  if env.fault (.readFile file) then (none, st.logged (.readFile file) false)
  else
    match st.fs.readFile file with
    | some c => (some (Sha1.hex c), st.logged (.readFile file) true)
    | none => (none, st.logged (.readFile file) false)

/-- The function `movePhotoIntoPlace`: unless `os.Stat` says that nothing exists at
`targetPath`, the path gets the fingerprint before its extension; then the file is renamed. -/
def movePhotoIntoPlace (env : Env) (sourcePath targetPath : Path) (sha : String) (st : St) :
    Option Path × St :=
  let r := osStat env targetPath st
  let targetPath := if r.1 ≠ .notExist then suffixed targetPath sha else targetPath
  let m := osRename env sourcePath targetPath r.2
  if m.1 then (some targetPath, m.2) else (none, m.2)

/-- The places where `run` returns an error, with the path or name the message carries. -/
inductive Err where
  | readGooglePhotos (dir : Path)
  | mkdirPhotos (dir : Path)
  | readYearDir (name : String)
  | sha (path : Path)
  | movePhoto (name : String)
  | mkdirArchive
  | readArchive
  | moveArchivePhoto (name : String)
  | mkdirAlbumOnly
  | mkdirAlbums
  | readAlbum (name : String)
  | mkdirAlbum (dir : Path)
  | moveAlbumOnly (name : String)
  | relPath (name : String)
  | symlink (name : String)
  | exiftool
  deriving DecidableEq, Repr

deriving instance DecidableEq for Except

/-- A computation of `run`: it ends with a value or an error, and always with a state. -/
def M (α : Type) : Type := St → Except Err α × St

/-- Sequencing: an error ends the computation, the state reached stays. -/
def M.bind {α β : Type} (m : M α) (f : α → M β) : M β := fun st =>
  match m st with
  | (.ok a, st1) => f a st1
  | (.error e, st1) => (.error e, st1)

instance : Monad M where
  pure a := fun st => (.ok a, st)
  bind := M.bind

/-- The pattern `x, err := call(); if err != nil return wrapped`. -/
def orFail {α : Type} (e : Err) (call : St → Option α × St) : M α := fun st =>
  match call st with
  | (some a, st1) => (.ok a, st1)
  | (none, st1) => (.error e, st1)

/-- The statement `photosIndex[sha] = path`. -/
def setIndex (sha : String) (path : Path) : M Unit := fun st =>
  (.ok (), { st with index := assocSet st.index sha path })

/-- Reading `photosIndex[sha]`. -/
def getIndex (sha : String) : M (Option Path) := fun st => (.ok (assocGet st.index sha), st)

/-- The statement `photosIndex := make(map[string]string)`. -/
def newIndex : M Unit := fun st => (.ok (), { st with index := [] })

/-- A `for _, x := range xs` loop. -/
def forEach {α : Type} : List α → (α → M Unit) → M Unit
  | [], _ => pure ()
  | x :: xs, body => do body x; forEach xs body

/-- Body of the loop over one year folder (lines 59-78). -/
def mainPhoto (env : Env) (sourcePhotosForYearDir targetPhotosDir : Path)
    (sourcePhoto : DirEntry) : M Unit :=
  if Ext sourcePhoto.name = ".json" then pure ()
  else do
    let sourcePath := sourcePhotosForYearDir ++ [sourcePhoto.name]
    let targetPath := targetPhotosDir ++ [sourcePhoto.name]
    let sha ← orFail (.sha targetPath) (getFileSha env sourcePath)
    let targetPath ← orFail (.movePhoto sourcePhoto.name)
      (movePhotoIntoPlace env sourcePath targetPath sha)
    setIndex sha targetPath

/-- Body of the first loop over the entries of `Google Photos` (lines 43-79). -/
def mainDir (env : Env) (sourceGooglePhotosDir targetPhotosDir : Path)
    (googlePhotosDirElement : DirEntry) : M Unit :=
  if !googlePhotosDirElement.isDir then pure ()
  else if !photosForYearRegex googlePhotosDirElement.name then pure ()
  else do
    let sourcePhotosForYearDir := sourceGooglePhotosDir ++ [googlePhotosDirElement.name]
    let sourcePhotosForYear ← orFail (.readYearDir googlePhotosDirElement.name)
      (osReadDir env sourcePhotosForYearDir)
    forEach sourcePhotosForYear (mainPhoto env sourcePhotosForYearDir targetPhotosDir)

/-- The main pass (lines 36-80): the photos of the year folders go to `<target>/Photos`. -/
def mainPass (env : Env) (sourceGooglePhotosDir targetDir : Path)
    (googlePhotosDirElements : List DirEntry) : M Unit := do
  let targetPhotosDir := targetDir ++ ["Photos"]
  orFail (.mkdirPhotos targetPhotosDir) (osMkdirAll env targetPhotosDir)
  forEach googlePhotosDirElements (mainDir env sourceGooglePhotosDir targetPhotosDir)

/-- Body of the loop over the archive (lines 95-117). -/
def archivePhoto (env : Env) (sourceArchiveDir targetArchiveDir : Path)
    (sourceArchivePhoto : DirEntry) : M Unit :=
  if Ext sourceArchivePhoto.name = ".json" then pure ()
  else do
    let sourcePath := sourceArchiveDir ++ [sourceArchivePhoto.name]
    let targetPath := targetArchiveDir ++ [sourceArchivePhoto.name]
    let sha ← orFail (.sha targetPath) (getFileSha env sourcePath)
    let targetPath ← orFail (.moveArchivePhoto sourceArchivePhoto.name)
      (movePhotoIntoPlace env sourcePath targetPath sha)
    match ← getIndex sha with
    | some _ => pure ()
    | none => setIndex sha targetPath

/-- The archive pass (lines 82-118). -/
def archivePass (env : Env) (sourceGooglePhotosDir targetDir : Path) : M Unit := do
  let targetArchiveDir := targetDir ++ ["Archive"]
  let sourceArchiveDir := sourceGooglePhotosDir ++ ["Archive"]
  orFail .mkdirArchive (osMkdirAll env targetArchiveDir)
  let sourceArchivePhotos ← orFail .readArchive
    (osReadDir env (sourceGooglePhotosDir ++ ["Archive"]))
  forEach sourceArchivePhotos (archivePhoto env sourceArchiveDir targetArchiveDir)

/-- Body of the loop over one album (lines 160-195). -/
def albumPhoto (env : Env) (sourceAlbumDir targetAlbumDir targetAlbumOnlyPhotosDir : Path)
    (albumPhoto : DirEntry) : M Unit :=
  if Ext albumPhoto.name = ".json" then pure ()
  else do
    let sourcePath := sourceAlbumDir ++ [albumPhoto.name]
    let targetPath := targetAlbumDir ++ [albumPhoto.name]
    let sha ← orFail (.sha sourcePath) (getFileSha env sourcePath)
    let actualPhotoPath ←
      match ← getIndex sha with
      | some mainDirectoryPhoto => pure mainDirectoryPhoto
      | none => do
        let albumOnlyPhotoPath := targetAlbumOnlyPhotosDir ++ [albumPhoto.name]
        let albumOnlyPhotoPath ← orFail (.moveAlbumOnly albumPhoto.name)
          (movePhotoIntoPlace env sourcePath albumOnlyPhotoPath sha)
        setIndex sha albumOnlyPhotoPath
        pure albumOnlyPhotoPath
    let targetRelativePhotoPath ← orFail (.relPath albumPhoto.name)
      (osRel env targetPath.dropLast actualPhotoPath)
    orFail (.symlink albumPhoto.name) (osSymlink env targetRelativePhotoPath targetPath)

/-- The end of an album step on its own (lines 187-194): the relative path and the link. -/
def linkStep (env : Env) (name : String) (targetPath actualPhotoPath : Path) : M Unit := do
  let targetRelativePhotoPath ← orFail (.relPath name)
    (osRel env targetPath.dropLast actualPhotoPath)
  orFail (.symlink name) (osSymlink env targetRelativePhotoPath targetPath)

/-- Body of the second loop over the entries of `Google Photos` (lines 135-196). -/
def albumDir (env : Env) (sourceGooglePhotosDir targetAlbumsDir targetAlbumOnlyPhotosDir : Path)
    (googlePhotosDirElement : DirEntry) : M Unit :=
  if !googlePhotosDirElement.isDir then pure ()
  else if photosForYearRegex googlePhotosDirElement.name then pure ()
  else if googlePhotosDirElement.name = "Trash" then pure ()
  else if googlePhotosDirElement.name = "Archive" then pure ()
  else do
    let sourceAlbumDir := sourceGooglePhotosDir ++ [googlePhotosDirElement.name]
    let albumPhotos ← orFail (.readAlbum googlePhotosDirElement.name)
      (osReadDir env sourceAlbumDir)
    let targetAlbumDir := targetAlbumsDir ++ [googlePhotosDirElement.name]
    orFail (.mkdirAlbum targetAlbumDir) (osMkdirAll env targetAlbumDir)
    forEach albumPhotos (albumPhoto env sourceAlbumDir targetAlbumDir targetAlbumOnlyPhotosDir)

/-- The album pass (lines 120-197). -/
def albumPass (env : Env) (sourceGooglePhotosDir targetDir : Path)
    (googlePhotosDirElements : List DirEntry) : M Unit := do
  let targetAlbumOnlyPhotosDir := targetDir ++ ["Album-only Photos"]
  orFail .mkdirAlbumOnly (osMkdirAll env targetAlbumOnlyPhotosDir)
  let targetAlbumsDir := targetDir ++ ["Albums"]
  orFail .mkdirAlbums (osMkdirAll env targetAlbumsDir)
  forEach googlePhotosDirElements
    (albumDir env sourceGooglePhotosDir targetAlbumsDir targetAlbumOnlyPhotosDir)

/-- The `exiftool` step (lines 199-211). -/
def exifPass (env : Env) (targetDir : Path) : M Unit :=
  forEach [targetDir ++ ["Photos"], targetDir ++ ["Archive"], targetDir ++ ["Album-only Photos"]]
    (fun dir => orFail .exiftool (osExiftool env dir))

/-- The function `run`. -/
def run (env : Env) (sourceDir targetDir : Path) : M Unit := do
  let sourceGooglePhotosDir := sourceDir ++ ["Google Photos"]
  let googlePhotosDirElements ← orFail (.readGooglePhotos sourceGooglePhotosDir)
    (osReadDir env sourceGooglePhotosDir)
  newIndex
  mainPass env sourceGooglePhotosDir targetDir googlePhotosDirElements
  archivePass env sourceGooglePhotosDir targetDir
  albumPass env sourceGooglePhotosDir targetDir googlePhotosDirElements
  exifPass env targetDir

/-! ## Which entries of `Google Photos` each pass takes -/

/-- The entries the first loop does not skip (lines 44-50). -/
def isYearFolder (e : DirEntry) : Bool := e.isDir && photosForYearRegex e.name

/-- The entries the album loop does not skip (lines 136-147). -/
def isAlbum (e : DirEntry) : Bool :=
  e.isDir && !photosForYearRegex e.name && !decide (e.name = "Trash") &&
    !decide (e.name = "Archive")

/-- In the words of the specification: the name has the form `Photos from <YYYY>`, that is
`Photos from ` followed by four digits and nothing else. -/
def hasYearForm (name : String) : Bool :=
  decide (name.data.length = 16) && matchHere name.data

/-- What the pattern accepts: `Photos from ` and four digits somewhere inside the name. -/
def containsYearForm (name : String) : Prop :=
  ∃ pre y post : List Char, y.length = 4 ∧ (∀ c ∈ y, isDigit c = true) ∧
    name.data = pre ++ "Photos from ".data ++ y ++ post

/-- The environment in which no call fails for an outside reason. -/
def noFault : Env := ⟨fun _ => false⟩

/-- A state with the given file system, before anything has run. -/
def St.init (fs : FS) : St := ⟨fs, [], []⟩

/-! ## The target at the start -/

/-- The path lies directly in one of the three stores of the target. -/
def inStores (targetDir : Path) (q : Path) : Bool :=
  decide (q.dropLast = targetDir ++ ["Photos"]) || decide (q.dropLast = targetDir ++ ["Archive"])
    || decide (q.dropLast = targetDir ++ ["Album-only Photos"])

/-- No regular file lies directly in `<target>/Photos`, `<target>/Archive` or
`<target>/Album-only Photos`. -/
def emptyStores (fs : FS) (targetDir : Path) : Bool :=
  fs.all (fun e => !(inStores targetDir e.1 && (match e.2 with | .file _ => true | _ => false)))

/-- Nothing exists below the target directory; the target itself is absent or an (empty)
directory. -/
def emptyTarget (fs : FS) (targetDir : Path) : Bool :=
  fs.all (fun e => !(targetDir.isPrefixOf e.1) ||
    (decide (e.1 = targetDir) && decide (e.2 = .dir)))

/-- No entry is a symbolic link. -/
def noSymlinks (fs : FS) : Bool :=
  fs.all (fun e => match e.2 with
    | .symlink _ _ => false
    | _ => true)

/-- Neither `p` nor a directory on the way to it is a symbolic link: the calls see `p` as it
is written. -/
def plainPath (fs : FS) (p : Path) : Bool :=
  p.inits.all (fun q => match assocGet fs q with
    | some (.symlink _ _) => false
    | _ => true)

/-- The path and every directory on the way to it is a directory or does not exist: it can
be created by `os.MkdirAll`. -/
def canMkdirAll (fs : FS) (p : Path) : Bool :=
  p.inits.all (fun q => decide (assocGet fs q = none) || decide (assocGet fs q = some .dir))

/-- Neither path lies at or below the other. -/
def apart (a b : Path) : Bool := !a.isPrefixOf b && !b.isPrefixOf a

/-! ## Trees given relative to a directory -/

/-- A tree whose paths are relative to `root`, placed at `root`. -/
def graft (root : Path) (tree : FS) : FS := tree.map (fun e => (root ++ e.1, e.2))

/-- The directories that lead to `p`, from the first component down to the parent of `p`. -/
def dirsAbove (p : Path) : FS := p.dropLast.inits.tail.map (fun q => (q, Node.dir))

/-- The file system seen from two places: at and below `gp` it is the relative tree `S`,
strictly below `t` it is the relative tree `T`, and what leads to `t` is a directory or
missing. -/
def Rep (gp t : Path) (fs : FS) (S T : FS) : Prop :=
  (∀ b, assocGet fs (gp ++ b) = assocGet S b) ∧
  (∀ a, a ≠ [] → assocGet fs (t ++ a) = assocGet T a) ∧
  (∀ q, q <+: t → assocGet fs q = none ∨ assocGet fs q = some .dir)

/-! ## Reading the log -/

/-- A logged call that returned an error. (`os.Stat` answering that nothing is there is not
one: `movePhotoIntoPlace` goes on after it.) -/
def failing (e : Op × Bool) : Bool :=
  !e.2 && (match e.1 with
    | .stat _ => false
    | _ => true)

/-- The effect of a call on the file system, when it succeeds. -/
def applyOp (fs : FS) : Op → FS
  | .mkdirAll p => (fs.mkdirAll p).getD fs
  | .rename src dst => (fs.rename src dst).getD fs
  | .symlink ups down p => (fs.symlink ups down p).getD fs
  | _ => fs

/-- The file system that the successful calls of a log, in their order, make of `fs`. -/
def replay (fs : FS) (log : List (Op × Bool)) : FS :=
  log.foldl (fun f e => if e.2 = true then applyOp f e.1 else f) fs

/-- The result is an error. -/
def isError {α : Type} : Except Err α → Bool
  | .error _ => true
  | .ok _ => false

/-- The calls a computation made: if it ended in an error, the last call failed and no
other did; otherwise none failed. -/
def Clean (new : List (Op × Bool)) (failed : Bool) : Prop :=
  if failed = true then
    ∃ pre e, new = pre ++ [e] ∧ failing e = true ∧ ∀ x ∈ pre, failing x = false
  else ∀ x ∈ new, failing x = false

/-- A computation only appends to the log, the file system it leaves is the one its
successful calls make, and it ends in an error exactly when its last call failed. -/
def Traced {α : Type} (m : M α) : Prop :=
  ∀ st, ∃ new, (m st).2.log = st.log ++ new ∧ (m st).2.fs = replay st.fs new ∧
    Clean new (isError (m st).1)

/-! ## Invariants of the passes -/

/-- Every regular file directly in `<target>/Photos` or `<target>/Archive` has its
fingerprint indexed, with a path in one of these two directories. -/
def PhotosIndexed (targetDir : Path) (fs : FS) (idx : Index) : Prop :=
  ∀ q c, (q.dropLast = targetDir ++ ["Photos"] ∨ q.dropLast = targetDir ++ ["Archive"]) →
    assocGet fs q = some (.file c) →
    ∃ p, assocGet idx (Sha1.hex c) = some p ∧
      (p.dropLast = targetDir ++ ["Photos"] ∨ p.dropLast = targetDir ++ ["Archive"])

/-- Every regular file directly in `<target>/Album-only Photos` is the indexed file of its
fingerprint. -/
def AlbumOnlyIndexed (targetDir : Path) (fs : FS) (idx : Index) : Prop :=
  ∀ q c, q.dropLast = targetDir ++ ["Album-only Photos"] → assocGet fs q = some (.file c) →
    assocGet idx (Sha1.hex c) = some q

/-- What holds during the main and the archive pass: the photos are indexed, nothing is in
`<target>/Album-only Photos` yet, and every index entry points into `<target>/Photos` or
`<target>/Archive`. -/
def InvMain (targetDir : Path) (fs : FS) (idx : Index) : Prop :=
  PhotosIndexed targetDir fs idx ∧
  (∀ q c, q.dropLast = targetDir ++ ["Album-only Photos"] → assocGet fs q ≠ some (.file c)) ∧
  (∀ s p, assocGet idx s = some p →
    p.dropLast = targetDir ++ ["Photos"] ∨ p.dropLast = targetDir ++ ["Archive"])

/-- What holds during the album pass. -/
def InvAlbum (targetDir : Path) (fs : FS) (idx : Index) : Prop :=
  PhotosIndexed targetDir fs idx ∧ AlbumOnlyIndexed targetDir fs idx

/-- Every index entry points to a regular file directly in one of the three stores. -/
def IndexReal (targetDir : Path) (fs : FS) (idx : Index) : Prop :=
  ∀ s p, assocGet idx s = some p →
    inStores targetDir p = true ∧ ∃ c, assocGet fs p = some (.file c)

/-- What holds during the main and the archive pass, for the links: the index points to
real files, there is no link, nothing is in an album directory, and if the target is the
source's `Google Photos` directory itself then `<target>/Archive` has no entry. -/
def InvBeforeAlbums (targetDir srcGP : Path) (fs : FS) (idx : Index) : Prop :=
  IndexReal targetDir fs idx ∧
  (∀ q u d, assocGet fs q ≠ some (.symlink u d)) ∧
  (∀ A n, assocGet fs (targetDir ++ ["Albums"] ++ [A] ++ [n]) = none) ∧
  (srcGP = targetDir → ∀ q, q.dropLast = targetDir ++ ["Archive"] → assocGet fs q = none)

/-- What holds during the album pass, for the links: the index points to real files, every
link is an entry of an album directory and resolves, from that directory, to a real file
in a store, and every entry of an album directory is a link. -/
def InvLinks (targetDir : Path) (fs : FS) (idx : Index) : Prop :=
  IndexReal targetDir fs idx ∧
  (∀ q u d, assocGet fs q = some (.symlink u d) →
    (∃ A n, q = targetDir ++ ["Albums"] ++ [A] ++ [n]) ∧
    inStores targetDir (resolve q.dropLast u d) = true ∧
    ∃ c, assocGet fs (resolve q.dropLast u d) = some (.file c)) ∧
  (∀ A n node, assocGet fs (targetDir ++ ["Albums"] ++ [A] ++ [n]) = some node →
    ∃ u d, node = .symlink u d)

/-- No name is both in the target's and in the source's `Archive`. -/
def ArchiveDisjoint (srcGP tgt : Path) (fs : FS) : Prop :=
  ∀ n, assocGet fs (tgt ++ ["Archive"] ++ [n]) ≠ none →
    assocGet fs (srcGP ++ ["Archive"] ++ [n]) = none

/-! ## Example trees -/

/-- A source whose only folder is called `Best Photos from 2019`, with one photo, and an
empty `Archive`. -/
def bestOfTree : FS :=
  [(["src"], .dir), (["src", "Google Photos"], .dir),
   (["src", "Google Photos", "Archive"], .dir),
   (["src", "Google Photos", "Best Photos from 2019"], .dir),
   (["src", "Google Photos", "Best Photos from 2019", "a.jpg"], .file [88])]

/-- Two year folders holding the same photo under different names, and an empty `Archive`. -/
def twinTree : FS :=
  [(["src"], .dir), (["src", "Google Photos"], .dir),
   (["src", "Google Photos", "Archive"], .dir),
   (["src", "Google Photos", "Photos from 2019"], .dir),
   (["src", "Google Photos", "Photos from 2019", "a.jpg"], .file [88]),
   (["src", "Google Photos", "Photos from 2020"], .dir),
   (["src", "Google Photos", "Photos from 2020", "b.jpg"], .file [88])]

/-- A photo at `dir/a.jpg` and nothing else. -/
def onePhoto : FS := [(["dir"], .dir), (["dir", "a.jpg"], .file [88])]

/-- A source whose `Archive` holds one photo. -/
def archiveOnly : FS :=
  [(["src"], .dir), (["src", "Google Photos"], .dir),
   (["src", "Google Photos", "Archive"], .dir),
   (["src", "Google Photos", "Archive", "a.jpg"], .file [88])]

/-- A photo waiting in `src`, and a target that already has a different `a.jpg`. -/
def collision : FS :=
  [(["src"], .dir), (["src", "a.jpg"], .file [89]),
   (["out"], .dir), (["out", "Photos"], .dir), (["out", "Photos", "a.jpg"], .file [88])]

/-- The first end-to-end scenario of the specification, exactly as written: `a.jpg` in
`Photos from 2020` and the same bytes as `a.jpg` in `AlbumFoo`; nothing else. -/
def scenarioFoo : FS :=
  [(["src"], .dir), (["src", "Google Photos"], .dir),
   (["src", "Google Photos", "Photos from 2020"], .dir),
   (["src", "Google Photos", "Photos from 2020", "a.jpg"], .file [88]),
   (["src", "Google Photos", "AlbumFoo"], .dir),
   (["src", "Google Photos", "AlbumFoo", "a.jpg"], .file [88])]

/-- Three different photos: `a.jpg` in two year folders, and next to the first one a file
whose name is `a_<SHA-1 of the second a.jpg>.jpg`. `Archive` is empty. -/
def lossTree : FS :=
  [(["src"], .dir), (["src", "Google Photos"], .dir),
   (["src", "Google Photos", "Archive"], .dir),
   (["src", "Google Photos", "Photos from 2019"], .dir),
   (["src", "Google Photos", "Photos from 2019", "a.jpg"], .file [88]),
   (["src", "Google Photos", "Photos from 2019",
     "a_23eb4d3f4155395a74e9d534f97ff4c1908f5aac.jpg"], .file [90]),
   (["src", "Google Photos", "Photos from 2020"], .dir),
   (["src", "Google Photos", "Photos from 2020", "a.jpg"], .file [89])]

/-- The same photo in a year folder and in `Archive`. -/
def archiveTwin : FS :=
  [(["src"], .dir), (["src", "Google Photos"], .dir),
   (["src", "Google Photos", "Archive"], .dir),
   (["src", "Google Photos", "Archive", "a.jpg"], .file [88]),
   (["src", "Google Photos", "Photos from 2020"], .dir),
   (["src", "Google Photos", "Photos from 2020", "a.jpg"], .file [88])]

/-- A year folder, an archive and two albums: `a.jpg` is in the year folder and in album A,
`x.jpg` of album A and `y.jpg` of album B are the same photo, found nowhere else. -/
def sharedTree : FS :=
  [(["src"], .dir), (["src", "Google Photos"], .dir),
   (["src", "Google Photos", "Archive"], .dir),
   (["src", "Google Photos", "Archive", "z.jpg"], .file [90]),
   (["src", "Google Photos", "Photos from 2020"], .dir),
   (["src", "Google Photos", "Photos from 2020", "a.jpg"], .file [88]),
   (["src", "Google Photos", "A"], .dir),
   (["src", "Google Photos", "A", "a.jpg"], .file [88]),
   (["src", "Google Photos", "A", "x.jpg"], .file [89]),
   (["src", "Google Photos", "B"], .dir),
   (["src", "Google Photos", "B", "y.jpg"], .file [89])]

/-- An album whose member `l.jpg` is a symbolic link to `../Trash/t.jpg`. -/
def linkedAlbum : FS :=
  [(["src"], .dir), (["src", "Google Photos"], .dir),
   (["src", "Google Photos", "Archive"], .dir),
   (["src", "Google Photos", "Trash"], .dir),
   (["src", "Google Photos", "Trash", "t.jpg"], .file [88]),
   (["src", "Google Photos", "Alb"], .dir),
   (["src", "Google Photos", "Alb", "l.jpg"], .symlink 1 ["Trash", "t.jpg"])]

/-- Three albums: `A1` holds `a.jpg` and a different photo whose name is
`a_<SHA-1 of A2/a.jpg>.jpg`, `A2` holds another `a.jpg`, and `A3` holds, as `x.jpg`, the
same photo as the second file of `A1`. `Archive` is empty. -/
def reusedName : FS :=
  [(["src"], .dir), (["src", "Google Photos"], .dir),
   (["src", "Google Photos", "Archive"], .dir),
   (["src", "Google Photos", "A1"], .dir),
   (["src", "Google Photos", "A1", "a.jpg"], .file [88]),
   (["src", "Google Photos", "A1", "a_23eb4d3f4155395a74e9d534f97ff4c1908f5aac.jpg"],
     .file [90]),
   (["src", "Google Photos", "A2"], .dir),
   (["src", "Google Photos", "A2", "a.jpg"], .file [89]),
   (["src", "Google Photos", "A3"], .dir),
   (["src", "Google Photos", "A3", "x.jpg"], .file [90])]

/-- A photo `z.jpg` in a year folder; in `Archive` the same photo under the name
`a_<SHA-1 of Archive/a.jpg>.jpg`, next to a different photo `a.jpg`. -/
def archiveInPlace : FS :=
  [(["src"], .dir), (["src", "Google Photos"], .dir),
   (["src", "Google Photos", "Archive"], .dir),
   (["src", "Google Photos", "Archive", "a.jpg"], .file [88]),
   (["src", "Google Photos", "Archive", "a_c032adc1ff629c9b66f22749ad667e6beadf144b.jpg"],
     .file [90]),
   (["src", "Google Photos", "Photos from 2020"], .dir),
   (["src", "Google Photos", "Photos from 2020", "z.jpg"], .file [90])]

/-- A photo in a year folder, and in `Archive` a symbolic link `l.jpg` to a file with the same
bytes in `Trash`. -/
def archiveLink : FS :=
  [(["src"], .dir), (["src", "Google Photos"], .dir),
   (["src", "Google Photos", "Archive"], .dir),
   (["src", "Google Photos", "Archive", "l.jpg"], .symlink 1 ["Trash", "t.jpg"]),
   (["src", "Google Photos", "Trash"], .dir),
   (["src", "Google Photos", "Trash", "t.jpg"], .file [88]),
   (["src", "Google Photos", "Photos from 2020"], .dir),
   (["src", "Google Photos", "Photos from 2020", "a.jpg"], .file [88])]

/-- The first end-to-end scenario with the `Archive` directory, relative to
`<source>/Google Photos`, for any bytes `X`. -/
def scenarioFooRel (X : Content) : FS :=
  [([], .dir), (["Archive"], .dir), (["Photos from 2020"], .dir),
   (["Photos from 2020", "a.jpg"], .file X), (["AlbumFoo"], .dir),
   (["AlbumFoo", "a.jpg"], .file X)]

/-- That scenario for any source directory: the directories leading to
`<source>/Google Photos`, and the tree there. Nothing else exists. -/
def scenarioFooAt (sourceDir : Path) (X : Content) : FS :=
  dirsAbove (sourceDir ++ ["Google Photos"]) ++
    graft (sourceDir ++ ["Google Photos"]) (scenarioFooRel X)

/-- Some entry directly in the directory `dir` is a regular file with these bytes. -/
def dirHoldsContent (fs : FS) (dir : Path) (c : Content) : Bool :=
  fs.any (fun e => decide (e.1.dropLast = dir) && decide (e.2 = .file c))

/-- Some entry of the file system is a regular file with these bytes. -/
def holdsContent (fs : FS) (c : Content) : Bool :=
  fs.any (fun e => decide (e.2 = .file c))

end Takeout

namespace Takeout

/-! ## Association lists -/

theorem assocGet_del {κ ν : Type} [DecidableEq κ] (m : List (κ × ν)) (a b : κ) :
    assocGet (assocDel m a) b = if b = a then none else assocGet m b := by
  induction m with
  | nil => simp [assocDel, assocGet]
  | cons e m ih =>
    obtain ⟨k, v⟩ := e
    unfold assocDel at ih ⊢
    by_cases hk : k = a
    · subst hk
      by_cases hb : b = k
      · subst hb; simpa using ih
      · have hb2 : ¬ k = b := fun h => hb h.symm
        simp [assocGet, hb, hb2] at ih ⊢
        exact ih
    · by_cases hb : b = a
      · subst hb
        simp [assocGet, hk] at ih ⊢
        exact ih
      · by_cases hkb : k = b
        · subst hkb; simp [assocGet, hk]
        · simp [assocGet, hk, hb, hkb] at ih ⊢
          exact ih

theorem assocGet_set {κ ν : Type} [DecidableEq κ] (m : List (κ × ν)) (a b : κ) (v : ν) :
    assocGet (assocSet m a v) b = if b = a then some v else assocGet m b := by
  unfold assocSet
  by_cases h : b = a
  · subst h; simp [assocGet]
  · have h2 : ¬ a = b := fun e => h e.symm
    simp [assocGet, h, h2, assocGet_del]

theorem assocGet_mem {κ ν : Type} [DecidableEq κ] {m : List (κ × ν)} {a : κ} {v : ν}
    (h : assocGet m a = some v) : (a, v) ∈ m := by
  induction m with
  | nil => simp [assocGet] at h
  | cons e m ih =>
    obtain ⟨k, w⟩ := e
    by_cases hk : k = a
    · subst hk; simp [assocGet] at h; subst h; simp
    · simp [assocGet, hk] at h; exact List.mem_cons_of_mem _ (ih h)

theorem assocGet_ne_none_of_mem {κ ν : Type} [DecidableEq κ] {m : List (κ × ν)} {a : κ} {v : ν}
    (h : (a, v) ∈ m) : assocGet m a ≠ none := by
  induction m with
  | nil => simp at h
  | cons e m ih =>
    obtain ⟨k, w⟩ := e
    by_cases hk : k = a
    · simp [assocGet, hk]
    · simp [assocGet, hk]
      rcases List.mem_cons.1 h with h1 | h1
      · exact absurd (congrArg Prod.fst h1).symm hk
      · exact ih h1

end Takeout

namespace Takeout

/-! ## Effects of the file-system operations -/

theorem follow_file {k : Nat} {fs : FS} {p : Path} {c : Content}
    (h : follow (k + 1) fs p = .found (.file c)) :
    assocGet fs p = some (.file c) ∨ ∃ u d, assocGet fs p = some (.symlink u d) := by
  unfold follow at h
  cases hn : assocGet fs p with
  | none => simp [hn] at h
  | some n =>
    cases n with
    | file c1 => simp [hn] at h; left; rw [h]
    | dir => simp [hn] at h
    | symlink u d => right; exact ⟨u, d, rfl⟩

theorem readFile_node {fs : FS} {p : Path} {c : Content} (h : fs.readFile p = some c) :
    assocGet fs p = some (.file c) ∨ ∃ u d, assocGet fs p = some (.symlink u d) := by
  unfold FS.readFile at h
  cases hf : follow maxLinks fs p with
  | found n =>
    cases n with
    | file c1 =>
      simp [hf] at h; subst h
      exact follow_file (k := 39) hf
    | dir => simp [hf] at h
    | symlink u d => simp [hf] at h
  | notExist => simp [hf] at h
  | failed => simp [hf] at h

theorem readFile_of_file {fs : FS} {p : Path} {c : Content}
    (h : assocGet fs p = some (.file c)) : fs.readFile p = some c := by
  simp [FS.readFile, maxLinks, follow, h]

theorem mkdirs_get : ∀ (qs : List Path) (fs fs1 : FS), mkdirs fs qs = some fs1 →
    ∀ q, assocGet fs1 q = assocGet fs q ∨
      (assocGet fs q = none ∧ assocGet fs1 q = some .dir ∧ q ∈ qs)
  | [], fs, fs1, h, q => by
    simp [mkdirs] at h; subst h; exact Or.inl rfl
  | a :: qs, fs, fs1, h, q => by
    unfold mkdirs at h
    cases ha : assocGet fs a with
    | none =>
      simp only [ha] at h
      rcases mkdirs_get qs _ _ h q with h1 | ⟨h1, h2, h3⟩
      · rw [assocGet_set] at h1
        by_cases hq : q = a
        · subst hq
          right
          simp only [if_true] at h1
          exact ⟨ha, h1, List.mem_cons_self _ _⟩
        · left; simpa [hq] using h1
      · rw [assocGet_set] at h1
        by_cases hq : q = a
        · simp [hq] at h1
        · right
          simp only [hq, if_false] at h1
          exact ⟨h1, h2, List.mem_cons_of_mem _ h3⟩
    | some n =>
      simp only [ha] at h
      by_cases hf : follow maxLinks fs a = .found .dir
      · simp only [hf, if_true] at h
        rcases mkdirs_get qs _ _ h q with h1 | ⟨h1, h2, h3⟩
        · exact Or.inl h1
        · exact Or.inr ⟨h1, h2, List.mem_cons_of_mem _ h3⟩
      · simp [hf] at h

theorem mkdirAll_get {fs fs1 : FS} {p : Path} (h : fs.mkdirAll p = some fs1) (q : Path) :
    assocGet fs1 q = assocGet fs q ∨
      (assocGet fs q = none ∧ assocGet fs1 q = some .dir ∧ q <+: p ∧ q ≠ []) := by
  rcases mkdirs_get _ _ _ h q with h1 | ⟨h1, h2, h3⟩
  · exact Or.inl h1
  · right
    refine ⟨h1, h2, ?_, ?_⟩
    · exact (List.mem_inits _ _).1 (List.mem_of_mem_tail h3)
    · rintro rfl
      cases p with
      | nil => simp at h3
      | cons a p =>
        rw [List.inits_cons] at h3
        simp at h3

theorem rename_nondir {fs fs1 : FS} {src dst : Path} {n : Node}
    (h : fs.rename src dst = some fs1) (hs : assocGet fs src = some n) (hn : n ≠ .dir) (q : Path) :
    assocGet fs1 q = if q = dst then some n else if q = src then none else assocGet fs q := by
  unfold FS.rename at h
  simp only [hs] at h
  by_cases hsd : src = dst
  · simp only [hsd, if_true, Option.some.injEq] at h
    subst h
    subst hsd
    by_cases hq : q = src
    · simp [hq, hs]
    · simp [hq]
  · simp only [hsd, if_false] at h
    by_cases hd : isDirAt fs dst.dropLast
    · simp only [hd, Bool.not_true, Bool.false_eq_true, if_false] at h
      cases n with
      | dir => exact absurd rfl hn
      | file c =>
        cases hdst : assocGet fs dst with
        | none =>
          simp only [hdst, Option.some.injEq] at h
          subst h
          rw [assocGet_set, assocGet_del]
        | some m =>
          cases m with
          | dir => simp [hdst] at h
          | file c1 =>
            simp only [hdst, Option.some.injEq] at h
            subst h
            rw [assocGet_set, assocGet_del]
          | symlink u d =>
            simp only [hdst, Option.some.injEq] at h
            subst h
            rw [assocGet_set, assocGet_del]
      | symlink u1 d1 =>
        cases hdst : assocGet fs dst with
        | none =>
          simp only [hdst, Option.some.injEq] at h
          subst h
          rw [assocGet_set, assocGet_del]
        | some m =>
          cases m with
          | dir => simp [hdst] at h
          | file c1 =>
            simp only [hdst, Option.some.injEq] at h
            subst h
            rw [assocGet_set, assocGet_del]
          | symlink u d =>
            simp only [hdst, Option.some.injEq] at h
            subst h
            rw [assocGet_set, assocGet_del]
    · simp [hd] at h

theorem symlink_get {fs fs1 : FS} {u : Nat} {d p : Path} (h : fs.symlink u d p = some fs1) :
    assocGet fs p = none ∧
      ∀ q, assocGet fs1 q = if q = p then some (.symlink u d) else assocGet fs q := by
  unfold FS.symlink at h
  by_cases hp : assocGet fs p = none
  · simp only [hp, ne_eq, not_true_eq_false, if_false] at h
    by_cases hd : isDirAt fs p.dropLast
    · simp only [hd, Bool.not_true, Bool.false_eq_true, if_false, Option.some.injEq] at h
      subst h
      exact ⟨hp, fun q => assocGet_set _ _ _ _⟩
    · simp [hd] at h
  · simp [hp] at h

/-! ## Directory listings -/

theorem mem_children {fs : FS} {p : Path} {name : String} :
    name ∈ children fs p ↔ assocGet fs (p ++ [name]) ≠ none := by
  unfold children
  rw [List.mem_filterMap]
  constructor
  · rintro ⟨⟨q, n⟩, hmem, hq⟩
    by_cases hd : q.dropLast = p
    · simp only [hd, if_true] at hq
      have hq2 : q = p ++ [name] := by
        have hne : q ≠ [] := by
          rintro rfl
          simp at hq
        rw [← List.dropLast_append_getLast hne, hd]
        rw [List.getLast?_eq_getLast _ hne] at hq
        simp only [Option.some.injEq] at hq
        rw [hq]
      subst hq2
      exact assocGet_ne_none_of_mem hmem
    · simp [hd] at hq
  · intro h
    cases hg : assocGet fs (p ++ [name]) with
    | none => exact absurd hg h
    | some n =>
      refine ⟨(p ++ [name], n), assocGet_mem hg, ?_⟩
      simp

theorem mem_readDir {fs : FS} {p : Path} {es : List DirEntry} (h : fs.readDir p = some es)
    (e : DirEntry) :
    e ∈ es ↔ assocGet fs (p ++ [e.name]) ≠ none ∧ e = entryOf fs p e.name := by
  unfold FS.readDir at h
  by_cases hd : isDirAt fs p
  · simp only [hd, if_true, Option.some.injEq] at h
    subst h
    rw [List.mem_map]
    constructor
    · rintro ⟨name, hmem, rfl⟩
      rw [List.mem_insertionSort, List.mem_dedup, mem_children] at hmem
      exact ⟨hmem, rfl⟩
    · rintro ⟨h1, h2⟩
      refine ⟨e.name, ?_, h2.symm⟩
      rw [List.mem_insertionSort, List.mem_dedup, mem_children]
      exact h1
  · simp [hd] at h

end Takeout

namespace Takeout

/-! ## The monad -/

@[simp] theorem bind_apply {α β : Type} (m : M α) (f : α → M β) (st : St) :
    (m >>= f) st = match m st with
      | (.ok a, st1) => f a st1
      | (.error e, st1) => (.error e, st1) := rfl

@[simp] theorem pure_apply {α : Type} (a : α) (st : St) :
    (pure a : M α) st = (.ok a, st) := rfl

@[simp] theorem logged_fs (st : St) (op : Op) (ok : Bool) : (st.logged op ok).fs = st.fs := rfl

@[simp] theorem logged_index (st : St) (op : Op) (ok : Bool) :
    (st.logged op ok).index = st.index := rfl

@[simp] theorem logged_log (st : St) (op : Op) (ok : Bool) :
    (st.logged op ok).log = st.log ++ [(op, ok)] := rfl

/-! ## What each call does to the state -/

theorem getFileSha_spec (env : Env) (p : Path) (st : St) :
    (getFileSha env p st).2.fs = st.fs ∧ (getFileSha env p st).2.index = st.index ∧
    (∃ ok, (getFileSha env p st).2.log = st.log ++ [(.readFile p, ok)]) ∧
    ∀ s, (getFileSha env p st).1 = some s → ∃ c, st.fs.readFile p = some c ∧ s = Sha1.hex c := by
  unfold getFileSha
  by_cases hf : env.fault (.readFile p) = true
  · simp [hf]
  · cases hr : st.fs.readFile p with
    | none => simp [hf, hr]
    | some c => simp [hf, hr]

theorem osRename_spec (env : Env) (src dst : Path) (st : St) :
    (osRename env src dst st).2.index = st.index ∧
    ((osRename env src dst st).1 = false →
      (osRename env src dst st).2.fs = st.fs ∧
      (osRename env src dst st).2.log = st.log ++ [(.rename src dst, false)]) ∧
    ((osRename env src dst st).1 = true →
      st.fs.rename src dst = some (osRename env src dst st).2.fs ∧
      (osRename env src dst st).2.log = st.log ++ [(.rename src dst, true)]) := by
  unfold osRename
  by_cases hf : env.fault (.rename src dst) = true
  · simp [hf]
  · cases hr : st.fs.rename src dst with
    | none => simp [hf, hr]
    | some fs1 => simp [hf, hr]

theorem osStat_spec (env : Env) (p : Path) (st : St) :
    (osStat env p st).2.fs = st.fs ∧ (osStat env p st).2.index = st.index ∧
    ∃ ok, (osStat env p st).2.log = st.log ++ [(.stat p, ok)] := by
  unfold osStat
  by_cases hf : env.fault (.stat p) = true
  · simp [hf]
  · cases hr : follow maxLinks st.fs p <;> simp [hf, hr]

theorem dropLast_suffixed (dir : Path) (name sha : String) :
    (suffixed (dir ++ [name]) sha).dropLast = dir := by
  simp [suffixed]

theorem movePhotoIntoPlace_spec (env : Env) (src tgt : Path) (sha : String) (st : St) :
    (movePhotoIntoPlace env src tgt sha st).2.index = st.index ∧
    ((movePhotoIntoPlace env src tgt sha st).1 = none →
      (movePhotoIntoPlace env src tgt sha st).2.fs = st.fs ∧
      ∃ ok p, (movePhotoIntoPlace env src tgt sha st).2.log =
        st.log ++ [(.stat tgt, ok), (.rename src p, false)]) ∧
    (∀ p, (movePhotoIntoPlace env src tgt sha st).1 = some p →
      (p = tgt ∨ p = suffixed tgt sha) ∧
      st.fs.rename src p = some (movePhotoIntoPlace env src tgt sha st).2.fs ∧
      ∃ ok, (movePhotoIntoPlace env src tgt sha st).2.log =
        st.log ++ [(.stat tgt, ok), (.rename src p, true)]) := by
  obtain ⟨hs1, hs2, ok, hs3⟩ := osStat_spec env tgt st
  unfold movePhotoIntoPlace
  simp only
  generalize hp : (if (osStat env tgt st).1 ≠ Lookup.notExist then suffixed tgt sha else tgt) = p
  have hpc : p = tgt ∨ p = suffixed tgt sha := by
    rw [← hp]; split <;> simp
  obtain ⟨hr1, hr2, hr3⟩ := osRename_spec env src p (osStat env tgt st).2
  cases hm : (osRename env src p (osStat env tgt st).2).1 with
  | false =>
    have h2 := hr2 hm
    simp only [Bool.false_eq_true, if_false]
    refine ⟨by rw [hr1, hs2], fun _ => ⟨by rw [h2.1, hs1], ok, p, by rw [h2.2, hs3]; simp⟩, ?_⟩
    intro q hq; simp at hq
  | true =>
    have h3 := hr3 hm
    simp only [if_true]
    refine ⟨by rw [hr1, hs2], fun h => by simp at h, ?_⟩
    intro q hq
    simp only [Option.some.injEq] at hq
    subst hq
    refine ⟨hpc, by rw [← hs1]; exact h3.1, ok, by rw [h3.2, hs3]; simp⟩

end Takeout

namespace Takeout

theorem orFail_apply {α : Type} (e : Err) (call : St → Option α × St) (st : St) :
    orFail e call st = match call st with
      | (some a, st1) => (.ok a, st1)
      | (none, st1) => (.error e, st1) := rfl

/-- What one step of the main pass does: nothing to the file system and the index, or one
move into the photos directory that is then indexed. -/
theorem mainPhoto_cases (env : Env) (sd td : Path) (e : DirEntry) (st : St) :
    ((mainPhoto env sd td e st).2.fs = st.fs ∧ (mainPhoto env sd td e st).2.index = st.index ∧
      (∃ new, (mainPhoto env sd td e st).2.log = st.log ++ new) ∧
      ((mainPhoto env sd td e st).1 = .ok () → Ext e.name = ".json")) ∨
    (∃ c p, Ext e.name ≠ ".json" ∧ st.fs.readFile (sd ++ [e.name]) = some c ∧
      st.fs.rename (sd ++ [e.name]) p = some (mainPhoto env sd td e st).2.fs ∧
      p.dropLast = td ∧
      (mainPhoto env sd td e st).2.index = assocSet st.index (Sha1.hex c) p ∧
      (∃ new, (mainPhoto env sd td e st).2.log = st.log ++ new ∧
        (Op.rename (sd ++ [e.name]) p, true) ∈ new) ∧
      (mainPhoto env sd td e st).1 = .ok ()) := by
  unfold mainPhoto
  by_cases hj : Ext e.name = ".json"
  · left; simp [hj]
  · simp only [hj, if_false, bind_apply, orFail_apply]
    obtain ⟨g1, g2, ⟨ok, g3⟩, g4⟩ := getFileSha_spec env (sd ++ [e.name]) st
    rcases hg : getFileSha env (sd ++ [e.name]) st with ⟨_ | s, st1⟩
    · rw [hg] at g1 g2 g3
      left
      simp only at g1 g2 g3 ⊢
      exact ⟨g1, g2, ⟨_, g3⟩, fun h => by simp at h⟩
    · rw [hg] at g1 g2 g3 g4
      simp only at g1 g2 g3 g4 ⊢
      obtain ⟨c, hc, rfl⟩ := g4 s rfl
      obtain ⟨m1, m2, m3⟩ := movePhotoIntoPlace_spec env (sd ++ [e.name]) (td ++ [e.name])
        (Sha1.hex c) st1
      rcases hm : movePhotoIntoPlace env (sd ++ [e.name]) (td ++ [e.name]) (Sha1.hex c) st1
        with ⟨_ | p, st2⟩
      · rw [hm] at m1 m2
        simp only at m1 m2 ⊢
        obtain ⟨m2a, ok2, p2, m2b⟩ := m2 trivial
        left
        refine ⟨by rw [m2a, g1], by rw [m1, g2], ⟨_, by rw [m2b, g3, List.append_assoc]⟩,
          fun h => by simp at h⟩
      · rw [hm] at m1 m3
        simp only at m1 m3 ⊢
        obtain ⟨m3a, m3b, ok2, m3c⟩ := m3 p rfl
        right
        refine ⟨c, p, hj, hc, by rw [← g1]; exact m3b, ?_, ?_, ?_, rfl⟩
        · rcases m3a with rfl | rfl
          · simp
          · exact dropLast_suffixed _ _ _
        · simp [setIndex, m1, g2]
        · refine ⟨_, by simp only [setIndex]; rw [m3c, g3, List.append_assoc], ?_⟩
          simp

/-- What one step of the archive pass does: as in the main pass, but the index entry is
written only when the fingerprint has none. -/
theorem archivePhoto_cases (env : Env) (sd td : Path) (e : DirEntry) (st : St) :
    ((archivePhoto env sd td e st).2.fs = st.fs ∧
      (archivePhoto env sd td e st).2.index = st.index ∧
      (∃ new, (archivePhoto env sd td e st).2.log = st.log ++ new) ∧
      ((archivePhoto env sd td e st).1 = .ok () → Ext e.name = ".json")) ∨
    (∃ c p, Ext e.name ≠ ".json" ∧ st.fs.readFile (sd ++ [e.name]) = some c ∧
      st.fs.rename (sd ++ [e.name]) p = some (archivePhoto env sd td e st).2.fs ∧
      p.dropLast = td ∧
      (archivePhoto env sd td e st).2.index =
        (if assocGet st.index (Sha1.hex c) = none then assocSet st.index (Sha1.hex c) p
          else st.index) ∧
      (∃ new, (archivePhoto env sd td e st).2.log = st.log ++ new ∧
        (Op.rename (sd ++ [e.name]) p, true) ∈ new) ∧
      (archivePhoto env sd td e st).1 = .ok ()) := by
  unfold archivePhoto
  by_cases hj : Ext e.name = ".json"
  · left; simp [hj]
  · simp only [hj, if_false, bind_apply, orFail_apply]
    obtain ⟨g1, g2, ⟨ok, g3⟩, g4⟩ := getFileSha_spec env (sd ++ [e.name]) st
    rcases hg : getFileSha env (sd ++ [e.name]) st with ⟨_ | s, st1⟩
    · rw [hg] at g1 g2 g3
      left
      simp only at g1 g2 g3 ⊢
      exact ⟨g1, g2, ⟨_, g3⟩, fun h => by simp at h⟩
    · rw [hg] at g1 g2 g3 g4
      simp only at g1 g2 g3 g4 ⊢
      obtain ⟨c, hc, rfl⟩ := g4 s rfl
      obtain ⟨m1, m2, m3⟩ := movePhotoIntoPlace_spec env (sd ++ [e.name]) (td ++ [e.name])
        (Sha1.hex c) st1
      rcases hm : movePhotoIntoPlace env (sd ++ [e.name]) (td ++ [e.name]) (Sha1.hex c) st1
        with ⟨_ | p, st2⟩
      · rw [hm] at m1 m2
        simp only at m1 m2 ⊢
        obtain ⟨m2a, ok2, p2, m2b⟩ := m2 trivial
        left
        refine ⟨by rw [m2a, g1], by rw [m1, g2], ⟨_, by rw [m2b, g3, List.append_assoc]⟩,
          fun h => by simp at h⟩
      · rw [hm] at m1 m3
        simp only at m1 m3 ⊢
        obtain ⟨m3a, m3b, ok2, m3c⟩ := m3 p rfl
        right
        refine ⟨c, p, hj, hc, ?_, ?_, ?_, ?_, ?_⟩
        · simp only [getIndex]
          cases hi : assocGet st2.index (Sha1.hex c) with
          | none => simp only [setIndex]; rw [← g1]; exact m3b
          | some q => simp only [pure_apply]; rw [← g1]; exact m3b
        · rcases m3a with rfl | rfl
          · simp
          · exact dropLast_suffixed _ _ _
        · simp only [getIndex]
          rw [← g2, ← m1]
          cases hi : assocGet st2.index (Sha1.hex c) with
          | none => simp [setIndex]
          | some q => simp
        · simp only [getIndex]
          cases hi : assocGet st2.index (Sha1.hex c) with
          | none =>
            refine ⟨_, by simp only [setIndex]; rw [m3c, g3, List.append_assoc], ?_⟩
            simp
          | some q =>
            refine ⟨_, by simp only [pure_apply]; rw [m3c, g3, List.append_assoc], ?_⟩
            simp
        · simp only [getIndex]
          cases hi : assocGet st2.index (Sha1.hex c) <;> rfl

end Takeout

namespace Takeout

theorem osRel_spec (env : Env) (b t : Path) (st : St) :
    (osRel env b t st).2.fs = st.fs ∧ (osRel env b t st).2.index = st.index ∧
    (∃ ok, (osRel env b t st).2.log = st.log ++ [(.rel b t, ok)]) ∧
    ∀ r, (osRel env b t st).1 = some r → r = Rel b t := by
  unfold osRel
  by_cases hf : env.fault (.rel b t) = true
  · simp [hf]
  · simp only [hf, Bool.false_eq_true, if_false, logged_fs, logged_index, logged_log,
      Option.some.injEq, true_and]
    exact ⟨⟨_, rfl⟩, fun r h => h.symm⟩

theorem osSymlink_spec (env : Env) (l : Nat × Path) (p : Path) (st : St) :
    (osSymlink env l p st).2.index = st.index ∧
    (∃ ok, (osSymlink env l p st).2.log = st.log ++ [(.symlink l.1 l.2 p, ok)]) ∧
    ((osSymlink env l p st).1 = none → (osSymlink env l p st).2.fs = st.fs) ∧
    ((osSymlink env l p st).1 = some () →
      st.fs.symlink l.1 l.2 p = some (osSymlink env l p st).2.fs) := by
  unfold osSymlink
  by_cases hf : env.fault (.symlink l.1 l.2 p) = true
  · simp [hf]
  · cases hr : st.fs.symlink l.1 l.2 p with
    | none => simp [hf, hr]
    | some fs1 => simp [hf, hr]

theorem linkStep_spec (env : Env) (name : String) (ta ip : Path) (x : String) (st : St) :
    (linkStep env name (ta ++ [x]) ip st).2.index = st.index ∧
    (∃ new, (linkStep env name (ta ++ [x]) ip st).2.log = st.log ++ new) ∧
    (((linkStep env name (ta ++ [x]) ip st).2.fs = st.fs ∧
        (linkStep env name (ta ++ [x]) ip st).1 ≠ .ok ()) ∨
      (st.fs.symlink (Rel ta ip).1 (Rel ta ip).2 (ta ++ [x]) =
          some (linkStep env name (ta ++ [x]) ip st).2.fs ∧
        (linkStep env name (ta ++ [x]) ip st).1 = .ok ())) := by
  unfold linkStep
  simp only [bind_apply, orFail_apply, List.dropLast_concat]
  obtain ⟨r1, r2, ⟨ok, r3⟩, r4⟩ := osRel_spec env ta ip st
  rcases hr : osRel env ta ip st with ⟨_ | r, st1⟩
  · rw [hr] at r1 r2 r3
    simp only at r1 r2 r3 ⊢
    exact ⟨r2, ⟨_, r3⟩, Or.inl ⟨r1, by simp⟩⟩
  · rw [hr] at r1 r2 r3 r4
    simp only at r1 r2 r3 r4 ⊢
    have hrr := r4 r rfl
    subst hrr
    obtain ⟨s1, ⟨ok2, s2⟩, s3, s4⟩ := osSymlink_spec env (Rel ta ip) (ta ++ [x]) st1
    rcases hs : osSymlink env (Rel ta ip) (ta ++ [x]) st1 with ⟨_ | u, st2⟩
    · rw [hs] at s1 s2 s3
      simp only at s1 s2 s3 ⊢
      exact ⟨by rw [s1, r2], ⟨_, by rw [s2, r3, List.append_assoc]⟩,
        Or.inl ⟨by rw [s3 trivial, r1], by simp⟩⟩
    · rw [hs] at s1 s2 s4
      simp only at s1 s2 s4 ⊢
      exact ⟨by rw [s1, r2], ⟨_, by rw [s2, r3, List.append_assoc]⟩,
        Or.inr ⟨by rw [← r1]; exact s4 trivial, trivial⟩⟩

/-- What one step of the album pass does: nothing; or, the fingerprint being indexed, only
the link; or a move into the album-only directory that is indexed, and then the link. -/
theorem albumPhoto_cases (env : Env) (sd ta tao : Path) (e : DirEntry) (st : St) :
    ((albumPhoto env sd ta tao e st).2.fs = st.fs ∧
      (albumPhoto env sd ta tao e st).2.index = st.index ∧
      (∃ new, (albumPhoto env sd ta tao e st).2.log = st.log ++ new) ∧
      ((albumPhoto env sd ta tao e st).1 = .ok () → Ext e.name = ".json")) ∨
    (∃ c ip, Ext e.name ≠ ".json" ∧ st.fs.readFile (sd ++ [e.name]) = some c ∧
      assocGet st.index (Sha1.hex c) = some ip ∧
      (albumPhoto env sd ta tao e st).2.index = st.index ∧
      st.fs.symlink (Rel ta ip).1 (Rel ta ip).2 (ta ++ [e.name]) =
        some (albumPhoto env sd ta tao e st).2.fs ∧
      (∃ new, (albumPhoto env sd ta tao e st).2.log = st.log ++ new) ∧
      (albumPhoto env sd ta tao e st).1 = .ok ()) ∨
    (∃ c p fs1, Ext e.name ≠ ".json" ∧ st.fs.readFile (sd ++ [e.name]) = some c ∧
      assocGet st.index (Sha1.hex c) = none ∧
      st.fs.rename (sd ++ [e.name]) p = some fs1 ∧
      p.dropLast = tao ∧
      (albumPhoto env sd ta tao e st).2.index = assocSet st.index (Sha1.hex c) p ∧
      (∃ new, (albumPhoto env sd ta tao e st).2.log = st.log ++ new ∧
        (Op.rename (sd ++ [e.name]) p, true) ∈ new) ∧
      (((albumPhoto env sd ta tao e st).2.fs = fs1 ∧
          (albumPhoto env sd ta tao e st).1 ≠ .ok ()) ∨
        (fs1.symlink (Rel ta p).1 (Rel ta p).2 (ta ++ [e.name]) =
            some (albumPhoto env sd ta tao e st).2.fs ∧
          (albumPhoto env sd ta tao e st).1 = .ok ())) ∧
      (movePhotoIntoPlace env (sd ++ [e.name]) (tao ++ [e.name]) (Sha1.hex c)
        (getFileSha env (sd ++ [e.name]) st).2).1 = some p) := by
  have hjp : ∀ (ip : Path) (s : St),
      (do
        let targetRelativePhotoPath ← orFail (Err.relPath e.name)
          (osRel env (ta ++ [e.name]).dropLast ip)
        orFail (Err.symlink e.name) (osSymlink env targetRelativePhotoPath (ta ++ [e.name]))) s
      = linkStep env e.name (ta ++ [e.name]) ip s := fun _ _ => rfl
  unfold albumPhoto
  by_cases hj : Ext e.name = ".json"
  · left; simp [hj]
  · simp only [hj, if_false, bind_apply, orFail_apply]
    obtain ⟨g1, g2, ⟨ok, g3⟩, g4⟩ := getFileSha_spec env (sd ++ [e.name]) st
    rcases hg : getFileSha env (sd ++ [e.name]) st with ⟨_ | s, st1⟩
    · rw [hg] at g1 g2 g3
      left
      simp only at g1 g2 g3 ⊢
      exact ⟨g1, g2, ⟨_, g3⟩, fun h => by simp at h⟩
    · rw [hg] at g1 g2 g3 g4
      simp only at g1 g2 g3 g4 ⊢
      obtain ⟨c, hc, rfl⟩ := g4 s rfl
      simp only [getIndex]
      cases hi : assocGet st1.index (Sha1.hex c) with
      | some ip =>
        simp only [pure_apply, bind_apply, orFail_apply]
        obtain ⟨l1, ⟨new, l2⟩, l3⟩ := linkStep_spec env e.name ta ip e.name st1
        unfold linkStep at l1 l2 l3
        simp only [bind_apply, orFail_apply] at l1 l2 l3
        rcases l3 with ⟨l3a, l3b⟩ | ⟨l3a, l3b⟩
        · left
          refine ⟨by rw [l3a, g1], by rw [l1, g2], ⟨_, by rw [l2, g3, List.append_assoc]⟩, ?_⟩
          intro h; exact absurd h l3b
        · right; left
          refine ⟨c, ip, hj, hc, by rw [← g2]; exact hi, by rw [l1, g2], ?_,
            ⟨_, by rw [l2, g3, List.append_assoc]⟩, l3b⟩
          rw [← g1]; exact l3a
      | none =>
        simp only [pure_apply, bind_apply, orFail_apply]
        obtain ⟨m1, m2, m3⟩ := movePhotoIntoPlace_spec env (sd ++ [e.name]) (tao ++ [e.name])
          (Sha1.hex c) st1
        rcases hm : movePhotoIntoPlace env (sd ++ [e.name]) (tao ++ [e.name]) (Sha1.hex c) st1
          with ⟨_ | p, st2⟩
        · rw [hm] at m1 m2
          simp only at m1 m2 ⊢
          obtain ⟨m2a, ok2, p2, m2b⟩ := m2 trivial
          left
          refine ⟨by rw [m2a, g1], by rw [m1, g2], ⟨_, by rw [m2b, g3, List.append_assoc]⟩,
            fun h => by simp at h⟩
        · rw [hm] at m1 m3
          simp only at m1 m3 ⊢
          obtain ⟨m3a, m3b, ok2, m3c⟩ := m3 p rfl
          right; right
          simp only [setIndex]
          obtain ⟨l1, ⟨new, l2⟩, l3⟩ := linkStep_spec env e.name ta p e.name
            { st2 with index := assocSet st2.index (Sha1.hex c) p }
          unfold linkStep at l1 l2 l3
          simp only [bind_apply, orFail_apply] at l1 l2 l3
          refine ⟨c, p, st2.fs, hj, hc, by rw [← g2]; exact hi, by rw [← g1]; exact m3b, ?_,
            by rw [l1, m1, g2], ⟨_, by rw [l2, m3c, g3, List.append_assoc, List.append_assoc], ?_⟩,
            l3, by rw [hm]⟩
          · rcases m3a with rfl | rfl
            · simp
            · exact dropLast_suffixed _ _ _
          · simp

end Takeout

namespace Takeout

theorem osReadDir_spec (env : Env) (p : Path) (st : St) :
    (osReadDir env p st).2.fs = st.fs ∧ (osReadDir env p st).2.index = st.index ∧
    (∃ ok, (osReadDir env p st).2.log = st.log ++ [(.readDir p, ok)]) ∧
    ∀ es, (osReadDir env p st).1 = some es → st.fs.readDir p = some es := by
  unfold osReadDir
  by_cases hf : env.fault (.readDir p) = true
  · simp [hf]
  · cases hr : st.fs.readDir p with
    | none => simp [hf, hr]
    | some es => simp [hf, hr]

theorem osMkdirAll_spec (env : Env) (p : Path) (st : St) :
    (osMkdirAll env p st).2.index = st.index ∧
    (∃ ok, (osMkdirAll env p st).2.log = st.log ++ [(.mkdirAll p, ok)]) ∧
    ((osMkdirAll env p st).1 = none → (osMkdirAll env p st).2.fs = st.fs) ∧
    ((osMkdirAll env p st).1 = some () →
      st.fs.mkdirAll p = some (osMkdirAll env p st).2.fs) := by
  unfold osMkdirAll
  by_cases hf : env.fault (.mkdirAll p) = true
  · simp [hf]
  · cases hr : st.fs.mkdirAll p with
    | none => simp [hf, hr]
    | some fs1 => simp [hf, hr]

theorem osExiftool_spec (env : Env) (p : Path) (st : St) :
    (osExiftool env p st).2.fs = st.fs ∧ (osExiftool env p st).2.index = st.index := by
  unfold osExiftool
  by_cases hf : env.fault (.exiftool p) = true <;> simp [hf]

theorem entry_eta (e : DirEntry) (hd : e.isDir = true) : e = ⟨e.name, true⟩ := by
  have h0 : e = ⟨e.name, e.isDir⟩ := rfl
  rw [hd] at h0; exact h0

/-! ## Lifting a property of the file system and the index through loops and passes -/

theorem forEach_keeps {α : Type} (P : St → Prop) (body : α → M Unit) :
    ∀ (xs : List α), (∀ x ∈ xs, ∀ st, P st → P (body x st).2) →
      ∀ st, P st → P (forEach xs body st).2
  | [], _, st, h => by simpa [forEach] using h
  | x :: xs, hb, st, h => by
    simp only [forEach, bind_apply]
    have h1 := hb x (List.mem_cons_self _ _) st h
    rcases hx : body x st with ⟨_ | u, st1⟩
    · rw [hx] at h1; exact h1
    · rw [hx] at h1
      exact forEach_keeps P body xs (fun y hy => hb y (List.mem_cons_of_mem _ hy)) st1 h1

theorem mkdir_keeps (P : FS → Index → Prop) (env : Env) (e : Err) (p : Path)
    (hmk : ∀ fs fs1 idx, P fs idx → fs.mkdirAll p = some fs1 → P fs1 idx) (st : St)
    (h : P st.fs st.index) :
    P (orFail e (osMkdirAll env p) st).2.fs (orFail e (osMkdirAll env p) st).2.index := by
  obtain ⟨m1, _, m3, m4⟩ := osMkdirAll_spec env p st
  rw [orFail_apply]
  rcases hm : osMkdirAll env p st with ⟨_ | u, st1⟩
  · rw [hm] at m1 m3
    simp only at m1 m3 ⊢
    rw [m1, m3 trivial]; exact h
  · rw [hm] at m1 m4
    simp only at m1 m4 ⊢
    rw [m1]; exact hmk _ _ _ h (m4 trivial)

theorem mainDir_keeps (P : FS → Index → Prop) (env : Env) (srcGP tp : Path) (e : DirEntry)
    (hstep : photosForYearRegex e.name = true → e.isDir = true → ∀ x st, P st.fs st.index →
      P (mainPhoto env (srcGP ++ [e.name]) tp x st).2.fs
        (mainPhoto env (srcGP ++ [e.name]) tp x st).2.index)
    (st : St) (h : P st.fs st.index) :
    P (mainDir env srcGP tp e st).2.fs (mainDir env srcGP tp e st).2.index := by
  unfold mainDir
  by_cases hd : e.isDir = true
  · by_cases hy : photosForYearRegex e.name = true
    · simp only [hd, hy, Bool.not_true, Bool.false_eq_true, if_false, bind_apply, orFail_apply]
      obtain ⟨r1, r2, _, _⟩ := osReadDir_spec env (srcGP ++ [e.name]) st
      rcases hr : osReadDir env (srcGP ++ [e.name]) st with ⟨_ | es, st1⟩
      · rw [hr] at r1 r2
        simp only at r1 r2 ⊢
        rw [r1, r2]; exact h
      · rw [hr] at r1 r2
        simp only at r1 r2 ⊢
        exact forEach_keeps (fun s => P s.fs s.index) _ es (fun x _ s hs => hstep hy hd x s hs)
          st1 (by show P st1.fs st1.index; rw [r1, r2]; exact h)
    · simp [hd, hy, h]
  · simp [hd, h]

theorem mainPass_keeps (P : FS → Index → Prop) (env : Env) (srcGP tgt : Path)
    (es : List DirEntry)
    (hmk : ∀ fs fs1 idx, P fs idx → fs.mkdirAll (tgt ++ ["Photos"]) = some fs1 → P fs1 idx)
    (hstep : ∀ d, photosForYearRegex d = true → (⟨d, true⟩ : DirEntry) ∈ es →
      ∀ x st, P st.fs st.index →
      P (mainPhoto env (srcGP ++ [d]) (tgt ++ ["Photos"]) x st).2.fs
        (mainPhoto env (srcGP ++ [d]) (tgt ++ ["Photos"]) x st).2.index)
    (st : St) (h : P st.fs st.index) :
    P (mainPass env srcGP tgt es st).2.fs (mainPass env srcGP tgt es st).2.index := by
  unfold mainPass
  simp only [bind_apply]
  have h1 := mkdir_keeps P env (.mkdirPhotos (tgt ++ ["Photos"])) (tgt ++ ["Photos"]) hmk st h
  rcases hm : orFail (Err.mkdirPhotos (tgt ++ ["Photos"])) (osMkdirAll env (tgt ++ ["Photos"])) st
    with ⟨_ | u, st1⟩
  · rw [hm] at h1; exact h1
  · rw [hm] at h1
    simp only at h1 ⊢
    refine forEach_keeps (fun s => P s.fs s.index) _ es (fun e he s hs => ?_) st1 h1
    exact mainDir_keeps P env srcGP _ e
      (fun hy hd => hstep e.name hy (entry_eta e hd ▸ he)) s hs

theorem archivePass_keeps (P : FS → Index → Prop) (env : Env) (srcGP tgt : Path)
    (hmk : ∀ fs fs1 idx, P fs idx → fs.mkdirAll (tgt ++ ["Archive"]) = some fs1 → P fs1 idx)
    (hstep : ∀ x st, P st.fs st.index →
      P (archivePhoto env (srcGP ++ ["Archive"]) (tgt ++ ["Archive"]) x st).2.fs
        (archivePhoto env (srcGP ++ ["Archive"]) (tgt ++ ["Archive"]) x st).2.index)
    (st : St) (h : P st.fs st.index) :
    P (archivePass env srcGP tgt st).2.fs (archivePass env srcGP tgt st).2.index := by
  unfold archivePass
  simp only [bind_apply]
  have h1 := mkdir_keeps P env .mkdirArchive (tgt ++ ["Archive"]) hmk st h
  rcases hm : orFail Err.mkdirArchive (osMkdirAll env (tgt ++ ["Archive"])) st with ⟨_ | u, st1⟩
  · rw [hm] at h1; exact h1
  · rw [hm] at h1
    simp only at h1 ⊢
    rw [orFail_apply]
    obtain ⟨r1, r2, _, _⟩ := osReadDir_spec env (srcGP ++ ["Archive"]) st1
    rcases hr : osReadDir env (srcGP ++ ["Archive"]) st1 with ⟨_ | es, st2⟩
    · rw [hr] at r1 r2
      simp only at r1 r2 ⊢
      rw [r1, r2]; exact h1
    · rw [hr] at r1 r2
      simp only at r1 r2 ⊢
      exact forEach_keeps (fun s => P s.fs s.index) _ es (fun x _ s hs => hstep x s hs)
        st2 (by show P st2.fs st2.index; rw [r1, r2]; exact h1)

/-- The guard of the album loop: a directory that is no year folder, `Trash` or `Archive`. -/
theorem albumDir_skip (env : Env) (srcGP ta tao : Path) (e : DirEntry)
    (h : ¬ (e.isDir = true ∧ photosForYearRegex e.name = false ∧ e.name ≠ "Trash" ∧
      e.name ≠ "Archive")) :
    albumDir env srcGP ta tao e = pure () := by
  unfold albumDir
  by_cases hd : e.isDir = true
  · by_cases hy : photosForYearRegex e.name = true
    · simp [hd, hy]
    · by_cases ht : e.name = "Trash"
      · simp [hd, hy, ht]
      · by_cases ha : e.name = "Archive"
        · simp [hd, hy, ht, ha]
        · exact absurd ⟨hd, by simpa using hy, ht, ha⟩ h
  · simp [hd]

theorem albumDir_keeps (P : FS → Index → Prop) (env : Env) (srcGP ta tao : Path) (e : DirEntry)
    (hmk : ∀ fs fs1 idx, P fs idx → fs.mkdirAll (ta ++ [e.name]) = some fs1 → P fs1 idx)
    (hstep : e.isDir = true → photosForYearRegex e.name = false → e.name ≠ "Trash" →
      e.name ≠ "Archive" → ∀ x st, P st.fs st.index →
      P (albumPhoto env (srcGP ++ [e.name]) (ta ++ [e.name]) tao x st).2.fs
        (albumPhoto env (srcGP ++ [e.name]) (ta ++ [e.name]) tao x st).2.index)
    (st : St) (h : P st.fs st.index) :
    P (albumDir env srcGP ta tao e st).2.fs (albumDir env srcGP ta tao e st).2.index := by
  by_cases hg : e.isDir = true ∧ photosForYearRegex e.name = false ∧ e.name ≠ "Trash" ∧
      e.name ≠ "Archive"
  · obtain ⟨hd, hy, ht, ha⟩ := hg
    unfold albumDir
    simp only [hd, hy, ht, ha, Bool.not_true, Bool.false_eq_true, if_false, bind_apply,
      orFail_apply]
    obtain ⟨r1, r2, _, _⟩ := osReadDir_spec env (srcGP ++ [e.name]) st
    rcases hr : osReadDir env (srcGP ++ [e.name]) st with ⟨_ | es, st1⟩
    · rw [hr] at r1 r2
      simp only at r1 r2 ⊢
      rw [r1, r2]; exact h
    · rw [hr] at r1 r2
      simp only at r1 r2 ⊢
      have h1 := mkdir_keeps P env (.mkdirAlbum (ta ++ [e.name])) (ta ++ [e.name]) hmk st1
        (by rw [r1, r2]; exact h)
      rw [orFail_apply] at h1
      rcases hm : osMkdirAll env (ta ++ [e.name]) st1 with ⟨_ | u, st2⟩
      · rw [hm] at h1; exact h1
      · rw [hm] at h1
        simp only at h1 ⊢
        exact forEach_keeps (fun s => P s.fs s.index) _ es
          (fun x _ s hs => hstep hd hy ht ha x s hs) st2 h1
  · rw [albumDir_skip env srcGP ta tao e hg]; exact h

theorem albumPass_keeps (P : FS → Index → Prop) (env : Env) (srcGP tgt : Path)
    (es : List DirEntry)
    (hmk1 : ∀ fs fs1 idx, P fs idx → fs.mkdirAll (tgt ++ ["Album-only Photos"]) = some fs1 →
      P fs1 idx)
    (hmk2 : ∀ fs fs1 idx, P fs idx → fs.mkdirAll (tgt ++ ["Albums"]) = some fs1 → P fs1 idx)
    (hmk3 : ∀ d fs fs1 idx, P fs idx → fs.mkdirAll (tgt ++ ["Albums"] ++ [d]) = some fs1 →
      P fs1 idx)
    (hstep : ∀ d, (⟨d, true⟩ : DirEntry) ∈ es → photosForYearRegex d = false → d ≠ "Trash" →
      d ≠ "Archive" → ∀ x st, P st.fs st.index →
      P (albumPhoto env (srcGP ++ [d]) (tgt ++ ["Albums"] ++ [d])
          (tgt ++ ["Album-only Photos"]) x st).2.fs
        (albumPhoto env (srcGP ++ [d]) (tgt ++ ["Albums"] ++ [d])
          (tgt ++ ["Album-only Photos"]) x st).2.index)
    (st : St) (h : P st.fs st.index) :
    P (albumPass env srcGP tgt es st).2.fs (albumPass env srcGP tgt es st).2.index := by
  unfold albumPass
  simp only [bind_apply]
  have h1 := mkdir_keeps P env .mkdirAlbumOnly (tgt ++ ["Album-only Photos"]) hmk1 st h
  rcases hm : orFail Err.mkdirAlbumOnly (osMkdirAll env (tgt ++ ["Album-only Photos"])) st
    with ⟨_ | u, st1⟩
  · rw [hm] at h1; exact h1
  · rw [hm] at h1
    simp only at h1 ⊢
    have h2 := mkdir_keeps P env .mkdirAlbums (tgt ++ ["Albums"]) hmk2 st1 h1
    rcases hm2 : orFail Err.mkdirAlbums (osMkdirAll env (tgt ++ ["Albums"])) st1
      with ⟨_ | u, st2⟩
    · rw [hm2] at h2; exact h2
    · rw [hm2] at h2
      simp only at h2 ⊢
      refine forEach_keeps (fun s => P s.fs s.index) _ es (fun e he s hs => ?_) st2 h2
      exact albumDir_keeps P env srcGP _ _ e (hmk3 e.name)
        (fun hd hy ht ha => hstep e.name (entry_eta e hd ▸ he) hy ht ha) s hs

theorem exifPass_keeps (P : FS → Index → Prop) (env : Env) (tgt : Path) (st : St)
    (h : P st.fs st.index) :
    P (exifPass env tgt st).2.fs (exifPass env tgt st).2.index := by
  unfold exifPass
  refine forEach_keeps (fun s => P s.fs s.index) _ _ (fun d _ s hs => ?_) st h
  obtain ⟨e1, e2⟩ := osExiftool_spec env d s
  rw [orFail_apply]
  rcases he : osExiftool env d s with ⟨_ | u, s1⟩
  · rw [he] at e1 e2; simp only at e1 e2 ⊢; rw [e1, e2]; exact hs
  · rw [he] at e1 e2; simp only at e1 e2 ⊢; rw [e1, e2]; exact hs

end Takeout

namespace Takeout

/-! ## C9: which pass takes which entry -/

theorem matchHere_iff (cs : List Char) :
    matchHere cs = true ↔ ∃ y post : List Char, y.length = 4 ∧ (∀ c ∈ y, isDigit c = true) ∧
      cs = "Photos from ".data ++ y ++ post := by
  unfold matchHere
  simp only [Bool.and_eq_true, List.isPrefixOf_iff_prefix, decide_eq_true_eq, List.all_eq_true]
  constructor
  · rintro ⟨⟨t, rfl⟩, h4, hall⟩
    have hd : ("Photos from ".data ++ t).drop 12 = t := by
      rw [List.drop_append_of_le_length (by decide)]
      simp
    rw [hd] at h4 hall
    refine ⟨t.take 4, t.drop 4, by simp [h4], hall, ?_⟩
    rw [List.append_assoc, List.take_append_drop]
  · rintro ⟨y, post, hy, hall, rfl⟩
    have hd : ("Photos from ".data ++ y ++ post).drop 12 = y ++ post := by
      rw [List.append_assoc, List.drop_append_of_le_length (by decide)]
      simp
    rw [hd]
    refine ⟨⟨y ++ post, by simp⟩, by simp [hy], ?_⟩
    rw [List.take_append_of_le_length (by omega), List.take_of_length_le (by omega)]
    exact hall

theorem matchAnywhere_iff : ∀ cs : List Char,
    matchAnywhere cs = true ↔ ∃ pre rest : List Char, cs = pre ++ rest ∧ matchHere rest = true
  | [] => by
    simp only [matchAnywhere]
    constructor
    · intro h; exact ⟨[], [], rfl, h⟩
    · rintro ⟨pre, rest, h, hm⟩
      have : rest = [] := by
        cases pre <;> simp at h
        exact h
      rw [this] at hm; exact hm
  | c :: cs => by
    simp only [matchAnywhere, Bool.or_eq_true, matchAnywhere_iff cs]
    constructor
    · rintro (h | ⟨pre, rest, rfl, hm⟩)
      · exact ⟨[], c :: cs, rfl, h⟩
      · exact ⟨c :: pre, rest, rfl, hm⟩
    · rintro ⟨pre, rest, h, hm⟩
      cases pre with
      | nil => left; simp at h; rw [h]; exact hm
      | cons a pre =>
        right
        simp only [List.cons_append, List.cons.injEq] at h
        exact ⟨pre, rest, h.2, hm⟩

theorem photosForYearRegex_iff (name : String) :
    photosForYearRegex name = true ↔ containsYearForm name := by
  unfold photosForYearRegex containsYearForm
  rw [matchAnywhere_iff]
  constructor
  · rintro ⟨pre, rest, h, hm⟩
    obtain ⟨y, post, hy, hall, rfl⟩ := (matchHere_iff rest).1 hm
    exact ⟨pre, y, post, hy, hall, by rw [h]; simp⟩
  · rintro ⟨pre, y, post, hy, hall, h⟩
    exact ⟨pre, "Photos from ".data ++ y ++ post, by rw [h]; simp,
      (matchHere_iff _).2 ⟨y, post, hy, hall, rfl⟩⟩

theorem mainDir_eq (env : Env) (srcGP tp : Path) (e : DirEntry) :
    mainDir env srcGP tp e =
      if isYearFolder e = true then
        orFail (.readYearDir e.name) (osReadDir env (srcGP ++ [e.name])) >>= fun l =>
          forEach l (mainPhoto env (srcGP ++ [e.name]) tp)
      else pure () := by
  unfold mainDir isYearFolder
  cases hd : e.isDir <;> cases hy : photosForYearRegex e.name <;> simp

theorem albumDir_eq (env : Env) (srcGP ta tao : Path) (e : DirEntry) :
    albumDir env srcGP ta tao e =
      if isAlbum e = true then
        orFail (.readAlbum e.name) (osReadDir env (srcGP ++ [e.name])) >>= fun l =>
          orFail (.mkdirAlbum (ta ++ [e.name])) (osMkdirAll env (ta ++ [e.name])) >>= fun _ =>
            forEach l (albumPhoto env (srcGP ++ [e.name]) (ta ++ [e.name]) tao)
      else pure () := by
  unfold albumDir isAlbum
  cases hd : e.isDir <;> cases hy : photosForYearRegex e.name <;>
    by_cases ht : e.name = "Trash" <;> by_cases ha : e.name = "Archive" <;> simp [ht, ha]

/-- C9, counterexample: the directory `Best Photos from 2019` does not have the form
`Photos from <YYYY>`, yet the main pass takes it (its photo ends in `<target>/Photos`) and
the album pass skips it (no directory for it under `<target>/Albums`). -/
theorem C9_counterexample :
    hasYearForm "Best Photos from 2019" = false ∧
    isYearFolder ⟨"Best Photos from 2019", true⟩ = true ∧
    isAlbum ⟨"Best Photos from 2019", true⟩ = false ∧
    (run noFault ["src"] ["out"] (St.init bestOfTree)).1 = .ok () ∧
    assocGet (run noFault ["src"] ["out"] (St.init bestOfTree)).2.fs ["out", "Photos", "a.jpg"]
      = some (.file [88]) ∧
    assocGet (run noFault ["src"] ["out"] (St.init bestOfTree)).2.fs
      ["out", "Albums", "Best Photos from 2019"] = none := by
  decide!

/-- C9, amended: an entry is taken by the main pass exactly when it is a directory whose
name contains `Photos from ` followed by four digits (anywhere in the name), and by the
album pass exactly when it is a directory that the main pass does not take and that is not
called `Trash` or `Archive`; every other entry is skipped by the loop. No entry is taken by
both, and `Trash` and `Archive` are taken by neither loop (the archive pass lists
`Archive` itself). -/
theorem C9_pass_selection (env : Env) (srcGP tp ta tao : Path) (e : DirEntry) :
    (isYearFolder e = true ↔ e.isDir = true ∧ containsYearForm e.name) ∧
    (isAlbum e = true ↔
      e.isDir = true ∧ isYearFolder e = false ∧ e.name ≠ "Trash" ∧ e.name ≠ "Archive") ∧
    (mainDir env srcGP tp e =
      if isYearFolder e = true then
        orFail (.readYearDir e.name) (osReadDir env (srcGP ++ [e.name])) >>= fun l =>
          forEach l (mainPhoto env (srcGP ++ [e.name]) tp)
      else pure ()) ∧
    (albumDir env srcGP ta tao e =
      if isAlbum e = true then
        orFail (.readAlbum e.name) (osReadDir env (srcGP ++ [e.name])) >>= fun l =>
          orFail (.mkdirAlbum (ta ++ [e.name])) (osMkdirAll env (ta ++ [e.name])) >>= fun _ =>
            forEach l (albumPhoto env (srcGP ++ [e.name]) (ta ++ [e.name]) tao)
      else pure ()) ∧
    ¬ (isYearFolder e = true ∧ isAlbum e = true) ∧
    (e.name = "Trash" ∨ e.name = "Archive" → isYearFolder e = false ∧ isAlbum e = false) := by
  refine ⟨?_, ?_, mainDir_eq env srcGP tp e, albumDir_eq env srcGP ta tao e, ?_, ?_⟩
  · unfold isYearFolder
    rw [Bool.and_eq_true, photosForYearRegex_iff]
  · unfold isAlbum isYearFolder
    cases hd : e.isDir <;> cases hy : photosForYearRegex e.name <;> simp
  · unfold isAlbum isYearFolder
    cases hd : e.isDir <;> cases hy : photosForYearRegex e.name <;> simp
  · rintro (h | h)
    · unfold isAlbum isYearFolder
      have h1 : photosForYearRegex e.name = false := by rw [h]; decide
      rw [h1]; simp [h]
    · unfold isAlbum isYearFolder
      have h1 : photosForYearRegex e.name = false := by rw [h]; decide
      rw [h1]; simp [h]

end Takeout

namespace Takeout

/-! ## C6: who may write an index entry -/

theorem archivePhoto_index_keeps (env : Env) (sd td : Path) (x : DirEntry) (st : St)
    (s : String) (p : Path) (h : assocGet st.index s = some p) :
    assocGet (archivePhoto env sd td x st).2.index s = some p := by
  rcases archivePhoto_cases env sd td x st with ⟨_, h2, _⟩ | ⟨c, q, _, _, _, _, h2, _⟩
  · rw [h2]; exact h
  · rw [h2]
    by_cases hn : assocGet st.index (Sha1.hex c) = none
    · simp only [hn, if_true]
      rw [assocGet_set]
      by_cases hs : s = Sha1.hex c
      · rw [hs, hn] at h; simp at h
      · simp [hs, h]
    · simp [hn, h]

theorem albumPhoto_index_keeps (env : Env) (sd ta tao : Path) (x : DirEntry) (st : St)
    (s : String) (p : Path) (h : assocGet st.index s = some p) :
    assocGet (albumPhoto env sd ta tao x st).2.index s = some p := by
  rcases albumPhoto_cases env sd ta tao x st with
    ⟨_, h2, _⟩ | ⟨c, ip, _, _, _, h2, _⟩ | ⟨c, q, fs1, _, _, hn, _, _, h2, _⟩
  · rw [h2]; exact h
  · rw [h2]; exact h
  · rw [h2, assocGet_set]
    by_cases hs : s = Sha1.hex c
    · rw [hs, hn] at h; simp at h
    · simp [hs, h]

theorem mainPhoto_index_dom (env : Env) (sd td : Path) (x : DirEntry) (st : St)
    (s : String) (h : assocGet st.index s ≠ none) :
    assocGet (mainPhoto env sd td x st).2.index s ≠ none := by
  rcases mainPhoto_cases env sd td x st with ⟨_, h2, _⟩ | ⟨c, q, _, _, _, _, h2, _⟩
  · rw [h2]; exact h
  · rw [h2, assocGet_set]
    by_cases hs : s = Sha1.hex c
    · simp [hs]
    · simp [hs, h]

theorem archivePass_index_keeps (env : Env) (srcGP tgt : Path) (st : St)
    (s : String) (p : Path) (h : assocGet st.index s = some p) :
    assocGet (archivePass env srcGP tgt st).2.index s = some p :=
  archivePass_keeps (fun _ idx => assocGet idx s = some p) env srcGP tgt
    (fun _ _ _ h _ => h) (fun x st1 h1 => archivePhoto_index_keeps env _ _ x st1 s p h1) st h

theorem albumPass_index_keeps (env : Env) (srcGP tgt : Path) (es : List DirEntry) (st : St)
    (s : String) (p : Path) (h : assocGet st.index s = some p) :
    assocGet (albumPass env srcGP tgt es st).2.index s = some p :=
  albumPass_keeps (fun _ idx => assocGet idx s = some p) env srcGP tgt es
    (fun _ _ _ h _ => h) (fun _ _ _ h _ => h) (fun _ _ _ _ h _ => h)
    (fun _ _ _ _ _ x st1 h1 => albumPhoto_index_keeps env _ _ _ x st1 s p h1) st h

theorem mainPass_index_dom (env : Env) (srcGP tgt : Path) (es : List DirEntry) (st : St)
    (s : String) (h : assocGet st.index s ≠ none) :
    assocGet (mainPass env srcGP tgt es st).2.index s ≠ none :=
  mainPass_keeps (fun _ idx => assocGet idx s ≠ none) env srcGP tgt es
    (fun _ _ _ h _ => h) (fun _ _ _ x st1 h1 => mainPhoto_index_dom env _ _ x st1 s h1) st h

/-- What one step of the main pass does, with the path it moved the file to: the one
`movePhotoIntoPlace` returned. -/
theorem mainPhoto_moved (env : Env) (sd td : Path) (e : DirEntry) (st : St) :
    ((mainPhoto env sd td e st).2.fs = st.fs ∧ (mainPhoto env sd td e st).2.index = st.index ∧
      ((mainPhoto env sd td e st).1 = .ok () → Ext e.name = ".json")) ∨
    (∃ c p, Ext e.name ≠ ".json" ∧
      (mainPhoto env sd td e st).1 = .ok () ∧
      st.fs.readFile (sd ++ [e.name]) = some c ∧
      (p = td ++ [e.name] ∨ p = suffixed (td ++ [e.name]) (Sha1.hex c)) ∧
      (movePhotoIntoPlace env (sd ++ [e.name]) (td ++ [e.name]) (Sha1.hex c)
        (getFileSha env (sd ++ [e.name]) st).2).1 = some p ∧
      st.fs.rename (sd ++ [e.name]) p = some (mainPhoto env sd td e st).2.fs ∧
      (Op.rename (sd ++ [e.name]) p, true) ∈ (mainPhoto env sd td e st).2.log ∧
      (mainPhoto env sd td e st).2.index = assocSet st.index (Sha1.hex c) p) := by
  unfold mainPhoto
  by_cases hj : Ext e.name = ".json"
  · left; simp [hj]
  · simp only [hj, if_false, bind_apply, orFail_apply]
    obtain ⟨g1, g2, ⟨ok, g3⟩, g4⟩ := getFileSha_spec env (sd ++ [e.name]) st
    rcases hg : getFileSha env (sd ++ [e.name]) st with ⟨_ | s, st1⟩
    · rw [hg] at g1 g2
      left
      simp only at g1 g2 ⊢
      exact ⟨g1, g2, fun h => by simp at h⟩
    · rw [hg] at g1 g2 g3 g4
      simp only at g1 g2 g3 g4 ⊢
      obtain ⟨c, hc, rfl⟩ := g4 s rfl
      obtain ⟨m1, m2, m3⟩ := movePhotoIntoPlace_spec env (sd ++ [e.name]) (td ++ [e.name])
        (Sha1.hex c) st1
      rcases hm : movePhotoIntoPlace env (sd ++ [e.name]) (td ++ [e.name]) (Sha1.hex c) st1
        with ⟨_ | p, st2⟩
      · rw [hm] at m1 m2
        simp only at m1 m2 ⊢
        obtain ⟨m2a, _⟩ := m2 trivial
        left
        exact ⟨by rw [m2a, g1], by rw [m1, g2], fun h => by simp at h⟩
      · rw [hm] at m1 m3
        simp only at m1 m3 ⊢
        obtain ⟨m3a, m3b, ok2, m3c⟩ := m3 p rfl
        right
        refine ⟨c, p, hj, rfl, hc, m3a, by rw [hm], by rw [← g1]; exact m3b, ?_, ?_⟩
        · simp only [setIndex]
          rw [m3c]
          simp
        · simp [setIndex, m1, g2]

/-- C6, counterexample: with the same photo in two year folders, the main pass records
its fingerprint for `Photos/a.jpg` after the first folder and, the fingerprint being
present, records it again for `Photos/b.jpg` in the second. -/
theorem C6_counterexample :
    assocGet (mainPass noFault ["src", "Google Photos"] ["out"] [⟨"Photos from 2019", true⟩]
        (St.init twinTree)).2.index (Sha1.hex [88]) = some ["out", "Photos", "a.jpg"] ∧
    assocGet (mainDir noFault ["src", "Google Photos"] ["out", "Photos"]
        ⟨"Photos from 2020", true⟩
        (mainPass noFault ["src", "Google Photos"] ["out"] [⟨"Photos from 2019", true⟩]
          (St.init twinTree)).2).2.index (Sha1.hex [88]) = some ["out", "Photos", "b.jpg"] ∧
    (run noFault ["src"] ["out"] (St.init twinTree)).1 = .ok () ∧
    assocGet (run noFault ["src"] ["out"] (St.init twinTree)).2.index (Sha1.hex [88])
      = some ["out", "Photos", "b.jpg"] := by
  decide!

/-- C6, amended: the index never loses an entry in any pass. In the archive pass and in
the album pass the first writer wins: an entry that exists is not changed by any later
step. The main pass writes unconditionally. A fingerprint that has an entry keeps one, and
every step of the main pass is one of two things. Either it moves nothing, and then it
leaves the file system and the index as they were, and it can only have succeeded on a
sidecar. Or it succeeds and moves the file it hashed (bytes `c`) by one successful
`os.Rename` to a path `p` in the target directory, the desired path or its collision
name, and then the index is the old one with the entry of the fingerprint of `c` set to
`p`: afterwards that fingerprint maps to `p`, whether or not it had an entry, and every
other fingerprint maps to what it mapped to before. -/
theorem C6_index_writers (env : Env) (srcGP tgt : Path) (es : List DirEntry) (st : St)
    (s : String) :
    (∀ p, assocGet st.index s = some p →
      assocGet (archivePass env srcGP tgt st).2.index s = some p ∧
      assocGet (albumPass env srcGP tgt es st).2.index s = some p ∧
      assocGet (exifPass env tgt st).2.index s = some p ∧
      (∀ sd td x, assocGet (archivePhoto env sd td x st).2.index s = some p) ∧
      (∀ sd ta tao x, assocGet (albumPhoto env sd ta tao x st).2.index s = some p)) ∧
    (assocGet st.index s ≠ none →
      assocGet (mainPass env srcGP tgt es st).2.index s ≠ none ∧
      (∀ sd td x, assocGet (mainPhoto env sd td x st).2.index s ≠ none)) ∧
    (∀ sd td x,
      ((mainPhoto env sd td x st).2.fs = st.fs ∧
        (mainPhoto env sd td x st).2.index = st.index ∧
        ((mainPhoto env sd td x st).1 = .ok () → Ext x.name = ".json")) ∨
      (∃ c p, Ext x.name ≠ ".json" ∧
        (mainPhoto env sd td x st).1 = .ok () ∧
        st.fs.readFile (sd ++ [x.name]) = some c ∧
        (p = td ++ [x.name] ∨ p = suffixed (td ++ [x.name]) (Sha1.hex c)) ∧
        (movePhotoIntoPlace env (sd ++ [x.name]) (td ++ [x.name]) (Sha1.hex c)
          (getFileSha env (sd ++ [x.name]) st).2).1 = some p ∧
        st.fs.rename (sd ++ [x.name]) p = some (mainPhoto env sd td x st).2.fs ∧
        (Op.rename (sd ++ [x.name]) p, true) ∈ (mainPhoto env sd td x st).2.log ∧
        (mainPhoto env sd td x st).2.index = assocSet st.index (Sha1.hex c) p ∧
        assocGet (mainPhoto env sd td x st).2.index (Sha1.hex c) = some p ∧
        (s ≠ Sha1.hex c →
          assocGet (mainPhoto env sd td x st).2.index s = assocGet st.index s))) := by
  refine ⟨fun p h => ⟨archivePass_index_keeps env srcGP tgt st s p h,
      albumPass_index_keeps env srcGP tgt es st s p h,
      exifPass_keeps (fun _ idx => assocGet idx s = some p) env tgt st h,
      fun sd td x => archivePhoto_index_keeps env sd td x st s p h,
      fun sd ta tao x => albumPhoto_index_keeps env sd ta tao x st s p h⟩,
    fun h => ⟨mainPass_index_dom env srcGP tgt es st s h,
      fun sd td x => mainPhoto_index_dom env sd td x st s h⟩, ?_⟩
  intro sd td x
  rcases mainPhoto_moved env sd td x st with ⟨h1, h2, h3⟩ | ⟨c, p, h⟩
  · exact Or.inl ⟨h1, h2, h3⟩
  · obtain ⟨hj, hok, hr, hp, hmv, hrn, hlog, hidx⟩ := h
    refine Or.inr ⟨c, p, hj, hok, hr, hp, hmv, hrn, hlog, hidx, ?_, ?_⟩
    · rw [hidx, assocGet_set]; simp
    · intro hs
      rw [hidx, assocGet_set]; simp [hs]

end Takeout

namespace Takeout

/-! ## C3: `movePhotoIntoPlace` -/

theorem extScan_suffix : ∀ (rest acc : List Char), extScan rest acc <:+ rest.reverse ++ acc
  | [], acc => by simp [extScan]
  | c :: rest, acc => by
    unfold extScan
    by_cases h1 : c = '/'
    · simp [h1]
    · by_cases h2 : c = '.'
      · simp only [h1, h2, if_false, if_true, List.reverse_cons, List.append_assoc,
          List.singleton_append]
        exact List.suffix_append _ _
      · simp only [h1, h2, if_false, List.reverse_cons, List.append_assoc,
          List.singleton_append]
        exact extScan_suffix rest (c :: acc)

theorem extScan_shape : ∀ (rest acc : List Char), '.' ∉ acc →
    extScan rest acc = [] ∨ ∃ t, extScan rest acc = '.' :: t ∧ '.' ∉ t
  | [], acc, _ => by simp [extScan]
  | c :: rest, acc, h => by
    unfold extScan
    by_cases h1 : c = '/'
    · simp [h1]
    · by_cases h2 : c = '.'
      · right
        simp only [h1, h2, if_false, if_true]
        exact ⟨acc, rfl, h⟩
      · simp only [h1, h2, if_false]
        refine extScan_shape rest (c :: acc) ?_
        simp only [List.mem_cons, not_or]
        exact ⟨fun e => h2 e.symm, h⟩

theorem extScan_nil : ∀ (rest acc : List Char), extScan rest acc = [] → '/' ∉ rest →
    '.' ∉ rest
  | [], _, _, _ => by simp
  | c :: rest, acc, h, hs => by
    unfold extScan at h
    simp only [List.mem_cons, not_or] at hs ⊢
    have h1 : ¬ c = '/' := fun e => hs.1 e.symm
    by_cases h2 : c = '.'
    · simp [h1, h2] at h
    · simp only [h1, h2, if_false] at h
      exact ⟨fun e => h2 e.symm, extScan_nil rest _ h hs.2⟩

theorem stem_append_ext (name : String) :
    (stem name).data ++ (Ext name).data = name.data := by
  have h := extScan_suffix name.data.reverse []
  simp only [List.reverse_reverse, List.append_nil] at h
  obtain ⟨t, ht⟩ := h
  unfold stem
  show List.take _ name.data ++ (Ext name).data = name.data
  have he : (Ext name).data = extScan name.data.reverse [] := rfl
  rw [he]
  generalize extScan name.data.reverse [] = x at ht ⊢
  rw [← ht]
  simp

theorem ext_shape (name : String) :
    (Ext name).data = [] ∨ ∃ t, (Ext name).data = '.' :: t ∧ '.' ∉ t :=
  extScan_shape name.data.reverse [] (by simp)

theorem ext_nil (name : String) (h : (Ext name).data = []) (hs : '/' ∉ name.data) :
    '.' ∉ name.data := by
  have := extScan_nil name.data.reverse [] h (by simpa using hs)
  simpa using this

theorem path_cases (p : Path) : p = [] ∨ ∃ d n, p = d ++ [n] := by
  rcases List.eq_nil_or_concat p with h | ⟨d, n, h⟩
  · exact Or.inl h
  · exact Or.inr ⟨d, n, by rw [h, List.concat_eq_append]⟩

theorem suffixedName_ne (name sha : String) : suffixedName name sha ≠ name := by
  intro h
  have h1 : (suffixedName name sha).data.length = name.data.length := by rw [h]
  have h2 := congrArg List.length (stem_append_ext name)
  have h3 : (suffixedName name sha).data.length =
      (stem name).data.length + 1 + sha.data.length + (Ext name).data.length := by
    simp only [suffixedName, String.data_append, List.length_append]
    rfl
  rw [List.length_append] at h2
  omega

theorem suffixed_ne (tgt : Path) (sha : String) : suffixed tgt sha ≠ tgt := by
  unfold suffixed
  rcases path_cases tgt with rfl | ⟨d, n, rfl⟩
  · intro h; exact List.cons_ne_nil _ _ h
  · rw [List.dropLast_concat, List.getLastD_concat]
    intro h
    have := List.append_cancel_left h
    simp only [List.cons.injEq, and_true] at this
    exact suffixedName_ne n sha this

theorem length_suffixed (tgt : Path) (sha : String) (h : tgt ≠ []) :
    (suffixed tgt sha).length = tgt.length := by
  unfold suffixed
  rcases path_cases tgt with rfl | ⟨d, n, rfl⟩
  · exact absurd rfl h
  · simp

theorem isPrefixOf_iff {a b : Path} : a.isPrefixOf b = true ↔ a <+: b :=
  List.isPrefixOf_iff_prefix

theorem moveTree_cons (k : Path) (v : Node) (fs : FS) (src dst : Path) :
    moveTree ((k, v) :: fs) src dst =
      (if src.isPrefixOf k = true then (dst ++ k.drop src.length, v) else (k, v)) ::
        moveTree fs src dst := rfl

theorem moveTree_get (fs : FS) (src dst t : Path) (h1 : ¬ src <+: t) (h2 : ¬ dst <+: t) :
    assocGet (moveTree fs src dst) t = assocGet fs t := by
  induction fs with
  | nil => rfl
  | cons e fs ih =>
    obtain ⟨k, v⟩ := e
    rw [moveTree_cons]
    by_cases hk : src.isPrefixOf k = true
    · have hk1 : src <+: k := isPrefixOf_iff.1 hk
      have hkt : ¬ k = t := fun e => h1 (e ▸ hk1)
      have hkt2 : ¬ dst ++ List.drop src.length k = t := fun e => h2 ⟨_, e⟩
      rw [if_pos hk]
      simp only [assocGet, hkt, hkt2, if_false]
      exact ih
    · rw [if_neg hk]
      by_cases hkt : k = t
      · simp [assocGet, hkt]
      · simp only [assocGet, hkt, if_false]
        exact ih

/-- A rename leaves alone every path that is neither at or below its source nor at or
below its destination. -/
theorem rename_keeps {fs fs1 : FS} {src dst : Path} (h : fs.rename src dst = some fs1)
    (t : Path) (h1 : ¬ src <+: t) (h2 : ¬ dst <+: t) :
    assocGet fs1 t = assocGet fs t := by
  have hts : t ≠ src := fun e => h1 (e ▸ List.prefix_refl _)
  have htd : t ≠ dst := fun e => h2 (e ▸ List.prefix_refl _)
  cases hs : assocGet fs src with
  | none => simp [FS.rename, hs] at h
  | some n =>
    by_cases hn : n = .dir
    · subst hn
      unfold FS.rename at h
      simp only [hs] at h
      by_cases hsd : src = dst
      · simp only [hsd, if_true, Option.some.injEq] at h
        rw [h]
      · simp only [hsd, if_false] at h
        by_cases hd : isDirAt fs dst.dropLast
        · simp only [hd, Bool.not_true, Bool.false_eq_true, if_false] at h
          by_cases hp : src.isPrefixOf dst = true
          · simp [hp] at h
          · simp only [hp, Bool.false_eq_true, if_false] at h
            cases hdst : assocGet fs dst with
            | none =>
              simp only [hdst, Option.some.injEq] at h
              rw [← h]; exact moveTree_get _ _ _ _ h1 h2
            | some m =>
              cases m with
              | file c => simp [hdst] at h
              | symlink u d => simp [hdst] at h
              | dir =>
                simp only [hdst] at h
                by_cases hc : children fs dst = []
                · simp only [hc, if_true, Option.some.injEq] at h
                  rw [← h, moveTree_get _ _ _ _ h1 h2, assocGet_del]
                  simp [htd]
                · simp [hc] at h
        · simp [hd] at h
    · rw [rename_nondir h hs hn t]
      simp [hts, htd]

theorem suffixed_under {src tgt : Path} (sha : String) (h : src <+: tgt)
    (hne : src ≠ tgt) : src <+: suffixed tgt sha := by
  unfold suffixed
  rcases path_cases tgt with rfl | ⟨d, n, rfl⟩
  · exact absurd (List.prefix_nil.1 h) hne
  · simp only [List.dropLast_concat]
    rcases List.prefix_concat_iff.1 h with h1 | h1
    · exact absurd h1 hne
    · exact h1.trans (List.prefix_append _ _)

theorem rename_dir_not_prefix {fs fs1 : FS} {src dst : Path}
    (h : fs.rename src dst = some fs1) (hs : assocGet fs src = some .dir) (hne : src ≠ dst) :
    ¬ src <+: dst := by
  unfold FS.rename at h
  simp only [hs, hne, if_false] at h
  by_cases hd : isDirAt fs dst.dropLast
  · simp only [hd, Bool.not_true, Bool.false_eq_true, if_false] at h
    by_cases hp : src.isPrefixOf dst = true
    · simp [hp] at h
    · exact fun e => hp (isPrefixOf_iff.2 e)
  · simp [hd] at h

/-- After a move that had to take the collision name, the entry at the desired path is
what it was, provided the desired path is not the source itself. -/
theorem rename_suffixed_keeps {fs fs1 : FS} {src tgt : Path} {sha : String}
    (h : fs.rename src (suffixed tgt sha) = some fs1) (hne : src ≠ tgt) :
    assocGet fs1 tgt = assocGet fs tgt := by
  by_cases hsd : src = suffixed tgt sha
  · subst hsd
    unfold FS.rename at h
    cases hs : assocGet fs (suffixed tgt sha) with
    | none => simp [hs] at h
    | some n =>
      simp only [hs, if_true, Option.some.injEq] at h
      rw [h]
  · have h2 : ¬ suffixed tgt sha <+: tgt := by
      intro hp
      by_cases ht : tgt = []
      · subst ht; simp [suffixed] at hp
      · have hl := length_suffixed tgt sha ht
        exact suffixed_ne tgt sha (List.IsPrefix.eq_of_length hp hl)
    cases hs : assocGet fs src with
    | none => simp [FS.rename, hs] at h
    | some n =>
      by_cases hn : n = .dir
      · subst hn
        have h1 : ¬ src <+: tgt := fun hp =>
          rename_dir_not_prefix h hs hsd (suffixed_under sha hp hne)
        exact rename_keeps h tgt h1 h2
      · rw [rename_nondir h hs hn tgt]
        have ht1 : tgt ≠ suffixed tgt sha := fun e => suffixed_ne tgt sha e.symm
        have ht2 : tgt ≠ src := fun e => hne e.symm
        simp [ht1, ht2]

theorem osStat_fst (env : Env) (p : Path) (st : St) :
    (osStat env p st).1 = if env.fault (.stat p) = true then .failed
      else follow maxLinks st.fs p := by
  unfold osStat
  by_cases hf : env.fault (.stat p) = true
  · simp [hf]
  · cases hr : follow maxLinks st.fs p <;> simp [hf, hr]

/-- C3, counterexample: asked to move `dir/a.jpg` to `dir/a.jpg` itself,
`movePhotoIntoPlace` finds a file at the desired path, returns the collision path, and
nothing is left at the desired path. The same happens inside `run` when the target
directory is the source's `Google Photos` directory: the archive photo is renamed in place. -/
theorem C3_counterexample :
    (movePhotoIntoPlace noFault ["dir", "a.jpg"] ["dir", "a.jpg"] (Sha1.hex [88])
        (St.init onePhoto)).1
      = some ["dir", "a_c032adc1ff629c9b66f22749ad667e6beadf144b.jpg"] ∧
    assocGet (St.init onePhoto).fs ["dir", "a.jpg"] = some (.file [88]) ∧
    assocGet (movePhotoIntoPlace noFault ["dir", "a.jpg"] ["dir", "a.jpg"] (Sha1.hex [88])
        (St.init onePhoto)).2.fs ["dir", "a.jpg"] = none ∧
    (run noFault ["src"] ["src", "Google Photos"] (St.init archiveOnly)).1 = .ok () ∧
    assocGet (run noFault ["src"] ["src", "Google Photos"] (St.init archiveOnly)).2.fs
      ["src", "Google Photos", "Archive", "a.jpg"] = none ∧
    assocGet (run noFault ["src"] ["src", "Google Photos"] (St.init archiveOnly)).2.fs
      ["src", "Google Photos", "Archive", "a_c032adc1ff629c9b66f22749ad667e6beadf144b.jpg"]
      = some (.file [88]) := by
  decide!

/-- When neither the path nor a directory above it is a symbolic link, `os.Stat` answers
from the entry at the path itself. -/
theorem follow_plain {fs : FS} {p : Path} (h : plainPath fs p = true) :
    follow maxLinks fs p = match assocGet fs p with
      | none => .notExist
      | some n => .found n := by
  unfold plainPath at h
  rw [List.all_eq_true] at h
  have hp := h p ((List.mem_inits _ _).2 (List.prefix_refl p))
  cases hn : assocGet fs p with
  | none => simp [maxLinks, follow, hn]
  | some n =>
    cases n with
    | file c => simp [maxLinks, follow, hn]
    | dir => simp [maxLinks, follow, hn]
    | symlink u d => rw [hn] at hp; simp at hp

/-- C3, amended: let the desired target path be another path than the source path, and
let no directory on either path, nor the desired path itself, be a symbolic link (the
calls then see both paths as they are written). For every fingerprint for which the
rename succeeds, `movePhotoIntoPlace` returns the desired path unchanged when `os.Stat`
reports that nothing exists at it, which it does exactly when it does not fail for an
outside reason and no entry is at the desired path; otherwise it returns the path whose
last element is `stem ++ "_" ++ sha ++ ext`, where `stem ++ ext` is the last element of
the desired path and `ext` is empty or runs from its last dot. In the second case the
returned path differs from the desired path and the entry at the desired path is what it
was before the call. -/
theorem C3_movePhotoIntoPlace (env : Env) (st : St) (sourcePath targetPath : Path)
    (sha : String) (p : Path) (hne : sourcePath ≠ targetPath)
    (hplain : plainPath st.fs sourcePath.dropLast = true ∧ plainPath st.fs targetPath = true)
    (h : (movePhotoIntoPlace env sourcePath targetPath sha st).1 = some p) :
    ((osStat env targetPath st).1 = .notExist ↔
      env.fault (.stat targetPath) = false ∧ assocGet st.fs targetPath = none) ∧
    ((osStat env targetPath st).1 = .notExist → p = targetPath) ∧
    ((osStat env targetPath st).1 ≠ .notExist →
      p = targetPath.dropLast ++
        [stem (targetPath.getLastD "") ++ "_" ++ sha ++ Ext (targetPath.getLastD "")] ∧
      p ≠ targetPath ∧
      assocGet (movePhotoIntoPlace env sourcePath targetPath sha st).2.fs targetPath
        = assocGet st.fs targetPath) ∧
    (stem (targetPath.getLastD "")).data ++ (Ext (targetPath.getLastD "")).data
      = (targetPath.getLastD "").data ∧
    ((Ext (targetPath.getLastD "")).data = [] ∨
      ∃ t, (Ext (targetPath.getLastD "")).data = '.' :: t ∧ '.' ∉ t) ∧
    ((Ext (targetPath.getLastD "")).data = [] → '/' ∉ (targetPath.getLastD "").data →
      '.' ∉ (targetPath.getLastD "").data) := by
  refine ⟨?_, ?_, ?_, stem_append_ext _, ext_shape _, ext_nil _⟩
  · rw [osStat_fst, follow_plain hplain.2]
    by_cases hf : env.fault (.stat targetPath) = true
    · simp [hf]
    · cases hn : assocGet st.fs targetPath <;> simp [hf]
  · intro hs
    unfold movePhotoIntoPlace at h
    simp only [hs, ne_eq, not_true_eq_false, if_false] at h
    split at h
    · simp only [Option.some.injEq] at h; exact h.symm
    · simp at h
  · intro hs
    obtain ⟨_, _, m3⟩ := movePhotoIntoPlace_spec env sourcePath targetPath sha st
    obtain ⟨_, m3b, _⟩ := m3 p h
    have hp : p = suffixed targetPath sha := by
      unfold movePhotoIntoPlace at h
      simp only [hs, ne_eq, not_false_eq_true, if_true] at h
      split at h
      · simp only [Option.some.injEq] at h; exact h.symm
      · simp at h
    subst hp
    exact ⟨rfl, suffixed_ne _ _, rename_suffixed_keeps m3b hne⟩

/-- C3, witness: a photo is moved onto an existing, different `a.jpg`. -/
theorem C3_witness :
    ((osStat noFault ["out", "Photos", "a.jpg"] (St.init collision)).1 = .notExist ↔
      noFault.fault (.stat ["out", "Photos", "a.jpg"]) = false ∧
        assocGet (St.init collision).fs ["out", "Photos", "a.jpg"] = none) ∧
    ((osStat noFault ["out", "Photos", "a.jpg"] (St.init collision)).1 = .notExist →
      ["out", "Photos", "a_23eb4d3f4155395a74e9d534f97ff4c1908f5aac.jpg"]
        = ["out", "Photos", "a.jpg"]) ∧
    ((osStat noFault ["out", "Photos", "a.jpg"] (St.init collision)).1 ≠ .notExist →
      ["out", "Photos", "a_23eb4d3f4155395a74e9d534f97ff4c1908f5aac.jpg"] =
        (["out", "Photos", "a.jpg"] : Path).dropLast ++
          [stem ((["out", "Photos", "a.jpg"] : Path).getLastD "") ++ "_" ++ Sha1.hex [89] ++
            Ext ((["out", "Photos", "a.jpg"] : Path).getLastD "")] ∧
      ["out", "Photos", "a_23eb4d3f4155395a74e9d534f97ff4c1908f5aac.jpg"]
        ≠ ["out", "Photos", "a.jpg"] ∧
      assocGet (movePhotoIntoPlace noFault ["src", "a.jpg"] ["out", "Photos", "a.jpg"]
          (Sha1.hex [89]) (St.init collision)).2.fs ["out", "Photos", "a.jpg"]
        = assocGet (St.init collision).fs ["out", "Photos", "a.jpg"]) ∧
    (stem ((["out", "Photos", "a.jpg"] : Path).getLastD "")).data ++
        (Ext ((["out", "Photos", "a.jpg"] : Path).getLastD "")).data
      = ((["out", "Photos", "a.jpg"] : Path).getLastD "").data ∧
    ((Ext ((["out", "Photos", "a.jpg"] : Path).getLastD "")).data = [] ∨
      ∃ t, (Ext ((["out", "Photos", "a.jpg"] : Path).getLastD "")).data = '.' :: t ∧ '.' ∉ t) ∧
    ((Ext ((["out", "Photos", "a.jpg"] : Path).getLastD "")).data = [] →
      '/' ∉ ((["out", "Photos", "a.jpg"] : Path).getLastD "").data →
      '.' ∉ ((["out", "Photos", "a.jpg"] : Path).getLastD "").data) :=
  C3_movePhotoIntoPlace noFault (St.init collision) ["src", "a.jpg"] ["out", "Photos", "a.jpg"]
    (Sha1.hex [89]) ["out", "Photos", "a_23eb4d3f4155395a74e9d534f97ff4c1908f5aac.jpg"]
    (by decide) ⟨by decide, by decide⟩ (by decide!)

end Takeout

namespace Takeout

/-! ## C7 and C10: the end-to-end scenarios -/

theorem commonLen_le_left : ∀ a b : Path, commonLen a b ≤ a.length
  | [], _ => by simp [commonLen]
  | _ :: _, [] => by simp [commonLen]
  | x :: a, y :: b => by
    unfold commonLen
    by_cases h : x = y
    · simp only [h, if_true, List.length_cons]
      exact Nat.succ_le_succ (commonLen_le_left a b)
    · simp [h]

theorem take_commonLen : ∀ a b : Path,
    a.take (commonLen a b) = b.take (commonLen a b)
  | [], _ => by simp [commonLen]
  | _ :: _, [] => by simp [commonLen]
  | x :: a, y :: b => by
    unfold commonLen
    by_cases h : x = y
    · simp only [h, if_true, List.take_succ_cons, List.cons.injEq, true_and]
      exact take_commonLen a b
    · simp [h]

/-- Reading the link that `filepath.Rel` computed, from the directory it was computed
for, gives the target back. -/
theorem resolve_Rel (base targ : Path) :
    resolve base (Rel base targ).1 (Rel base targ).2 = targ := by
  unfold resolve Rel
  simp only
  have h := commonLen_le_left base targ
  have h2 : base.length - (base.length - commonLen base targ) = commonLen base targ := by omega
  rw [h2, take_commonLen, List.take_append_drop]

/-- An album step on a member whose fingerprint is indexed touches nothing but the link. -/
theorem albumPhoto_indexed (env : Env) (sd ta tao : Path) (x : DirEntry) (st : St)
    (c : Content) (ip : Path)
    (hc : st.fs.readFile (sd ++ [x.name]) = some c)
    (hi : assocGet st.index (Sha1.hex c) = some ip) :
    (albumPhoto env sd ta tao x st).2.index = st.index ∧
    (∀ q, q ≠ ta ++ [x.name] →
      assocGet (albumPhoto env sd ta tao x st).2.fs q = assocGet st.fs q) ∧
    (assocGet (albumPhoto env sd ta tao x st).2.fs (ta ++ [x.name])
        = assocGet st.fs (ta ++ [x.name]) ∨
      (assocGet st.fs (ta ++ [x.name]) = none ∧
        assocGet (albumPhoto env sd ta tao x st).2.fs (ta ++ [x.name])
          = some (.symlink (Rel ta ip).1 (Rel ta ip).2))) ∧
    ((albumPhoto env sd ta tao x st).1 = .ok () → Ext x.name ≠ ".json" →
      assocGet (albumPhoto env sd ta tao x st).2.fs (ta ++ [x.name])
        = some (.symlink (Rel ta ip).1 (Rel ta ip).2)) := by
  rcases albumPhoto_cases env sd ta tao x st with
    ⟨h1, h2, _, h4⟩ | ⟨c1, ip1, _, hc1, hi1, h2, h3, _⟩ | ⟨c1, q, fs1, _, hc1, hn, _⟩
  · refine ⟨h2, fun q _ => by rw [h1], Or.inl (by rw [h1]), fun hok hj => absurd (h4 hok) hj⟩
  · have hcc : c1 = c := by rw [hc] at hc1; exact (Option.some.inj hc1).symm
    subst hcc
    have hip : ip1 = ip := by rw [hi] at hi1; exact (Option.some.inj hi1).symm
    subst hip
    obtain ⟨s1, s2⟩ := symlink_get h3
    refine ⟨h2, fun q hq => by rw [s2 q]; simp [hq], Or.inr ⟨s1, by rw [s2]; simp⟩,
      fun _ _ => by rw [s2]; simp⟩
  · have hcc : c1 = c := by rw [hc] at hc1; exact (Option.some.inj hc1).symm
    subst hcc
    rw [hi] at hn; simp at hn

/-- C10, the code at the failing input: three different photos go in, the run succeeds,
and the bytes of `a_23eb...jpg` are in no file afterwards: `Photos/a_23eb...jpg`, where
they had been put, now holds the bytes of the second `a.jpg`. -/
theorem C10_content_lost :
    holdsContent (St.init lossTree).fs [90] = true ∧
    (run noFault ["src"] ["out"] (St.init lossTree)).1 = .ok () ∧
    holdsContent (run noFault ["src"] ["out"] (St.init lossTree)).2.fs [90] = false ∧
    assocGet (mainPass noFault ["src", "Google Photos"] ["out"] [⟨"Photos from 2019", true⟩]
        (St.init lossTree)).2.fs
      ["out", "Photos", "a_23eb4d3f4155395a74e9d534f97ff4c1908f5aac.jpg"] = some (.file [90]) ∧
    assocGet (run noFault ["src"] ["out"] (St.init lossTree)).2.fs
      ["out", "Photos", "a_23eb4d3f4155395a74e9d534f97ff4c1908f5aac.jpg"] = some (.file [89]) ∧
    assocGet (run noFault ["src"] ["out"] (St.init lossTree)).2.fs ["out", "Photos", "a.jpg"]
      = some (.file [88]) ∧
    Sha1.hex [89] = "23eb4d3f4155395a74e9d534f97ff4c1908f5aac" := by
  decide!

end Takeout

namespace Takeout

/-! ## C5: photos that occur only in albums -/

/-- An album step on a regular file whose fingerprint is not indexed, if it succeeds: the
file is moved to the path `movePhotoIntoPlace` returns, that path is indexed, and the
link points to it. -/
theorem albumPhoto_absent (env : Env) (sd ta tao : Path) (x : DirEntry) (st : St)
    (c : Content) (hj : Ext x.name ≠ ".json")
    (hc : assocGet st.fs (sd ++ [x.name]) = some (.file c))
    (hi : assocGet st.index (Sha1.hex c) = none)
    (hok : (albumPhoto env sd ta tao x st).1 = .ok ()) :
    ∃ p, (movePhotoIntoPlace env (sd ++ [x.name]) (tao ++ [x.name]) (Sha1.hex c)
        (getFileSha env (sd ++ [x.name]) st).2).1 = some p ∧
      p.dropLast = tao ∧
      assocGet (albumPhoto env sd ta tao x st).2.fs p = some (.file c) ∧
      assocGet (albumPhoto env sd ta tao x st).2.index (Sha1.hex c) = some p ∧
      assocGet (albumPhoto env sd ta tao x st).2.fs (ta ++ [x.name])
        = some (.symlink (Rel ta p).1 (Rel ta p).2) ∧
      resolve ta (Rel ta p).1 (Rel ta p).2 = p := by
  have hr := readFile_of_file hc
  rcases albumPhoto_cases env sd ta tao x st with
    ⟨_, _, _, h4⟩ | ⟨c1, ip1, _, hc1, hi1, _⟩ |
    ⟨c1, p, fs1, _, hc1, _, hmv, hdl, hidx, _, hlink, hpath⟩
  · exact absurd (h4 hok) hj
  · have hcc : c1 = c := by rw [hr] at hc1; exact (Option.some.inj hc1).symm
    subst hcc
    rw [hi] at hi1; simp at hi1
  · have hcc : c1 = c := by rw [hr] at hc1; exact (Option.some.inj hc1).symm
    subst hcc
    rcases hlink with ⟨_, hbad⟩ | ⟨hl, _⟩
    · exact absurd hok hbad
    · obtain ⟨s1, s2⟩ := symlink_get hl
      have hp1 : assocGet fs1 p = some (.file c1) := by
        rw [rename_nondir hmv hc (by simp) p]; simp
      have hne : p ≠ ta ++ [x.name] := by
        intro e; rw [e, s1] at hp1; simp at hp1
      refine ⟨p, hpath, hdl, ?_, ?_, ?_, resolve_Rel ta p⟩
      · rw [s2 p]; simp [hne, hp1]
      · rw [hidx, assocGet_set]; simp
      · rw [s2]; simp

set_option maxRecDepth 100000 in
/-- C5, the code at the failing input. The member `A1/a_23eb...jpg` (bytes `[90]`) is not
indexed when its album is processed: it is moved to
`<target>/Album-only Photos/a_23eb...jpg` and that path is recorded for its fingerprint.
The member `A2/a.jpg` (bytes `[89]`, fingerprint `23eb...`) then collides with
`Album-only Photos/a.jpg` and is renamed to its collision name, the same path, without a
check: the recorded file is replaced. At the end of the successful run the path is still
recorded for the fingerprint of `[90]` but holds `[89]`; the later member `A3/x.jpg`,
whose bytes are `[90]`, is linked to it, and no file of `Album-only Photos` holds its
bytes. -/
theorem C5_later_member_linked_to_other_bytes :
    emptyTarget reusedName ["out"] = true ∧ noSymlinks reusedName = true ∧
    assocGet reusedName ["src", "Google Photos", "A3", "x.jpg"] = some (.file [90]) ∧
    assocGet reusedName
      ["src", "Google Photos", "A1", "a_23eb4d3f4155395a74e9d534f97ff4c1908f5aac.jpg"]
      = some (.file [90]) ∧
    Sha1.hex [89] = "23eb4d3f4155395a74e9d534f97ff4c1908f5aac" ∧
    reusedName.readDir ["src", "Google Photos"]
      = some [⟨"A1", true⟩, ⟨"A2", true⟩, ⟨"A3", true⟩, ⟨"Archive", true⟩] ∧
    assocGet (albumPass noFault ["src", "Google Photos"] ["out"] [⟨"A1", true⟩]
        (archivePass noFault ["src", "Google Photos"] ["out"]
          (mainPass noFault ["src", "Google Photos"] ["out"]
            [⟨"A1", true⟩, ⟨"A2", true⟩, ⟨"A3", true⟩, ⟨"Archive", true⟩]
            (St.init reusedName)).2).2).2.fs
      ["out", "Album-only Photos", "a_23eb4d3f4155395a74e9d534f97ff4c1908f5aac.jpg"]
      = some (.file [90]) ∧
    assocGet (albumPass noFault ["src", "Google Photos"] ["out"] [⟨"A1", true⟩]
        (archivePass noFault ["src", "Google Photos"] ["out"]
          (mainPass noFault ["src", "Google Photos"] ["out"]
            [⟨"A1", true⟩, ⟨"A2", true⟩, ⟨"A3", true⟩, ⟨"Archive", true⟩]
            (St.init reusedName)).2).2).2.index
      (Sha1.hex [90])
      = some ["out", "Album-only Photos", "a_23eb4d3f4155395a74e9d534f97ff4c1908f5aac.jpg"] ∧
    (run noFault ["src"] ["out"] (St.init reusedName)).1 = .ok () ∧
    assocGet (run noFault ["src"] ["out"] (St.init reusedName)).2.index (Sha1.hex [90])
      = some ["out", "Album-only Photos", "a_23eb4d3f4155395a74e9d534f97ff4c1908f5aac.jpg"] ∧
    assocGet (run noFault ["src"] ["out"] (St.init reusedName)).2.fs
      ["out", "Album-only Photos", "a_23eb4d3f4155395a74e9d534f97ff4c1908f5aac.jpg"]
      = some (.file [89]) ∧
    assocGet (run noFault ["src"] ["out"] (St.init reusedName)).2.fs
      ["out", "Albums", "A3", "x.jpg"]
      = some (.symlink 2 ["Album-only Photos", "a_23eb4d3f4155395a74e9d534f97ff4c1908f5aac.jpg"]) ∧
    follow maxLinks (run noFault ["src"] ["out"] (St.init reusedName)).2.fs
      ["out", "Albums", "A3", "x.jpg"] = .found (.file [89]) ∧
    dirHoldsContent (run noFault ["src"] ["out"] (St.init reusedName)).2.fs
      ["out", "Album-only Photos"] [90] = false := by
  decide!

end Takeout

namespace Takeout

/-! ## Regular files under the operations -/

theorem mkdirAll_file {fs fs1 : FS} {p : Path} (h : fs.mkdirAll p = some fs1) (q : Path)
    (c : Content) : assocGet fs1 q = some (.file c) ↔ assocGet fs q = some (.file c) := by
  rcases mkdirAll_get h q with h1 | ⟨h1, h2, _⟩
  · rw [h1]
  · rw [h1, h2]; simp

theorem mkdirAll_mono {fs fs1 : FS} {p : Path} (h : fs.mkdirAll p = some fs1) (q : Path)
    (n : Node) (hq : assocGet fs q = some n) : assocGet fs1 q = some n := by
  rcases mkdirAll_get h q with h1 | ⟨h1, _, _⟩
  · rw [h1]; exact hq
  · rw [h1] at hq; simp at hq

theorem symlink_file {fs fs1 : FS} {u : Nat} {d p : Path} (h : fs.symlink u d p = some fs1)
    (q : Path) (c : Content) :
    assocGet fs1 q = some (.file c) ↔ assocGet fs q = some (.file c) := by
  obtain ⟨s1, s2⟩ := symlink_get h
  rw [s2 q]
  by_cases hq : q = p
  · subst hq; simp [s1]
  · simp [hq]

theorem readFile_file_eq {fs : FS} {p : Path} {c c1 : Content} (h : fs.readFile p = some c)
    (hn : assocGet fs p = some (.file c1)) : c1 = c := by
  rw [readFile_of_file hn] at h
  exact Option.some.inj h

/-- A move of a readable file: the node goes from `src` to `p`, and if it is a regular
file its bytes are the ones that were hashed. -/
theorem move_get {fs fs1 : FS} {src p : Path} {c : Content} (hr : fs.readFile src = some c)
    (hm : fs.rename src p = some fs1) :
    ∃ n, assocGet fs src = some n ∧ n ≠ .dir ∧ (∀ c1, n = .file c1 → c1 = c) ∧
      ∀ q, assocGet fs1 q = if q = p then some n else if q = src then none else assocGet fs q := by
  rcases readFile_node hr with h | ⟨u, d, h⟩
  · refine ⟨_, h, by simp, ?_, rename_nondir hm h (by simp)⟩
    intro c1 e
    simp only [Node.file.injEq] at e
    exact e.symm
  · refine ⟨_, h, by simp, ?_, rename_nondir hm h (by simp)⟩
    intro c1 e
    simp at e

/-- After a move, a regular file is the moved one, sitting at the destination, or one that
was there before. -/
theorem move_file {fs fs1 : FS} {src p : Path} {c : Content} (hr : fs.readFile src = some c)
    (hm : fs.rename src p = some fs1) (q : Path) (c1 : Content)
    (h : assocGet fs1 q = some (.file c1)) :
    (q = p ∧ c1 = c) ∨ (q ≠ p ∧ q ≠ src ∧ assocGet fs q = some (.file c1)) := by
  obtain ⟨n, _, _, h3, h4⟩ := move_get hr hm
  rw [h4 q] at h
  by_cases hq : q = p
  · left
    simp only [hq, if_true, Option.some.injEq] at h
    exact ⟨hq, h3 c1 h⟩
  · right
    by_cases hs : q = src
    · rw [if_neg hq, if_pos hs] at h
      simp at h
    · rw [if_neg hq, if_neg hs] at h
      exact ⟨hq, hs, h⟩

/-! ## A property through the whole of `run` -/

theorem run_inv (P1 P2 : FS → Index → Prop) (env : Env) (sourceDir targetDir : Path) (fs : FS)
    (h12 : ∀ f idx, P1 f idx → P2 f idx)
    (hmain : ∀ es, fs.readDir (sourceDir ++ ["Google Photos"]) = some es →
      ∀ st, P1 st.fs st.index →
      P1 (mainPass env (sourceDir ++ ["Google Photos"]) targetDir es st).2.fs
        (mainPass env (sourceDir ++ ["Google Photos"]) targetDir es st).2.index)
    (harch : ∀ st, P1 st.fs st.index →
      P1 (archivePass env (sourceDir ++ ["Google Photos"]) targetDir st).2.fs
        (archivePass env (sourceDir ++ ["Google Photos"]) targetDir st).2.index)
    (halb : ∀ es, fs.readDir (sourceDir ++ ["Google Photos"]) = some es →
      ∀ st, P2 st.fs st.index →
      P2 (albumPass env (sourceDir ++ ["Google Photos"]) targetDir es st).2.fs
        (albumPass env (sourceDir ++ ["Google Photos"]) targetDir es st).2.index)
    (h0 : P1 fs []) :
    P2 (run env sourceDir targetDir (St.init fs)).2.fs
      (run env sourceDir targetDir (St.init fs)).2.index := by
  unfold run
  simp only [bind_apply, orFail_apply]
  obtain ⟨r1, r2, _, r4⟩ := osReadDir_spec env (sourceDir ++ ["Google Photos"]) (St.init fs)
  rcases hr : osReadDir env (sourceDir ++ ["Google Photos"]) (St.init fs) with ⟨_ | es, st1⟩
  · rw [hr] at r1 r2
    simp only at r1 r2 ⊢
    rw [r1, r2]; exact h12 _ _ h0
  · rw [hr] at r1 r2 r4
    simp only at r1 r2 r4 ⊢
    have hes := r4 es rfl
    simp only [newIndex]
    have hm := hmain es hes { st1 with index := [] } (by simp only; rw [r1]; exact h0)
    rcases hmp : mainPass env (sourceDir ++ ["Google Photos"]) targetDir es
      { st1 with index := [] } with ⟨_ | u, st2⟩
    · rw [hmp] at hm; exact h12 _ _ hm
    · rw [hmp] at hm
      simp only at hm ⊢
      have ha := harch st2 hm
      rcases hap : archivePass env (sourceDir ++ ["Google Photos"]) targetDir st2
        with ⟨_ | u, st3⟩
      · rw [hap] at ha; exact h12 _ _ ha
      · rw [hap] at ha
        simp only at ha ⊢
        have hb := halb es hes st3 (h12 _ _ ha)
        rcases hbp : albumPass env (sourceDir ++ ["Google Photos"]) targetDir es st3
          with ⟨_ | u, st4⟩
        · rw [hbp] at hb; exact hb
        · rw [hbp] at hb
          simp only at hb ⊢
          exact exifPass_keeps P2 env targetDir st4 hb

end Takeout

namespace Takeout

/-! ## C2: how many real files a fingerprint gets -/

theorem store_ne_1 (t : Path) : t ++ ["Photos"] ≠ t ++ ["Album-only Photos"] := by
  intro h; have := List.append_cancel_left h; simp at this

theorem store_ne_2 (t : Path) : t ++ ["Archive"] ≠ t ++ ["Album-only Photos"] := by
  intro h; have := List.append_cancel_left h; simp at this

theorem emptyStores_spec {fs : FS} {t : Path} (h : emptyStores fs t = true) (q : Path)
    (c : Content) (hq : inStores t q = true) : assocGet fs q ≠ some (.file c) := by
  intro hf
  have hm := assocGet_mem hf
  unfold emptyStores at h
  rw [List.all_eq_true] at h
  have := h _ hm
  simp [hq] at this

theorem invMain_init {fs : FS} {t : Path} (h : emptyStores fs t = true) : InvMain t fs [] := by
  refine ⟨?_, ?_, ?_⟩
  · intro q c hq hf
    refine absurd hf (emptyStores_spec h q c ?_)
    unfold inStores
    rcases hq with hq | hq <;> simp [hq]
  · intro q c hq
    refine emptyStores_spec h q c ?_
    unfold inStores
    simp [hq]
  · intro s p hp; simp [assocGet] at hp

theorem invMain_album {t : Path} {fs : FS} {idx : Index} (h : InvMain t fs idx) :
    InvAlbum t fs idx :=
  ⟨h.1, fun q c hq hf => absurd hf (h.2.1 q c hq)⟩

theorem invMain_mkdir {t p : Path} {fs fs1 : FS} {idx : Index} (h : InvMain t fs idx)
    (hm : fs.mkdirAll p = some fs1) : InvMain t fs1 idx :=
  ⟨fun q c hq hf => h.1 q c hq ((mkdirAll_file hm q c).1 hf),
    fun q c hq hf => h.2.1 q c hq ((mkdirAll_file hm q c).1 hf), h.2.2⟩

theorem invAlbum_mkdir {t p : Path} {fs fs1 : FS} {idx : Index} (h : InvAlbum t fs idx)
    (hm : fs.mkdirAll p = some fs1) : InvAlbum t fs1 idx :=
  ⟨fun q c hq hf => h.1 q c hq ((mkdirAll_file hm q c).1 hf),
    fun q c hq hf => h.2 q c hq ((mkdirAll_file hm q c).1 hf)⟩

theorem invMain_mainPhoto (env : Env) (t sd : Path) (x : DirEntry) (st : St)
    (h : InvMain t st.fs st.index) :
    InvMain t (mainPhoto env sd (t ++ ["Photos"]) x st).2.fs
      (mainPhoto env sd (t ++ ["Photos"]) x st).2.index := by
  rcases mainPhoto_cases env sd (t ++ ["Photos"]) x st with
    ⟨h1, h2, _⟩ | ⟨c, p, _, hr, hm, hp, hidx, _⟩
  · rw [h1, h2]; exact h
  · rw [hidx]
    refine ⟨?_, ?_, ?_⟩
    · intro q c1 hq hf
      rcases move_file hr hm q c1 hf with ⟨rfl, rfl⟩ | ⟨_, _, hf0⟩
      · exact ⟨q, by rw [assocGet_set]; simp, Or.inl hp⟩
      · obtain ⟨p0, hp0, hp1⟩ := h.1 q c1 hq hf0
        rw [assocGet_set]
        by_cases hs : Sha1.hex c1 = Sha1.hex c
        · exact ⟨p, by simp [hs], Or.inl hp⟩
        · exact ⟨p0, by simp [hs, hp0], hp1⟩
    · intro q c1 hq hf
      rcases move_file hr hm q c1 hf with ⟨rfl, _⟩ | ⟨_, _, hf0⟩
      · rw [hp] at hq; exact store_ne_1 t hq
      · exact h.2.1 q c1 hq hf0
    · intro s p0 hs
      rw [assocGet_set] at hs
      by_cases hs1 : s = Sha1.hex c
      · simp only [hs1, if_true, Option.some.injEq] at hs
        rw [← hs]; exact Or.inl hp
      · simp only [hs1, if_false] at hs
        exact h.2.2 s p0 hs

theorem invMain_archivePhoto (env : Env) (t sd : Path) (x : DirEntry) (st : St)
    (h : InvMain t st.fs st.index) :
    InvMain t (archivePhoto env sd (t ++ ["Archive"]) x st).2.fs
      (archivePhoto env sd (t ++ ["Archive"]) x st).2.index := by
  rcases archivePhoto_cases env sd (t ++ ["Archive"]) x st with
    ⟨h1, h2, _⟩ | ⟨c, p, _, hr, hm, hp, hidx, _⟩
  · rw [h1, h2]; exact h
  · rw [hidx]
    by_cases hn : assocGet st.index (Sha1.hex c) = none
    · simp only [hn, if_true]
      refine ⟨?_, ?_, ?_⟩
      · intro q c1 hq hf
        rcases move_file hr hm q c1 hf with ⟨rfl, rfl⟩ | ⟨_, _, hf0⟩
        · exact ⟨q, by rw [assocGet_set]; simp, Or.inr hp⟩
        · obtain ⟨p0, hp0, hp1⟩ := h.1 q c1 hq hf0
          rw [assocGet_set]
          by_cases hs : Sha1.hex c1 = Sha1.hex c
          · exact ⟨p, by simp [hs], Or.inr hp⟩
          · exact ⟨p0, by simp [hs, hp0], hp1⟩
      · intro q c1 hq hf
        rcases move_file hr hm q c1 hf with ⟨rfl, _⟩ | ⟨_, _, hf0⟩
        · rw [hp] at hq; exact store_ne_2 t hq
        · exact h.2.1 q c1 hq hf0
      · intro s p0 hs
        rw [assocGet_set] at hs
        by_cases hs1 : s = Sha1.hex c
        · simp only [hs1, if_true, Option.some.injEq] at hs
          rw [← hs]; exact Or.inr hp
        · simp only [hs1, if_false] at hs
          exact h.2.2 s p0 hs
    · simp only [hn, if_false]
      refine ⟨?_, ?_, h.2.2⟩
      · intro q c1 hq hf
        rcases move_file hr hm q c1 hf with ⟨rfl, rfl⟩ | ⟨_, _, hf0⟩
        · cases hi : assocGet st.index (Sha1.hex c1) with
          | none => exact absurd hi hn
          | some p0 => exact ⟨p0, rfl, h.2.2 _ _ hi⟩
        · exact h.1 q c1 hq hf0
      · intro q c1 hq hf
        rcases move_file hr hm q c1 hf with ⟨rfl, _⟩ | ⟨_, _, hf0⟩
        · rw [hp] at hq; exact store_ne_2 t hq
        · exact h.2.1 q c1 hq hf0

theorem invAlbum_albumPhoto (env : Env) (t sd ta : Path) (x : DirEntry) (st : St)
    (h : InvAlbum t st.fs st.index) :
    InvAlbum t (albumPhoto env sd ta (t ++ ["Album-only Photos"]) x st).2.fs
      (albumPhoto env sd ta (t ++ ["Album-only Photos"]) x st).2.index := by
  rcases albumPhoto_cases env sd ta (t ++ ["Album-only Photos"]) x st with
    ⟨h1, h2, _⟩ | ⟨c, ip, _, _, _, h2, h3, _⟩ | ⟨c, p, fs1, _, hr, hn, hm, hp, hidx, _, hl, _⟩
  · rw [h1, h2]; exact h
  · rw [h2]
    exact ⟨fun q c1 hq hf => h.1 q c1 hq ((symlink_file h3 q c1).1 hf),
      fun q c1 hq hf => h.2 q c1 hq ((symlink_file h3 q c1).1 hf)⟩
  · rw [hidx]
    have key : InvAlbum t fs1 (assocSet st.index (Sha1.hex c) p) := by
      refine ⟨?_, ?_⟩
      · intro q c1 hq hf
        rcases move_file hr hm q c1 hf with ⟨rfl, _⟩ | ⟨_, _, hf0⟩
        · rw [hp] at hq
          rcases hq with hq | hq
          · exact absurd hq.symm (store_ne_1 t)
          · exact absurd hq.symm (store_ne_2 t)
        · obtain ⟨p0, hp0, hp1⟩ := h.1 q c1 hq hf0
          refine ⟨p0, ?_, hp1⟩
          rw [assocGet_set]
          by_cases hs : Sha1.hex c1 = Sha1.hex c
          · rw [hs, hn] at hp0; simp at hp0
          · simp [hs, hp0]
      · intro q c1 hq hf
        rcases move_file hr hm q c1 hf with ⟨rfl, rfl⟩ | ⟨hqp, _, hf0⟩
        · rw [assocGet_set]; simp
        · have h0 := h.2 q c1 hq hf0
          rw [assocGet_set]
          by_cases hs : Sha1.hex c1 = Sha1.hex c
          · rw [hs, hn] at h0; simp at h0
          · simp [hs, h0]
    rcases hl with ⟨hl, _⟩ | ⟨hl, _⟩
    · rw [hl]; exact key
    · exact ⟨fun q c1 hq hf => key.1 q c1 hq ((symlink_file hl q c1).1 hf),
        fun q c1 hq hf => key.2 q c1 hq ((symlink_file hl q c1).1 hf)⟩

theorem run_invAlbum (env : Env) (sourceDir targetDir : Path) (fs : FS)
    (h : emptyStores fs targetDir = true) :
    InvAlbum targetDir (run env sourceDir targetDir (St.init fs)).2.fs
      (run env sourceDir targetDir (St.init fs)).2.index := by
  refine run_inv (InvMain targetDir) (InvAlbum targetDir) env sourceDir targetDir fs
    (fun _ _ h1 => invMain_album h1) ?_ ?_ ?_ (invMain_init h)
  · intro es _ st hst
    exact mainPass_keeps (InvMain targetDir) env _ targetDir es
      (fun _ _ _ h1 hm => invMain_mkdir h1 hm)
      (fun d _ _ x s hs => invMain_mainPhoto env targetDir _ x s hs) st hst
  · intro st hst
    exact archivePass_keeps (InvMain targetDir) env _ targetDir
      (fun _ _ _ h1 hm => invMain_mkdir h1 hm)
      (fun x s hs => invMain_archivePhoto env targetDir _ x s hs) st hst
  · intro es _ st hst
    exact albumPass_keeps (InvAlbum targetDir) env _ targetDir es
      (fun _ _ _ h1 hm => invAlbum_mkdir h1 hm) (fun _ _ _ h1 hm => invAlbum_mkdir h1 hm)
      (fun _ _ _ _ h1 hm => invAlbum_mkdir h1 hm)
      (fun d _ _ _ _ x s hs => invAlbum_albumPhoto env targetDir _ _ x s hs) st hst

/-- C2, counterexample: the same photo in a year folder and in `Archive` becomes two real
files, `<target>/Photos/a.jpg` and `<target>/Archive/a.jpg`; the same photo under two
names in two year folders becomes two real files in `<target>/Photos`. -/
theorem C2_counterexample :
    (run noFault ["src"] ["out"] (St.init archiveTwin)).1 = .ok () ∧
    assocGet (run noFault ["src"] ["out"] (St.init archiveTwin)).2.fs ["out", "Photos", "a.jpg"]
      = some (.file [88]) ∧
    assocGet (run noFault ["src"] ["out"] (St.init archiveTwin)).2.fs ["out", "Archive", "a.jpg"]
      = some (.file [88]) ∧
    (run noFault ["src"] ["out"] (St.init twinTree)).1 = .ok () ∧
    assocGet (run noFault ["src"] ["out"] (St.init twinTree)).2.fs ["out", "Photos", "a.jpg"]
      = some (.file [88]) ∧
    assocGet (run noFault ["src"] ["out"] (St.init twinTree)).2.fs ["out", "Photos", "b.jpg"]
      = some (.file [88]) := by
  decide!

/-- C2, amended: let the file system hold no symbolic link at the start (every path is
then what it is written as), and let the three store directories of the target hold no
file. After `run`, whether it succeeds or stops at an error, a real file in
`<target>/Album-only Photos` has a fingerprint that no other real file in
`<target>/Photos`, `<target>/Archive` or `<target>/Album-only Photos` has. -/
theorem C2_album_only_unique (env : Env) (sourceDir targetDir : Path) (fs : FS)
    (hstart : noSymlinks fs = true ∧ emptyStores fs targetDir = true) (q q1 : Path)
    (c c1 : Content)
    (hq : q.dropLast = targetDir ++ ["Album-only Photos"])
    (hf : assocGet (run env sourceDir targetDir (St.init fs)).2.fs q = some (.file c))
    (hq1 : inStores targetDir q1 = true) (hne : q1 ≠ q)
    (hf1 : assocGet (run env sourceDir targetDir (St.init fs)).2.fs q1 = some (.file c1)) :
    Sha1.hex c1 ≠ Sha1.hex c := by
  obtain ⟨i1, i2⟩ := run_invAlbum env sourceDir targetDir fs hstart.2
  have hi := i2 q c hq hf
  intro hs
  unfold inStores at hq1
  simp only [Bool.or_eq_true, decide_eq_true_eq] at hq1
  rcases hq1 with (hq1 | hq1) | hq1
  · obtain ⟨p0, hp0, hp1⟩ := i1 q1 c1 (Or.inl hq1) hf1
    rw [hs, hi] at hp0
    have : q = p0 := Option.some.inj hp0
    subst this
    rw [hq] at hp1
    rcases hp1 with hp1 | hp1
    · exact store_ne_1 targetDir hp1.symm
    · exact store_ne_2 targetDir hp1.symm
  · obtain ⟨p0, hp0, hp1⟩ := i1 q1 c1 (Or.inr hq1) hf1
    rw [hs, hi] at hp0
    have : q = p0 := Option.some.inj hp0
    subst this
    rw [hq] at hp1
    rcases hp1 with hp1 | hp1
    · exact store_ne_1 targetDir hp1.symm
    · exact store_ne_2 targetDir hp1.symm
  · have h1 := i2 q1 c1 hq1 hf1
    rw [hs, hi] at h1
    exact hne (Option.some.inj h1).symm

/-- C2, witness: a run with a year folder, an archive and two albums that share a photo:
the shared photo is in `Album-only Photos` once, and its fingerprint is not that of the
photo in `Photos`. -/
theorem C2_witness :
    (noSymlinks sharedTree = true ∧ emptyStores sharedTree ["out"] = true) ∧
    assocGet (run noFault ["src"] ["out"] (St.init sharedTree)).2.fs
      ["out", "Album-only Photos", "x.jpg"] = some (.file [89]) ∧
    assocGet (run noFault ["src"] ["out"] (St.init sharedTree)).2.fs
      ["out", "Photos", "a.jpg"] = some (.file [88]) ∧
    Sha1.hex [88] ≠ Sha1.hex [89] :=
  ⟨⟨by decide, by decide⟩, by decide!, by decide!,
    C2_album_only_unique noFault ["src"] ["out"] sharedTree ⟨by decide, by decide⟩
      ["out", "Album-only Photos", "x.jpg"] ["out", "Photos", "a.jpg"] [89] [88]
      (by decide) (by decide!) (by decide) (by decide) (by decide!)⟩

end Takeout

namespace Takeout

/-! ## Every computation of `run` is traced -/

theorem replay_append (fs : FS) (a b : List (Op × Bool)) :
    replay fs (a ++ b) = replay (replay fs a) b := by
  simp [replay, List.foldl_append]

theorem clean_append {a b : List (Op × Bool)} {f : Bool} (ha : Clean a false) (hb : Clean b f) :
    Clean (a ++ b) f := by
  unfold Clean at *
  simp only [Bool.false_eq_true, if_false] at ha
  cases f with
  | true =>
    simp only [if_true] at hb ⊢
    obtain ⟨pre, e, rfl, he, hpre⟩ := hb
    refine ⟨a ++ pre, e, by simp, he, ?_⟩
    intro x hx
    rcases List.mem_append.1 hx with h | h
    · exact ha x h
    · exact hpre x h
  | false =>
    simp only [Bool.false_eq_true, if_false] at hb ⊢
    intro x hx
    rcases List.mem_append.1 hx with h | h
    · exact ha x h
    · exact hb x h

theorem traced_pure {α : Type} (a : α) : Traced (pure a : M α) := by
  intro st
  exact ⟨[], by simp, by simp [replay], by simp [Clean, isError]⟩

theorem traced_bind {α β : Type} {m : M α} {f : α → M β} (hm : Traced m)
    (hf : ∀ a, Traced (f a)) : Traced (m >>= f) := by
  intro st
  obtain ⟨n1, h1, h2, h3⟩ := hm st
  rw [bind_apply]
  rcases hr : m st with ⟨e | a, st1⟩
  · rw [hr] at h1 h2 h3
    exact ⟨n1, h1, h2, h3⟩
  · rw [hr] at h1 h2 h3
    simp only at h1 h2 h3 ⊢
    obtain ⟨n2, g1, g2, g3⟩ := hf a st1
    refine ⟨n1 ++ n2, by rw [g1, h1, List.append_assoc], by rw [g2, h2, replay_append], ?_⟩
    exact clean_append (by simpa [isError] using h3) g3

theorem traced_forEach {α : Type} (body : α → M Unit) (hb : ∀ x, Traced (body x)) :
    ∀ xs : List α, Traced (forEach xs body)
  | [] => traced_pure ()
  | x :: xs => by
    unfold forEach
    exact traced_bind (hb x) (fun _ => traced_forEach body hb xs)

theorem traced_setIndex (s : String) (p : Path) : Traced (setIndex s p) := by
  intro st
  exact ⟨[], by simp [setIndex], by simp [setIndex, replay], by simp [Clean, isError, setIndex]⟩

theorem traced_getIndex (s : String) : Traced (getIndex s) := by
  intro st
  exact ⟨[], by simp [getIndex], by simp [getIndex, replay], by simp [Clean, isError, getIndex]⟩

theorem traced_newIndex : Traced newIndex := by
  intro st
  exact ⟨[], by simp [newIndex], by simp [newIndex, replay], by simp [Clean, isError, newIndex]⟩

theorem clean_single_ok (op : Op) : Clean [(op, true)] false := by
  simp [Clean, failing]

theorem clean_single_fail (op : Op) (h : failing (op, false) = true) :
    Clean [(op, false)] true := by
  simp only [Clean, if_true]
  exact ⟨[], (op, false), rfl, h, by simp⟩

theorem traced_readDir (env : Env) (e : Err) (p : Path) :
    Traced (orFail e (osReadDir env p)) := by
  intro st
  rw [orFail_apply]
  unfold osReadDir
  by_cases hf : env.fault (.readDir p) = true
  · simp only [hf, if_true]
    exact ⟨_, rfl, by simp [replay], clean_single_fail _ rfl⟩
  · simp only [hf, Bool.false_eq_true, if_false]
    cases hr : st.fs.readDir p with
    | none => exact ⟨_, rfl, by simp [replay], clean_single_fail _ rfl⟩
    | some es => exact ⟨_, rfl, by simp [replay, applyOp], clean_single_ok _⟩

theorem traced_mkdirAll (env : Env) (e : Err) (p : Path) :
    Traced (orFail e (osMkdirAll env p)) := by
  intro st
  rw [orFail_apply]
  unfold osMkdirAll
  by_cases hf : env.fault (.mkdirAll p) = true
  · simp only [hf, if_true]
    exact ⟨_, rfl, by simp [replay], clean_single_fail _ rfl⟩
  · simp only [hf, Bool.false_eq_true, if_false]
    cases hr : st.fs.mkdirAll p with
    | none => exact ⟨_, rfl, by simp [replay], clean_single_fail _ rfl⟩
    | some fs1 => exact ⟨_, rfl, by simp [replay, applyOp, hr], clean_single_ok _⟩

theorem traced_getFileSha (env : Env) (e : Err) (p : Path) :
    Traced (orFail e (getFileSha env p)) := by
  intro st
  rw [orFail_apply]
  unfold getFileSha
  by_cases hf : env.fault (.readFile p) = true
  · simp only [hf, if_true]
    exact ⟨_, rfl, by simp [replay], clean_single_fail _ rfl⟩
  · simp only [hf, Bool.false_eq_true, if_false]
    cases hr : st.fs.readFile p with
    | none => exact ⟨_, rfl, by simp [replay], clean_single_fail _ rfl⟩
    | some c => exact ⟨_, rfl, by simp [replay, applyOp], clean_single_ok _⟩

theorem traced_rel (env : Env) (e : Err) (b t : Path) :
    Traced (orFail e (osRel env b t)) := by
  intro st
  rw [orFail_apply]
  unfold osRel
  by_cases hf : env.fault (.rel b t) = true
  · simp only [hf, if_true]
    exact ⟨_, rfl, by simp [replay], clean_single_fail _ rfl⟩
  · simp only [hf, Bool.false_eq_true, if_false]
    exact ⟨_, rfl, by simp [replay, applyOp], clean_single_ok _⟩

theorem traced_symlink (env : Env) (e : Err) (l : Nat × Path) (p : Path) :
    Traced (orFail e (osSymlink env l p)) := by
  intro st
  rw [orFail_apply]
  unfold osSymlink
  by_cases hf : env.fault (.symlink l.1 l.2 p) = true
  · simp only [hf, if_true]
    exact ⟨_, rfl, by simp [replay], clean_single_fail _ rfl⟩
  · simp only [hf, Bool.false_eq_true, if_false]
    cases hr : st.fs.symlink l.1 l.2 p with
    | none => exact ⟨_, rfl, by simp [replay], clean_single_fail _ rfl⟩
    | some fs1 => exact ⟨_, rfl, by simp [replay, applyOp, hr], clean_single_ok _⟩

theorem traced_exiftool (env : Env) (e : Err) (p : Path) :
    Traced (orFail e (osExiftool env p)) := by
  intro st
  rw [orFail_apply]
  unfold osExiftool
  by_cases hf : env.fault (.exiftool p) = true
  · simp only [hf, if_true]
    exact ⟨_, rfl, by simp [replay], clean_single_fail _ rfl⟩
  · simp only [hf, Bool.false_eq_true, if_false]
    exact ⟨_, rfl, by simp [replay, applyOp], clean_single_ok _⟩

theorem traced_move (env : Env) (e : Err) (src tgt : Path) (sha : String) :
    Traced (orFail e (movePhotoIntoPlace env src tgt sha)) := by
  intro st
  rw [orFail_apply]
  obtain ⟨_, m2, m3⟩ := movePhotoIntoPlace_spec env src tgt sha st
  rcases hm : movePhotoIntoPlace env src tgt sha st with ⟨_ | p, st1⟩
  · rw [hm] at m2
    simp only at m2 ⊢
    obtain ⟨m2a, ok, p, m2b⟩ := m2 trivial
    refine ⟨_, m2b, by rw [m2a]; simp [replay, applyOp], ?_⟩
    simp only [Clean, isError, if_true]
    exact ⟨[(.stat tgt, ok)], (.rename src p, false), rfl, rfl, by simp [failing]⟩
  · rw [hm] at m3
    simp only at m3 ⊢
    obtain ⟨_, m3b, ok, m3c⟩ := m3 p rfl
    refine ⟨_, m3c, by simp [replay, applyOp, m3b], ?_⟩
    simp [Clean, isError, failing]

theorem traced_mainPhoto (env : Env) (sd td : Path) (x : DirEntry) :
    Traced (mainPhoto env sd td x) := by
  unfold mainPhoto
  by_cases hj : Ext x.name = ".json"
  · simp only [hj, if_true]; exact traced_pure ()
  · simp only [hj, if_false]
    exact traced_bind (traced_getFileSha _ _ _) (fun s =>
      traced_bind (traced_move _ _ _ _ _) (fun p => traced_setIndex _ _))

theorem traced_archivePhoto (env : Env) (sd td : Path) (x : DirEntry) :
    Traced (archivePhoto env sd td x) := by
  unfold archivePhoto
  by_cases hj : Ext x.name = ".json"
  · simp only [hj, if_true]; exact traced_pure ()
  · simp only [hj, if_false]
    refine traced_bind (traced_getFileSha _ _ _) (fun s =>
      traced_bind (traced_move _ _ _ _ _) (fun p =>
        traced_bind (traced_getIndex _) (fun r => ?_)))
    cases r with
    | none => exact traced_setIndex _ _
    | some q => exact traced_pure ()

theorem traced_linkStep (env : Env) (name : String) (tp ip : Path) :
    Traced (linkStep env name tp ip) := by
  unfold linkStep
  exact traced_bind (traced_rel _ _ _ _) (fun l => traced_symlink _ _ _ _)

theorem traced_albumPhoto (env : Env) (sd ta tao : Path) (x : DirEntry) :
    Traced (albumPhoto env sd ta tao x) := by
  unfold albumPhoto
  by_cases hj : Ext x.name = ".json"
  · simp only [hj, if_true]; exact traced_pure ()
  · simp only [hj, if_false]
    refine traced_bind (traced_getFileSha _ _ _) (fun s =>
      traced_bind (traced_getIndex _) (fun r => ?_))
    cases r with
    | none =>
      exact traced_bind (traced_move _ _ _ _ _) (fun p =>
        traced_bind (traced_setIndex _ _) (fun _ =>
          traced_bind (traced_pure _) (fun y => traced_linkStep env x.name _ y)))
    | some q =>
      exact traced_bind (traced_pure _) (fun y => traced_linkStep env x.name _ y)

theorem traced_mainDir (env : Env) (srcGP tp : Path) (e : DirEntry) :
    Traced (mainDir env srcGP tp e) := by
  rw [mainDir_eq]
  by_cases h : isYearFolder e = true
  · simp only [h, if_true]
    exact traced_bind (traced_readDir _ _ _) (fun l =>
      traced_forEach _ (fun x => traced_mainPhoto _ _ _ x) l)
  · simp only [h, if_false]; exact traced_pure ()

theorem traced_albumDir (env : Env) (srcGP ta tao : Path) (e : DirEntry) :
    Traced (albumDir env srcGP ta tao e) := by
  rw [albumDir_eq]
  by_cases h : isAlbum e = true
  · simp only [h, if_true]
    exact traced_bind (traced_readDir _ _ _) (fun l =>
      traced_bind (traced_mkdirAll _ _ _) (fun _ =>
        traced_forEach _ (fun x => traced_albumPhoto _ _ _ _ x) l))
  · simp only [h, if_false]; exact traced_pure ()

theorem traced_mainPass (env : Env) (srcGP tgt : Path) (es : List DirEntry) :
    Traced (mainPass env srcGP tgt es) := by
  unfold mainPass
  exact traced_bind (traced_mkdirAll _ _ _) (fun _ =>
    traced_forEach _ (fun e => traced_mainDir _ _ _ e) es)

theorem traced_archivePass (env : Env) (srcGP tgt : Path) :
    Traced (archivePass env srcGP tgt) := by
  unfold archivePass
  exact traced_bind (traced_mkdirAll _ _ _) (fun _ =>
    traced_bind (traced_readDir _ _ _) (fun l =>
      traced_forEach _ (fun x => traced_archivePhoto _ _ _ x) l))

theorem traced_albumPass (env : Env) (srcGP tgt : Path) (es : List DirEntry) :
    Traced (albumPass env srcGP tgt es) := by
  unfold albumPass
  exact traced_bind (traced_mkdirAll _ _ _) (fun _ =>
    traced_bind (traced_mkdirAll _ _ _) (fun _ =>
      traced_forEach _ (fun e => traced_albumDir _ _ _ _ e) es))

theorem traced_exifPass (env : Env) (tgt : Path) : Traced (exifPass env tgt) := by
  unfold exifPass
  exact traced_forEach _ (fun d => traced_exiftool _ _ d) _

theorem traced_run (env : Env) (sourceDir targetDir : Path) :
    Traced (run env sourceDir targetDir) := by
  unfold run
  exact traced_bind (traced_readDir _ _ _) (fun es =>
    traced_bind traced_newIndex (fun _ =>
      traced_bind (traced_mainPass _ _ _ es) (fun _ =>
        traced_bind (traced_archivePass _ _ _) (fun _ =>
          traced_bind (traced_albumPass _ _ _ es) (fun _ => traced_exifPass _ _)))))

end Takeout

namespace Takeout

/-! ## C8: the first error ends the run -/

theorem clean_last {new : List (Op × Bool)} {f : Bool} (h : Clean new f)
    (pre : List (Op × Bool)) (e : Op × Bool) (post : List (Op × Bool))
    (hn : new = pre ++ e :: post) (he : failing e = true) : post = [] ∧ f = true := by
  unfold Clean at h
  cases f with
  | false =>
    simp only [Bool.false_eq_true, if_false] at h
    have := h e (by rw [hn]; simp)
    rw [he] at this; simp at this
  | true =>
    simp only [if_true] at h
    obtain ⟨pre1, e1, h1, _, h3⟩ := h
    refine ⟨?_, rfl⟩
    rcases List.eq_nil_or_concat post with hp | ⟨post1, l, hp⟩
    · exact hp
    · exfalso
      rw [List.concat_eq_append] at hp
      subst hp
      have h4 : pre ++ e :: (post1 ++ [l]) = (pre ++ e :: post1) ++ [l] := by simp
      rw [hn, h4] at h1
      have h5 := List.append_inj_left' h1 rfl
      have h6 := h3 e (by rw [← h5]; simp)
      rw [he] at h6; simp at h6

theorem under_prefix_absurd {t q : Path} {a b : String} (h1 : (t ++ [a]) <+: q)
    (h2 : q <+: t ++ [b]) : a = b := by
  have l1 := h1.length_le
  have l2 := h2.length_le
  simp only [List.length_append, List.length_singleton] at l1 l2
  have e2 : q = t ++ [b] := List.IsPrefix.eq_of_length h2 (by simp; omega)
  subst e2
  have e1 : t ++ [a] = t ++ [b] := List.IsPrefix.eq_of_length h1 (by simp)
  simpa using List.append_cancel_left e1

theorem under_child_absurd {t q : Path} {a b : String} (h1 : (t ++ [a]) <+: q)
    (h2 : q.dropLast = t ++ [b]) : a = b := by
  rcases path_cases q with rfl | ⟨d, x, rfl⟩
  · simp at h2
  · rw [List.dropLast_concat] at h2
    subst h2
    rcases List.prefix_concat_iff.1 h1 with h | h
    · have := congrArg List.length h
      simp at this
    · have e1 : t ++ [a] = t ++ [b] := List.IsPrefix.eq_of_length h (by simp)
      simpa using List.append_cancel_left e1

/-- The main pass and the creation of `<target>/Archive` create nothing at or below
`<target>/Albums` and `<target>/Album-only Photos`. -/
theorem mainPass_creates_no_album (env : Env) (srcGP tgt : Path) (es : List DirEntry)
    (fs0 : FS) (st : St)
    (h : ∀ q, ((tgt ++ ["Albums"]) <+: q ∨ (tgt ++ ["Album-only Photos"]) <+: q) →
      assocGet fs0 q = none → assocGet st.fs q = none) :
    ∀ q, ((tgt ++ ["Albums"]) <+: q ∨ (tgt ++ ["Album-only Photos"]) <+: q) →
      assocGet fs0 q = none → assocGet (mainPass env srcGP tgt es st).2.fs q = none := by
  refine mainPass_keeps (fun fs _ => ∀ q, ((tgt ++ ["Albums"]) <+: q ∨
      (tgt ++ ["Album-only Photos"]) <+: q) → assocGet fs0 q = none → assocGet fs q = none)
    env srcGP tgt es ?_ ?_ st h
  · intro fs fs1 _ hP hm q hq h0
    rcases mkdirAll_get hm q with h1 | ⟨_, _, h3, _⟩
    · rw [h1]; exact hP q hq h0
    · rcases hq with hq | hq
      · exact absurd (under_prefix_absurd hq h3) (by decide)
      · exact absurd (under_prefix_absurd hq h3) (by decide)
  · intro d _ _ x s hP q hq h0
    rcases mainPhoto_cases env (srcGP ++ [d]) (tgt ++ ["Photos"]) x s with
      ⟨h1, _⟩ | ⟨c, p, _, hr, hm, hp, _⟩
    · rw [h1]; exact hP q hq h0
    · obtain ⟨n, _, _, _, h4⟩ := move_get hr hm
      rw [h4 q]
      have hqp : q ≠ p := by
        rintro rfl
        rcases hq with hq | hq
        · exact absurd (under_child_absurd hq hp) (by decide)
        · exact absurd (under_child_absurd hq hp) (by decide)
      rw [if_neg hqp]
      by_cases hs : q = srcGP ++ [d] ++ [x.name]
      · rw [if_pos hs]
      · rw [if_neg hs]; exact hP q hq h0

/-- C8: the calls `run` makes are appended to the log one after the other, and the file
system it leaves is exactly what the successful ones of these calls make of the initial
one (nothing is undone). A call that returns an error (a listing, a hash, a rename, a
relative path, a link, a directory creation, `exiftool`) is the last call, and `run`
returns an error; `run` returns an error only so. In particular, when after a successful
main pass `<target>/Archive` has been created and the listing of
`<source>/Google Photos/Archive` fails, `run` returns the error of that listing, every
entry the main pass left (its moved files among them) is still there, and nothing exists
at or below `<target>/Albums` and `<target>/Album-only Photos` that was not there at the
start. -/
theorem C8_first_error_ends_run (env : Env) (sourceDir targetDir : Path) (st : St) :
    (∃ new, (run env sourceDir targetDir st).2.log = st.log ++ new ∧
      (run env sourceDir targetDir st).2.fs = replay st.fs new ∧
      (∀ pre e post, new = pre ++ e :: post → failing e = true →
        post = [] ∧ isError (run env sourceDir targetDir st).1 = true) ∧
      (isError (run env sourceDir targetDir st).1 = true →
        ∃ pre e, new = pre ++ [e] ∧ failing e = true ∧ ∀ x ∈ pre, failing x = false)) ∧
    (∀ es st1 st2 st3,
      osReadDir env (sourceDir ++ ["Google Photos"]) st = (some es, st1) →
      mainPass env (sourceDir ++ ["Google Photos"]) targetDir es { st1 with index := [] }
        = (.ok (), st2) →
      osMkdirAll env (targetDir ++ ["Archive"]) st2 = (some (), st3) →
      (osReadDir env (sourceDir ++ ["Google Photos"] ++ ["Archive"]) st3).1 = none →
      (run env sourceDir targetDir st).1 = .error .readArchive ∧
      (run env sourceDir targetDir st).2.fs = st3.fs ∧
      (∀ q n, assocGet st2.fs q = some n →
        assocGet (run env sourceDir targetDir st).2.fs q = some n) ∧
      (∀ q, ((targetDir ++ ["Albums"]) <+: q ∨ (targetDir ++ ["Album-only Photos"]) <+: q) →
        assocGet st.fs q = none → assocGet (run env sourceDir targetDir st).2.fs q = none)) := by
  constructor
  · obtain ⟨new, h1, h2, h3⟩ := traced_run env sourceDir targetDir st
    refine ⟨new, h1, h2, fun pre e post hn he => clean_last h3 pre e post hn he, ?_⟩
    intro he
    unfold Clean at h3
    simp only [he, if_true] at h3
    exact h3
  · intro es st1 st2 st3 hl hm hk ha
    obtain ⟨r1, _, _, _⟩ := osReadDir_spec env (sourceDir ++ ["Google Photos"]) st
    rw [hl] at r1
    simp only at r1
    obtain ⟨_, _, _, k4⟩ := osMkdirAll_spec env (targetDir ++ ["Archive"]) st2
    rw [hk] at k4
    simp only at k4
    have hk4 := k4 trivial
    obtain ⟨a1, _, _, _⟩ := osReadDir_spec env (sourceDir ++ ["Google Photos"] ++ ["Archive"]) st3
    have hrun : run env sourceDir targetDir st =
        (.error .readArchive,
          (osReadDir env (sourceDir ++ ["Google Photos"] ++ ["Archive"]) st3).2) := by
      unfold run
      simp only [bind_apply, orFail_apply, hl, newIndex, hm]
      unfold archivePass
      simp only [bind_apply, orFail_apply, hk]
      rcases hx : osReadDir env (sourceDir ++ ["Google Photos"] ++ ["Archive"]) st3
        with ⟨_ | l, st4⟩
      · rfl
      · rw [hx] at ha; simp at ha
    rw [hrun]
    simp only
    refine ⟨trivial, a1, ?_, ?_⟩
    · intro q n hq
      rw [a1]
      exact mkdirAll_mono hk4 q n hq
    · intro q hq h0
      rw [a1]
      have hmain := mainPass_creates_no_album env (sourceDir ++ ["Google Photos"]) targetDir es
        st.fs { st1 with index := [] } (by simp only; rw [r1]; exact fun _ _ h => h) q hq h0
      rw [hm] at hmain
      simp only at hmain
      rcases mkdirAll_get hk4 q with h1 | ⟨_, _, h3, _⟩
      · rw [h1]; exact hmain
      · rcases hq with hq | hq
        · exact absurd (under_prefix_absurd hq h3) (by decide)
        · exact absurd (under_prefix_absurd hq h3) (by decide)

/-- C8, witness: the scenario tree without an `Archive` directory. -/
theorem C8_witness :
    (run noFault ["src"] ["out"] (St.init scenarioFoo)).1 = .error .readArchive ∧
    assocGet (run noFault ["src"] ["out"] (St.init scenarioFoo)).2.fs ["out", "Photos", "a.jpg"]
      = some (.file [88]) ∧
    assocGet (run noFault ["src"] ["out"] (St.init scenarioFoo)).2.fs ["out", "Albums"] = none :=
  have h := (C8_first_error_ends_run noFault ["src"] ["out"] (St.init scenarioFoo)).2
    [⟨"AlbumFoo", true⟩, ⟨"Photos from 2020", true⟩]
    (osReadDir noFault ["src", "Google Photos"] (St.init scenarioFoo)).2
    (mainPass noFault ["src", "Google Photos"] ["out"]
      [⟨"AlbumFoo", true⟩, ⟨"Photos from 2020", true⟩]
      { (osReadDir noFault ["src", "Google Photos"] (St.init scenarioFoo)).2 with
        index := [] }).2
    (osMkdirAll noFault ["out", "Archive"]
      (mainPass noFault ["src", "Google Photos"] ["out"]
        [⟨"AlbumFoo", true⟩, ⟨"Photos from 2020", true⟩]
        { (osReadDir noFault ["src", "Google Photos"] (St.init scenarioFoo)).2 with
          index := [] }).2).2
    (by decide!) (by decide!) (by decide!) (by decide!)
  ⟨h.1, h.2.2.1 _ _ (by decide!), h.2.2.2 _ (Or.inl (List.prefix_refl _)) (by decide)⟩

end Takeout

namespace Takeout

/-! ## C4: a photo that is both in a year folder and in the archive -/

/-- If every step keeps `P` until it establishes `Q`, every step keeps `Q`, and the step
for `x0` establishes `Q` when it succeeds, then a loop over a list that has `x0`, if it
succeeds, ends with `Q`. -/
theorem forEach_reach {α : Type} (P Q : St → Prop) (body : α → M Unit) (x0 : α) :
    ∀ xs : List α, x0 ∈ xs →
      (∀ x ∈ xs, ∀ st, P st → P (body x st).2 ∨ Q (body x st).2) →
      (∀ x ∈ xs, ∀ st, Q st → Q (body x st).2) →
      (∀ st, P st → (body x0 st).1 = .ok () → Q (body x0 st).2) →
      ∀ st, P st → (forEach xs body st).1 = .ok () → Q (forEach xs body st).2
  | [], h, _, _, _, _, _, _ => by simp at h
  | x :: xs, hmem, hP, hQ, hx, st, hst, hok => by
    simp only [forEach, bind_apply] at hok ⊢
    rcases hb : body x st with ⟨e | u, st1⟩
    · rw [hb] at hok; simp at hok
    · rw [hb] at hok
      simp only at hok ⊢
      have hQ1 : ∀ y ∈ xs, ∀ s, Q s → Q (body y s).2 :=
        fun y hy => hQ y (List.mem_cons_of_mem _ hy)
      have hP1 : ∀ y ∈ xs, ∀ s, P s → P (body y s).2 ∨ Q (body y s).2 :=
        fun y hy => hP y (List.mem_cons_of_mem _ hy)
      by_cases hxx : x0 = x
      · have h1 := hx st hst (by rw [hxx, hb])
        rw [hxx, hb] at h1
        exact forEach_keeps Q body xs hQ1 st1 h1
      · have hmem1 : x0 ∈ xs := by
          rcases List.mem_cons.1 hmem with h | h
          · exact absurd h hxx
          · exact h
        have h1 := hP x (List.mem_cons_self _ _) st hst
        rw [hb] at h1
        rcases h1 with h1 | h1
        · exact forEach_reach P Q body x0 xs hmem1 hP1 hQ1 hx st1 h1 hok
        · exact forEach_keeps Q body xs hQ1 st1 h1

theorem last_ne_of_append_ne {a b : Path} {x y : String} (h : x ≠ y) :
    a ++ [x] ≠ b ++ [y] := by
  intro e
  have := congrArg List.getLast? e
  simp at this
  exact h this

/-- A step of the main pass in a year folder `d1` leaves alone a file that is not the
one it moves, when that file is not in the target's photos directory. -/
theorem mainPhoto_frame (env : Env) (sd tp : Path) (x : DirEntry) (st : St) (F : Path)
    (n : Node) (hsrc : sd ++ [x.name] ≠ F) (hdst : F.dropLast ≠ tp)
    (h : assocGet st.fs F = some n) :
    assocGet (mainPhoto env sd tp x st).2.fs F = some n := by
  rcases mainPhoto_cases env sd tp x st with ⟨h1, _⟩ | ⟨c, p, _, hr, hm, hp, _⟩
  · rw [h1]; exact h
  · obtain ⟨_, _, _, _, h4⟩ := move_get hr hm
    rw [h4 F]
    have h1 : F ≠ p := fun e => hdst (e ▸ hp)
    rw [if_neg h1, if_neg (fun e => hsrc e.symm)]
    exact h

theorem archivePhoto_frame (env : Env) (sd tp : Path) (x : DirEntry) (st : St) (F : Path)
    (n : Node) (hsrc : sd ++ [x.name] ≠ F) (hdst : F.dropLast ≠ tp)
    (h : assocGet st.fs F = some n) :
    assocGet (archivePhoto env sd tp x st).2.fs F = some n := by
  rcases archivePhoto_cases env sd tp x st with ⟨h1, _⟩ | ⟨c, p, _, hr, hm, hp, _⟩
  · rw [h1]; exact h
  · obtain ⟨_, _, _, _, h4⟩ := move_get hr hm
    rw [h4 F]
    have h1 : F ≠ p := fun e => hdst (e ▸ hp)
    rw [if_neg h1, if_neg (fun e => hsrc e.symm)]
    exact h

/-- A step of the main pass keeps "the fingerprint is indexed in the photos directory". -/
theorem mainPhoto_keeps_indexed (env : Env) (sd tp : Path) (x : DirEntry) (st : St)
    (s : String) (h : ∃ p, assocGet st.index s = some p ∧ p.dropLast = tp) :
    ∃ p, assocGet (mainPhoto env sd tp x st).2.index s = some p ∧ p.dropLast = tp := by
  rcases mainPhoto_cases env sd tp x st with ⟨_, h2, _⟩ | ⟨c, p, _, _, _, hp, hidx, _⟩
  · rw [h2]; exact h
  · rw [hidx]
    by_cases hs : s = Sha1.hex c
    · exact ⟨p, by rw [assocGet_set]; simp [hs], hp⟩
    · obtain ⟨p0, h0, h1⟩ := h
      exact ⟨p0, by rw [assocGet_set]; simp [hs, h0], h1⟩

/-- A successful step of the main pass on a regular file that is no sidecar indexes its
fingerprint in the photos directory. -/
theorem mainPhoto_indexes (env : Env) (sd tp : Path) (x : DirEntry) (st : St) (c : Content)
    (hj : Ext x.name ≠ ".json") (hF : assocGet st.fs (sd ++ [x.name]) = some (.file c))
    (hok : (mainPhoto env sd tp x st).1 = .ok ()) :
    ∃ p, assocGet (mainPhoto env sd tp x st).2.index (Sha1.hex c) = some p ∧
      p.dropLast = tp := by
  rcases mainPhoto_cases env sd tp x st with ⟨_, _, _, h4⟩ | ⟨c1, p, _, hr, _, hp, hidx, _⟩
  · exact absurd (h4 hok) hj
  · have := readFile_file_eq hr hF
    subst this
    exact ⟨p, by rw [hidx, assocGet_set]; simp, hp⟩

/-- The main pass, if it succeeds, indexes every regular file of every year folder that
is no sidecar. -/
theorem mainPass_indexes (env : Env) (srcGP tgt : Path) (es : List DirEntry) (d n : String)
    (c : Content) (hd : (⟨d, true⟩ : DirEntry) ∈ es) (hy : photosForYearRegex d = true)
    (hj : Ext n ≠ ".json") (st : St)
    (hF : assocGet st.fs (srcGP ++ [d] ++ [n]) = some (.file c))
    (hok : (mainPass env srcGP tgt es st).1 = .ok ()) :
    ∃ p, assocGet (mainPass env srcGP tgt es st).2.index (Sha1.hex c) = some p ∧
      p.dropLast = tgt ++ ["Photos"] := by
  -- the two properties
  let P : St → Prop := fun s => assocGet s.fs (srcGP ++ [d] ++ [n]) = some (.file c)
  let Q : St → Prop := fun s =>
    ∃ p, assocGet s.index (Sha1.hex c) = some p ∧ p.dropLast = tgt ++ ["Photos"]
  have hnd : d ≠ "Photos" := by
    rintro rfl; revert hy; decide
  have hFd : (srcGP ++ [d] ++ [n]).dropLast ≠ tgt ++ ["Photos"] := by
    rw [List.dropLast_concat]; exact last_ne_of_append_ne hnd
  -- steps
  have stepP : ∀ (d1 : String) (x : DirEntry) (s : St), P s →
      P (mainPhoto env (srcGP ++ [d1]) (tgt ++ ["Photos"]) x s).2 ∨
      Q (mainPhoto env (srcGP ++ [d1]) (tgt ++ ["Photos"]) x s).2 := by
    intro d1 x s hs
    by_cases hsrc : srcGP ++ [d1] ++ [x.name] = srcGP ++ [d] ++ [n]
    · rcases mainPhoto_cases env (srcGP ++ [d1]) (tgt ++ ["Photos"]) x s with
        ⟨h1, _⟩ | ⟨c1, p, _, hr, _, hp, hidx, _⟩
      · left; show assocGet _ _ = _; rw [h1]; exact hs
      · right
        rw [hsrc] at hr
        have := readFile_file_eq hr hs
        subst this
        exact ⟨p, by rw [hidx, assocGet_set]; simp, hp⟩
    · left
      exact mainPhoto_frame env _ _ x s _ _ hsrc hFd hs
  have stepQ : ∀ (d1 : String) (x : DirEntry) (s : St), Q s →
      Q (mainPhoto env (srcGP ++ [d1]) (tgt ++ ["Photos"]) x s).2 :=
    fun d1 x s hs => mainPhoto_keeps_indexed env _ _ x s _ hs
  have dirPQ : ∀ (e : DirEntry) (s : St), (P s ∨ Q s) →
      (P (mainDir env srcGP (tgt ++ ["Photos"]) e s).2 ∨
        Q (mainDir env srcGP (tgt ++ ["Photos"]) e s).2) := by
    intro e s hs
    refine mainDir_keeps (fun f i => assocGet f (srcGP ++ [d] ++ [n]) = some (.file c) ∨
      ∃ p, assocGet i (Sha1.hex c) = some p ∧ p.dropLast = tgt ++ ["Photos"]) env srcGP _ e
      (fun _ _ x s1 h1 => ?_) s hs
    rcases h1 with h1 | h1
    · exact stepP e.name x s1 h1
    · exact Or.inr (stepQ e.name x s1 h1)
  have dirQ : ∀ (e : DirEntry) (s : St), Q s →
      Q (mainDir env srcGP (tgt ++ ["Photos"]) e s).2 := by
    intro e s hs
    exact mainDir_keeps (fun _ i => ∃ p, assocGet i (Sha1.hex c) = some p ∧
      p.dropLast = tgt ++ ["Photos"]) env srcGP _ e (fun _ _ x s1 h1 => stepQ e.name x s1 h1) s hs
  have dirX : ∀ s, P s → (mainDir env srcGP (tgt ++ ["Photos"]) ⟨d, true⟩ s).1 = .ok () →
      Q (mainDir env srcGP (tgt ++ ["Photos"]) ⟨d, true⟩ s).2 := by
    intro s hs hk
    rw [mainDir_eq] at hk ⊢
    have hyf : isYearFolder ⟨d, true⟩ = true := by simp [isYearFolder, hy]
    simp only [hyf, if_true, bind_apply, orFail_apply] at hk ⊢
    obtain ⟨r1, r2, _, r4⟩ := osReadDir_spec env (srcGP ++ [d]) s
    rcases hr : osReadDir env (srcGP ++ [d]) s with ⟨_ | l, s1⟩
    · rw [hr] at hk; simp at hk
    · rw [hr] at hk r1 r2 r4
      simp only at hk r1 r2 r4 ⊢
      have hl := r4 l rfl
      have hmem : entryOf s.fs (srcGP ++ [d]) n ∈ l := by
        rw [mem_readDir hl]
        refine ⟨?_, rfl⟩
        show assocGet s.fs (srcGP ++ [d] ++ [n]) ≠ none
        rw [hs]; simp
      refine forEach_reach P Q _ (entryOf s.fs (srcGP ++ [d]) n) l hmem
        (fun x _ s2 h2 => stepP d x s2 h2) (fun x _ s2 h2 => stepQ d x s2 h2) ?_ s1
        (by show assocGet s1.fs _ = _; rw [r1]; exact hs) hk
      intro s2 h2 hk2
      exact mainPhoto_indexes env _ _ _ s2 c hj h2 hk2
  -- the pass
  unfold mainPass at hok ⊢
  simp only [bind_apply, orFail_apply] at hok ⊢
  obtain ⟨_, _, _, k4⟩ := osMkdirAll_spec env (tgt ++ ["Photos"]) st
  rcases hk : osMkdirAll env (tgt ++ ["Photos"]) st with ⟨_ | u, st1⟩
  · rw [hk] at hok; simp at hok
  · rw [hk] at hok k4
    simp only at hok k4 ⊢
    have hP1 : P st1 := mkdirAll_mono (k4 trivial) _ _ hF
    refine forEach_reach P Q _ ⟨d, true⟩ es hd (fun e _ s h1 => dirPQ e s (Or.inl h1))
      (fun e _ s h1 => dirQ e s h1) dirX st1 hP1 hok

/-- The main pass leaves the files of the source `Archive` directory alone. -/
theorem mainPass_keeps_archive (env : Env) (srcGP tgt : Path) (es : List DirEntry)
    (m : String) (nd : Node) (st : St)
    (hG : assocGet st.fs (srcGP ++ ["Archive"] ++ [m]) = some nd) :
    assocGet (mainPass env srcGP tgt es st).2.fs (srcGP ++ ["Archive"] ++ [m]) = some nd := by
  refine mainPass_keeps (fun f _ => assocGet f (srcGP ++ ["Archive"] ++ [m]) = some nd)
    env srcGP tgt es (fun _ _ _ h hm => mkdirAll_mono hm _ _ h) ?_ st hG
  intro d hy _ x s hs
  have hnd : d ≠ "Archive" := by
    rintro rfl; revert hy; decide
  refine mainPhoto_frame env _ _ x s _ _ ?_ ?_ hs
  · intro e
    have := congrArg List.dropLast e
    rw [List.dropLast_concat, List.dropLast_concat] at this
    exact last_ne_of_append_ne hnd this
  · rw [List.dropLast_concat]
    exact last_ne_of_append_ne (by decide)

/-- The archive pass, if it succeeds, moves every regular file of the source `Archive`
that is no sidecar into the target's `Archive` directory. -/
theorem archivePass_moves (env : Env) (srcGP tgt : Path) (m : String) (c : Content)
    (hne : tgt ≠ srcGP) (hj : Ext m ≠ ".json") (st : St)
    (hG : assocGet st.fs (srcGP ++ ["Archive"] ++ [m]) = some (.file c))
    (hok : (archivePass env srcGP tgt st).1 = .ok ()) :
    ∃ q, q.dropLast = tgt ++ ["Archive"] ∧
      (Op.rename (srcGP ++ ["Archive"] ++ [m]) q, true) ∈ (archivePass env srcGP tgt st).2.log := by
  let P : St → Prop := fun s => assocGet s.fs (srcGP ++ ["Archive"] ++ [m]) = some (.file c)
  let Q : St → Prop := fun s => ∃ q, q.dropLast = tgt ++ ["Archive"] ∧
      (Op.rename (srcGP ++ ["Archive"] ++ [m]) q, true) ∈ s.log
  have hGd : (srcGP ++ ["Archive"] ++ [m]).dropLast ≠ tgt ++ ["Archive"] := by
    rw [List.dropLast_concat]
    intro e
    exact hne (List.append_cancel_right e).symm
  have stepP : ∀ (x : DirEntry) (s : St), P s →
      P (archivePhoto env (srcGP ++ ["Archive"]) (tgt ++ ["Archive"]) x s).2 ∨
      Q (archivePhoto env (srcGP ++ ["Archive"]) (tgt ++ ["Archive"]) x s).2 := by
    intro x s hs
    by_cases hsrc : srcGP ++ ["Archive"] ++ [x.name] = srcGP ++ ["Archive"] ++ [m]
    · rcases archivePhoto_cases env (srcGP ++ ["Archive"]) (tgt ++ ["Archive"]) x s with
        ⟨h1, _⟩ | ⟨c1, p, _, _, _, hp, _, ⟨new, hl, hmem⟩, _⟩
      · left; show assocGet _ _ = _; rw [h1]; exact hs
      · right
        refine ⟨p, hp, ?_⟩
        rw [hl, ← hsrc]
        exact List.mem_append_right _ hmem
    · left
      exact archivePhoto_frame env _ _ x s _ _ hsrc hGd hs
  have stepQ : ∀ (x : DirEntry) (s : St), Q s →
      Q (archivePhoto env (srcGP ++ ["Archive"]) (tgt ++ ["Archive"]) x s).2 := by
    intro x s ⟨q, hq, hmem⟩
    obtain ⟨new, hl, _, _⟩ := traced_archivePhoto env (srcGP ++ ["Archive"])
      (tgt ++ ["Archive"]) x s
    exact ⟨q, hq, by rw [hl]; exact List.mem_append_left _ hmem⟩
  have stepX : ∀ s, P s →
      (archivePhoto env (srcGP ++ ["Archive"]) (tgt ++ ["Archive"])
        (entryOf st.fs (srcGP ++ ["Archive"]) m) s).1 = .ok () →
      Q (archivePhoto env (srcGP ++ ["Archive"]) (tgt ++ ["Archive"])
        (entryOf st.fs (srcGP ++ ["Archive"]) m) s).2 := by
    intro s _ hk
    rcases archivePhoto_cases env (srcGP ++ ["Archive"]) (tgt ++ ["Archive"])
        (entryOf st.fs (srcGP ++ ["Archive"]) m) s with
      ⟨_, _, _, h4⟩ | ⟨c1, p, _, _, _, hp, _, ⟨new, hl, hmem⟩, _⟩
    · exact absurd (h4 hk) hj
    · exact ⟨p, hp, by rw [hl]; exact List.mem_append_right _ hmem⟩
  unfold archivePass at hok ⊢
  simp only [bind_apply, orFail_apply] at hok ⊢
  obtain ⟨_, _, _, k4⟩ := osMkdirAll_spec env (tgt ++ ["Archive"]) st
  rcases hk : osMkdirAll env (tgt ++ ["Archive"]) st with ⟨_ | u, st1⟩
  · rw [hk] at hok; simp at hok
  · rw [hk] at hok k4
    simp only at hok k4 ⊢
    have hP1 : P st1 := mkdirAll_mono (k4 trivial) _ _ hG
    obtain ⟨r1, _, _, r4⟩ := osReadDir_spec env (srcGP ++ ["Archive"]) st1
    rcases hr : osReadDir env (srcGP ++ ["Archive"]) st1 with ⟨_ | l, st2⟩
    · rw [hr] at hok; simp at hok
    · rw [hr] at hok r1 r4
      simp only at hok r1 r4 ⊢
      have hl := r4 l rfl
      have hmem : entryOf st1.fs (srcGP ++ ["Archive"]) m ∈ l := by
        rw [mem_readDir hl]
        refine ⟨?_, rfl⟩
        show assocGet st1.fs (srcGP ++ ["Archive"] ++ [m]) ≠ none
        rw [hP1]; simp
      refine forEach_reach P Q _ (entryOf st1.fs (srcGP ++ ["Archive"]) m) l hmem
        (fun x _ s h1 => stepP x s h1) (fun x _ s h1 => stepQ x s h1) ?_ st2
        (by show assocGet st2.fs _ = _; rw [r1]; exact hP1) hok
      intro s hs hk2
      rcases archivePhoto_cases env (srcGP ++ ["Archive"]) (tgt ++ ["Archive"])
          (entryOf st1.fs (srcGP ++ ["Archive"]) m) s with
        ⟨_, _, _, h4⟩ | ⟨c1, p, _, _, _, hp, _, ⟨new, hl2, hmem2⟩, _⟩
      · exact absurd (h4 hk2) hj
      · exact ⟨p, hp, by rw [hl2]; exact List.mem_append_right _ hmem2⟩

end Takeout

namespace Takeout

/-! ## C1: what an album directory holds -/

theorem emptyTarget_spec {fs : FS} {t : Path} (h : emptyTarget fs t = true) (q : Path)
    (hq : t <+: q) (hne : q ≠ t) : assocGet fs q = none := by
  cases hg : assocGet fs q with
  | none => rfl
  | some n =>
    exfalso
    have hm := assocGet_mem hg
    unfold emptyTarget at h
    rw [List.all_eq_true] at h
    have := h _ hm
    simp only [Bool.or_eq_true, Bool.not_eq_true', Bool.and_eq_true, decide_eq_true_eq] at this
    rcases this with h1 | ⟨h1, _⟩
    · have h2 : t.isPrefixOf q = true := isPrefixOf_iff.2 hq
      rw [h2] at h1; simp at h1
    · exact hne h1

theorem noSymlinks_spec {fs : FS} (h : noSymlinks fs = true) (q : Path) (u : Nat) (d : Path) :
    assocGet fs q ≠ some (.symlink u d) := by
  intro hg
  have hm := assocGet_mem hg
  unfold noSymlinks at h
  rw [List.all_eq_true] at h
  have := h _ hm
  simp at this

theorem inStores_iff (t q : Path) :
    inStores t q = true ↔ q.dropLast = t ++ ["Photos"] ∨ q.dropLast = t ++ ["Archive"] ∨
      q.dropLast = t ++ ["Album-only Photos"] := by
  unfold inStores
  simp only [Bool.or_eq_true, decide_eq_true_eq, or_assoc]

theorem strict_prefix_child (t : Path) (a : String) (rest : Path) :
    t <+: t ++ [a] ++ rest ∧ t ++ [a] ++ rest ≠ t := by
  refine ⟨⟨[a] ++ rest, by simp⟩, ?_⟩
  intro e
  have := congrArg List.length e
  simp at this

theorem invBefore_init {fs : FS} {t srcGP : Path} (he : emptyTarget fs t = true)
    (hl : noSymlinks fs = true) : InvBeforeAlbums t srcGP fs [] := by
  refine ⟨?_, noSymlinks_spec hl, ?_, ?_⟩
  · intro s p hp; simp [assocGet] at hp
  · intro A n
    refine emptyTarget_spec he _ ?_ ?_
    · simp
    · simp
  · intro _ q hq
    rcases path_cases q with rfl | ⟨d, x, rfl⟩
    · simp at hq
    · rw [List.dropLast_concat] at hq
      subst hq
      have h := strict_prefix_child t "Archive" [x]
      exact emptyTarget_spec he _ h.1 h.2

theorem invBefore_links {t srcGP : Path} {fs : FS} {idx : Index}
    (h : InvBeforeAlbums t srcGP fs idx) : InvLinks t fs idx :=
  ⟨h.1, fun q u d hq => absurd hq (h.2.1 q u d),
    fun A n node hn => by rw [h.2.2.1 A n] at hn; simp at hn⟩

theorem album_entry_length (t : Path) (A n : String) :
    (t ++ ["Albums"] ++ [A] ++ [n]).length = t.length + 3 := by simp

theorem mkdir_not_album_entry {t p q : Path} {A n : String} (hp : p.length ≤ t.length + 2)
    (hq : q <+: p) : q ≠ t ++ ["Albums"] ++ [A] ++ [n] := by
  intro e
  have h1 := hq.length_le
  rw [e, album_entry_length] at h1
  omega

theorem invBefore_mkdir {t srcGP p : Path} {fs fs1 : FS} {idx : Index}
    (h : InvBeforeAlbums t srcGP fs idx) (hm : fs.mkdirAll p = some fs1)
    (hp : p.length ≤ t.length + 1) : InvBeforeAlbums t srcGP fs1 idx := by
  obtain ⟨j1, j2, j3, j4⟩ := h
  refine ⟨?_, ?_, ?_, ?_⟩
  · intro s p0 hs
    obtain ⟨h1, c, h2⟩ := j1 s p0 hs
    exact ⟨h1, c, mkdirAll_mono hm _ _ h2⟩
  · intro q u d hq
    rcases mkdirAll_get hm q with h1 | ⟨_, h2, _⟩
    · rw [h1] at hq; exact j2 q u d hq
    · rw [h2] at hq; simp at hq
  · intro A n
    rcases mkdirAll_get hm (t ++ ["Albums"] ++ [A] ++ [n]) with h1 | ⟨_, _, h3, _⟩
    · rw [h1]; exact j3 A n
    · exact absurd rfl (mkdir_not_album_entry (by omega) h3)
  · intro e q hq
    rcases mkdirAll_get hm q with h1 | ⟨_, _, h3, _⟩
    · rw [h1]; exact j4 e q hq
    · exfalso
      have h4 := h3.length_le
      have h5 : q.length = t.length + 2 := by
        rcases path_cases q with rfl | ⟨d, x, rfl⟩
        · simp at hq
        · rw [List.dropLast_concat] at hq; subst hq; simp
      omega

theorem invLinks_mkdir {t p : Path} {fs fs1 : FS} {idx : Index}
    (h : InvLinks t fs idx) (hm : fs.mkdirAll p = some fs1)
    (hp : p.length ≤ t.length + 2) : InvLinks t fs1 idx := by
  obtain ⟨j1, j2, j3⟩ := h
  refine ⟨?_, ?_, ?_⟩
  · intro s p0 hs
    obtain ⟨h1, c, h2⟩ := j1 s p0 hs
    exact ⟨h1, c, mkdirAll_mono hm _ _ h2⟩
  · intro q u d hq
    rcases mkdirAll_get hm q with h1 | ⟨_, h2, _⟩
    · rw [h1] at hq
      obtain ⟨g1, g2, c, g3⟩ := j2 q u d hq
      exact ⟨g1, g2, c, mkdirAll_mono hm _ _ g3⟩
    · rw [h2] at hq; simp at hq
  · intro A n node hn
    rcases mkdirAll_get hm (t ++ ["Albums"] ++ [A] ++ [n]) with h1 | ⟨_, _, h3, _⟩
    · rw [h1] at hn; exact j3 A n node hn
    · exact absurd rfl (mkdir_not_album_entry hp h3)

/-- A store path is not an entry of an album directory. -/
theorem store_not_album_entry {t p : Path} {A n : String} (hp : inStores t p = true) :
    p ≠ t ++ ["Albums"] ++ [A] ++ [n] := by
  intro e
  rw [inStores_iff, e, List.dropLast_concat] at hp
  rcases hp with h | h | h <;>
  · have := congrArg List.length h
    simp at this

/-- The effect on `InvBeforeAlbums` of moving a regular file from a path outside the
stores to a path directly in `<target>/Photos` or `<target>/Archive`. -/
theorem invBefore_move {t srcGP src p : Path} {fs fs1 : FS} {idx : Index} {c : Content}
    (h : InvBeforeAlbums t srcGP fs idx) (hr : fs.readFile src = some c)
    (hm : fs.rename src p = some fs1)
    (hp : p.dropLast = t ++ ["Photos"] ∨ (p.dropLast = t ++ ["Archive"] ∧ srcGP ≠ t))
    (hsrc : inStores t src = false) (idx1 : Index)
    (hidx : ∀ s p0, assocGet idx1 s = some p0 → p0 = p ∨ assocGet idx s = some p0) :
    InvBeforeAlbums t srcGP fs1 idx1 := by
  obtain ⟨j1, j2, j3, j4⟩ := h
  obtain ⟨n, hn1, _, _, hget⟩ := move_get hr hm
  have hnf : n = .file c := by
    rcases readFile_node hr with h1 | ⟨u, d, h1⟩
    · rw [hn1] at h1; exact Option.some.inj h1
    · exact absurd h1 (j2 src u d)
  subst hnf
  have hps : inStores t p = true := by
    rw [inStores_iff]
    rcases hp with hp | ⟨hp, _⟩
    · exact Or.inl hp
    · exact Or.inr (Or.inl hp)
  refine ⟨?_, ?_, ?_, ?_⟩
  · intro s p0 hs
    rcases hidx s p0 hs with rfl | h0
    · exact ⟨hps, c, by rw [hget]; simp⟩
    · obtain ⟨h1, c0, h2⟩ := j1 s p0 h0
      refine ⟨h1, ?_⟩
      rw [hget]
      by_cases hpp : p0 = p
      · exact ⟨c, by simp [hpp]⟩
      · have hps0 : p0 ≠ src := by
          rintro rfl; rw [h1] at hsrc; simp at hsrc
        exact ⟨c0, by simp [hpp, hps0, h2]⟩
  · intro q u d hq
    rw [hget] at hq
    by_cases hqp : q = p
    · simp [hqp] at hq
    · by_cases hqs : q = src
      · simp [hqp, hqs] at hq
      · simp only [hqp, hqs, if_false] at hq
        exact j2 q u d hq
  · intro A n
    rw [hget]
    have h1 : t ++ ["Albums"] ++ [A] ++ [n] ≠ p := fun e => store_not_album_entry hps e.symm
    rw [if_neg h1]
    by_cases hqs : t ++ ["Albums"] ++ [A] ++ [n] = src
    · rw [if_pos hqs]
    · rw [if_neg hqs]; exact j3 A n
  · intro e q hq
    rw [hget]
    have h1 : q ≠ p := by
      rintro rfl
      rcases hp with hp | ⟨_, hp⟩
      · rw [hq] at hp
        have := List.append_cancel_left hp
        simp at this
      · exact hp e
    rw [if_neg h1]
    by_cases hqs : q = src
    · rw [if_pos hqs]
    · rw [if_neg hqs]; exact j4 e q hq

theorem year_not_store {t srcGP : Path} {d x : String} (hy : photosForYearRegex d = true) :
    inStores t (srcGP ++ [d] ++ [x]) = false := by
  cases h : inStores t (srcGP ++ [d] ++ [x]) with
  | false => rfl
  | true =>
    exfalso
    rw [inStores_iff, List.dropLast_concat] at h
    rcases h with h | h | h
    · have h1 : d ≠ "Photos" := by rintro rfl; revert hy; decide
      exact last_ne_of_append_ne h1 h
    · have h1 : d ≠ "Archive" := by rintro rfl; revert hy; decide
      exact last_ne_of_append_ne h1 h
    · have h1 : d ≠ "Album-only Photos" := by rintro rfl; revert hy; decide
      exact last_ne_of_append_ne h1 h

theorem child_not_store {t srcGP : Path} {d x : String} (hne : srcGP ≠ t) :
    inStores t (srcGP ++ [d] ++ [x]) = false := by
  cases h : inStores t (srcGP ++ [d] ++ [x]) with
  | false => rfl
  | true =>
    exfalso
    rw [inStores_iff, List.dropLast_concat] at h
    rcases h with h | h | h <;> exact hne (List.append_inj_left' h rfl)

theorem invBefore_mainPhoto (env : Env) (t srcGP : Path) (d : String) (x : DirEntry) (st : St)
    (hy : photosForYearRegex d = true) (h : InvBeforeAlbums t srcGP st.fs st.index) :
    InvBeforeAlbums t srcGP (mainPhoto env (srcGP ++ [d]) (t ++ ["Photos"]) x st).2.fs
      (mainPhoto env (srcGP ++ [d]) (t ++ ["Photos"]) x st).2.index := by
  rcases mainPhoto_cases env (srcGP ++ [d]) (t ++ ["Photos"]) x st with
    ⟨h1, h2, _⟩ | ⟨c, p, _, hr, hm, hp, hidx, _⟩
  · rw [h1, h2]; exact h
  · refine invBefore_move h hr hm (Or.inl hp) (year_not_store hy) _ ?_
    intro s p0 hs
    rw [hidx, assocGet_set] at hs
    by_cases hsc : s = Sha1.hex c
    · simp only [hsc, if_true, Option.some.injEq] at hs
      exact Or.inl hs.symm
    · simp only [hsc, if_false] at hs
      exact Or.inr hs

theorem invBefore_archivePhoto (env : Env) (t srcGP : Path) (x : DirEntry) (st : St)
    (h : InvBeforeAlbums t srcGP st.fs st.index) :
    InvBeforeAlbums t srcGP
      (archivePhoto env (srcGP ++ ["Archive"]) (t ++ ["Archive"]) x st).2.fs
      (archivePhoto env (srcGP ++ ["Archive"]) (t ++ ["Archive"]) x st).2.index := by
  rcases archivePhoto_cases env (srcGP ++ ["Archive"]) (t ++ ["Archive"]) x st with
    ⟨h1, h2, _⟩ | ⟨c, p, _, hr, hm, hp, hidx, _⟩
  · rw [h1, h2]; exact h
  · by_cases hne : srcGP = t
    · exfalso
      have h0 := h.2.2.2 hne (srcGP ++ ["Archive"] ++ [x.name])
        (by rw [List.dropLast_concat, hne])
      rcases readFile_node hr with h1 | ⟨u, d, h1⟩
      · rw [h0] at h1; simp at h1
      · rw [h0] at h1; simp at h1
    · refine invBefore_move h hr hm (Or.inr ⟨hp, hne⟩) (child_not_store hne) _ ?_
      intro s p0 hs
      rw [hidx] at hs
      by_cases hn : assocGet st.index (Sha1.hex c) = none
      · simp only [hn, if_true] at hs
        rw [assocGet_set] at hs
        by_cases hsc : s = Sha1.hex c
        · simp only [hsc, if_true, Option.some.injEq] at hs
          exact Or.inl hs.symm
        · simp only [hsc, if_false] at hs
          exact Or.inr hs
      · simp only [hn, if_false] at hs
        exact Or.inr hs

/-- Adding the link of an album member keeps `InvLinks`, when the link goes to a real file
in a store. -/
theorem invLinks_link {t ip : Path} {d x : String} {fs fs1 : FS} {idx : Index}
    (h : InvLinks t fs idx)
    (hl : fs.symlink (Rel (t ++ ["Albums"] ++ [d]) ip).1 (Rel (t ++ ["Albums"] ++ [d]) ip).2
      (t ++ ["Albums"] ++ [d] ++ [x]) = some fs1)
    (hip : inStores t ip = true) (hf : ∃ c, assocGet fs ip = some (.file c)) :
    InvLinks t fs1 idx := by
  obtain ⟨j1, j2, j3⟩ := h
  obtain ⟨s1, s2⟩ := symlink_get hl
  have keep : ∀ q c, assocGet fs q = some (.file c) → assocGet fs1 q = some (.file c) :=
    fun q c hq => (symlink_file hl q c).2 hq
  refine ⟨?_, ?_, ?_⟩
  · intro s p0 hs
    obtain ⟨h1, c, h2⟩ := j1 s p0 hs
    exact ⟨h1, c, keep _ _ h2⟩
  · intro q u dn hq
    rw [s2 q] at hq
    by_cases hql : q = t ++ ["Albums"] ++ [d] ++ [x]
    · subst hql
      simp only [if_true, Option.some.injEq, Node.symlink.injEq] at hq
      obtain ⟨hu, hd⟩ := hq
      subst hu; subst hd
      rw [List.dropLast_concat, resolve_Rel]
      obtain ⟨c, hc⟩ := hf
      exact ⟨⟨d, x, rfl⟩, hip, c, keep _ _ hc⟩
    · simp only [hql, if_false] at hq
      obtain ⟨g1, g2, c, g3⟩ := j2 q u dn hq
      exact ⟨g1, g2, c, keep _ _ g3⟩
  · intro A n node hn
    rw [s2] at hn
    by_cases hql : t ++ ["Albums"] ++ [A] ++ [n] = t ++ ["Albums"] ++ [d] ++ [x]
    · simp only [hql, if_true, Option.some.injEq] at hn
      exact ⟨_, _, hn.symm⟩
    · simp only [hql, if_false] at hn
      exact j3 A n node hn

/-- Moving an album-only photo keeps `InvLinks`. -/
theorem invLinks_move {t src p : Path} {fs fs1 : FS} {idx : Index} {c : Content}
    (h : InvLinks t fs idx) (hr : fs.readFile src = some c)
    (hm : fs.rename src p = some fs1) (hp : p.dropLast = t ++ ["Album-only Photos"])
    (hsrc : inStores t src = false) (hsa : ∀ A n, src ≠ t ++ ["Albums"] ++ [A] ++ [n]) :
    InvLinks t fs1 (assocSet idx (Sha1.hex c) p) ∧ assocGet fs1 p = some (.file c) := by
  obtain ⟨j1, j2, j3⟩ := h
  obtain ⟨n, hn1, _, _, hget⟩ := move_get hr hm
  have hnf : n = .file c := by
    rcases readFile_node hr with h1 | ⟨u, d, h1⟩
    · rw [hn1] at h1; exact Option.some.inj h1
    · obtain ⟨⟨A, m, e⟩, _⟩ := j2 src u d h1
      exact absurd e (hsa A m)
  subst hnf
  have hps : inStores t p = true := by
    rw [inStores_iff]; exact Or.inr (Or.inr hp)
  have keep : ∀ q c0, inStores t q = true → assocGet fs q = some (.file c0) →
      ∃ c1, assocGet fs1 q = some (.file c1) := by
    intro q c0 hq hf
    rw [hget]
    by_cases hqp : q = p
    · exact ⟨c, by simp [hqp]⟩
    · have hqs : q ≠ src := by
        rintro rfl; rw [hq] at hsrc; simp at hsrc
      exact ⟨c0, by simp [hqp, hqs, hf]⟩
  refine ⟨⟨?_, ?_, ?_⟩, by rw [hget]; simp⟩
  · intro s p0 hs
    rw [assocGet_set] at hs
    by_cases hsc : s = Sha1.hex c
    · simp only [hsc, if_true, Option.some.injEq] at hs
      subst hs
      exact ⟨hps, c, by rw [hget]; simp⟩
    · simp only [hsc, if_false] at hs
      obtain ⟨h1, c0, h2⟩ := j1 s p0 hs
      exact ⟨h1, keep _ _ h1 h2⟩
  · intro q u d hq
    rw [hget] at hq
    by_cases hqp : q = p
    · simp [hqp] at hq
    · by_cases hqs : q = src
      · simp [hqp, hqs] at hq
      · simp only [hqp, hqs, if_false] at hq
        obtain ⟨g1, g2, c0, g3⟩ := j2 q u d hq
        exact ⟨g1, g2, keep _ _ g2 g3⟩
  · intro A m node hn
    rw [hget] at hn
    have h1 : t ++ ["Albums"] ++ [A] ++ [m] ≠ p := fun e => store_not_album_entry hps e.symm
    rw [if_neg h1] at hn
    by_cases hqs : t ++ ["Albums"] ++ [A] ++ [m] = src
    · rw [if_pos hqs] at hn; simp at hn
    · rw [if_neg hqs] at hn; exact j3 A m node hn

theorem invLinks_albumPhoto (env : Env) (t srcGP : Path) (d : String) (x : DirEntry) (st : St)
    (hS1 : srcGP ≠ t ++ ["Albums"]) (hS2 : srcGP ≠ t) (h : InvLinks t st.fs st.index) :
    InvLinks t
      (albumPhoto env (srcGP ++ [d]) (t ++ ["Albums"] ++ [d]) (t ++ ["Album-only Photos"])
        x st).2.fs
      (albumPhoto env (srcGP ++ [d]) (t ++ ["Albums"] ++ [d]) (t ++ ["Album-only Photos"])
        x st).2.index := by
  rcases albumPhoto_cases env (srcGP ++ [d]) (t ++ ["Albums"] ++ [d])
      (t ++ ["Album-only Photos"]) x st with
    ⟨h1, h2, _⟩ | ⟨c, ip, _, _, hi, h2, h3, _⟩ |
    ⟨c, p, fs1, _, hr, _, hm, hp, hidx, _, hl, _⟩
  · rw [h1, h2]; exact h
  · rw [h2]
    obtain ⟨g1, g2⟩ := h.1 _ _ hi
    exact invLinks_link h h3 g1 g2
  · rw [hidx]
    have hsa : ∀ A n, srcGP ++ [d] ++ [x.name] ≠ t ++ ["Albums"] ++ [A] ++ [n] := by
      intro A n e
      have e1 := congrArg List.dropLast e
      rw [List.dropLast_concat, List.dropLast_concat] at e1
      exact hS1 (List.append_inj_left' e1 rfl)
    obtain ⟨key, hfile⟩ := invLinks_move h hr hm hp (child_not_store hS2) hsa
    rcases hl with ⟨hl, _⟩ | ⟨hl, _⟩
    · rw [hl]; exact key
    · refine invLinks_link key hl ?_ ⟨c, hfile⟩
      rw [inStores_iff]; exact Or.inr (Or.inr hp)

theorem follow_found_ne_none {k : Nat} {fs : FS} {p : Path} {n : Node}
    (h : follow k fs p = .found n) : assocGet fs p ≠ none := by
  cases k with
  | zero => simp [follow] at h
  | succ k =>
    intro hn
    unfold follow at h
    simp [hn] at h

theorem readDir_exists {fs : FS} {p : Path} {es : List DirEntry} (h : fs.readDir p = some es)
    (hp : p ≠ []) : assocGet fs p ≠ none := by
  unfold FS.readDir at h
  by_cases hd : isDirAt fs p = true
  · unfold isDirAt at hd
    simp only [hp, decide_False, Bool.false_or, decide_eq_true_eq] at hd
    exact follow_found_ne_none hd
  · simp [hd] at h

theorem run_invLinks (env : Env) (sourceDir targetDir : Path) (fs : FS)
    (he : emptyTarget fs targetDir = true) (hl : noSymlinks fs = true) :
    InvLinks targetDir (run env sourceDir targetDir (St.init fs)).2.fs
      (run env sourceDir targetDir (St.init fs)).2.index := by
  refine run_inv (InvBeforeAlbums targetDir (sourceDir ++ ["Google Photos"]))
    (InvLinks targetDir) env sourceDir targetDir fs
    (fun _ _ h1 => invBefore_links h1) ?_ ?_ ?_ (invBefore_init he hl)
  · intro es _ st hst
    exact mainPass_keeps (InvBeforeAlbums targetDir (sourceDir ++ ["Google Photos"])) env _
      targetDir es
      (fun _ _ _ h1 hm => invBefore_mkdir h1 hm (by simp))
      (fun d hy _ x s hs => invBefore_mainPhoto env targetDir _ d x s hy hs) st hst
  · intro st hst
    exact archivePass_keeps (InvBeforeAlbums targetDir (sourceDir ++ ["Google Photos"])) env _
      targetDir
      (fun _ _ _ h1 hm => invBefore_mkdir h1 hm (by simp))
      (fun x s hs => invBefore_archivePhoto env targetDir _ x s hs) st hst
  · intro es hes st hst
    have hS1 : sourceDir ++ ["Google Photos"] ≠ targetDir ++ ["Albums"] := by
      intro e
      have h1 := readDir_exists hes (by simp)
      rw [e] at h1
      exact h1 (emptyTarget_spec he _ (List.prefix_append _ _) (by simp))
    have hS2 : ∀ d, (⟨d, true⟩ : DirEntry) ∈ es → sourceDir ++ ["Google Photos"] ≠ targetDir := by
      intro d hd e
      have h1 := ((mem_readDir hes _).1 hd).1
      rw [e] at h1
      exact h1 (emptyTarget_spec he _ (List.prefix_append _ _) (by simp))
    exact albumPass_keeps (InvLinks targetDir) env _ targetDir es
      (fun _ _ _ h1 hm => invLinks_mkdir h1 hm (by simp))
      (fun _ _ _ h1 hm => invLinks_mkdir h1 hm (by simp))
      (fun _ _ _ _ h1 hm => invLinks_mkdir h1 hm (by simp))
      (fun d hd _ _ _ x s hs => invLinks_albumPhoto env targetDir _ d x s hS1 (hS2 d hd) hs)
      st hst

set_option maxRecDepth 100000 in
/-- C1, counterexample: the album member `Alb/l.jpg` is a symbolic link to
`../Trash/t.jpg`. The run into the empty target succeeds. `os.Rename` moves the link and
not the file behind it, so the entry `<target>/Albums/Alb/l.jpg` resolves to
`<target>/Album-only Photos/l.jpg`, which is a link to the missing `<target>/Trash/t.jpg`:
no regular file is at the path the album entry resolves to. -/
theorem C1_counterexample :
    emptyTarget linkedAlbum ["out"] = true ∧
    (run noFault ["src"] ["out"] (St.init linkedAlbum)).1 = .ok () ∧
    assocGet (run noFault ["src"] ["out"] (St.init linkedAlbum)).2.fs
      ["out", "Albums", "Alb", "l.jpg"] = some (.symlink 2 ["Album-only Photos", "l.jpg"]) ∧
    resolve ["out", "Albums", "Alb"] 2 ["Album-only Photos", "l.jpg"]
      = ["out", "Album-only Photos", "l.jpg"] ∧
    assocGet (run noFault ["src"] ["out"] (St.init linkedAlbum)).2.fs
      ["out", "Album-only Photos", "l.jpg"] = some (.symlink 1 ["Trash", "t.jpg"]) ∧
    resolve ["out", "Album-only Photos"] 1 ["Trash", "t.jpg"] = ["out", "Trash", "t.jpg"] ∧
    assocGet (run noFault ["src"] ["out"] (St.init linkedAlbum)).2.fs ["out", "Trash", "t.jpg"]
      = none ∧
    follow maxLinks (run noFault ["src"] ["out"] (St.init linkedAlbum)).2.fs
      ["out", "Albums", "Alb", "l.jpg"] = .notExist := by
  decide!

/-- C1, amended: let the target be empty at the start (nothing below it; the target itself
absent or an empty directory) and the file system hold no symbolic link, only regular
files and directories. After `run` (whether it succeeds or stops at an error), every entry
of a target album directory `<target>/Albums/<AlbumName>/` is a link, and resolving its
relative target from that album directory gives a path directly in `<target>/Photos`,
`<target>/Archive` or `<target>/Album-only Photos`, hence outside `<target>/Albums`, at
which a regular file lies. -/
theorem C1_album_entries_are_links (env : Env) (sourceDir targetDir : Path) (fs : FS)
    (hempty : emptyTarget fs targetDir = true) (hfiles : noSymlinks fs = true)
    (albumName name : String) (node : Node)
    (h : assocGet (run env sourceDir targetDir (St.init fs)).2.fs
      (targetDir ++ ["Albums"] ++ [albumName] ++ [name]) = some node) :
    ∃ ups down c, node = .symlink ups down ∧
      inStores targetDir (resolve (targetDir ++ ["Albums"] ++ [albumName]) ups down) = true ∧
      ¬ (targetDir ++ ["Albums"]) <+: resolve (targetDir ++ ["Albums"] ++ [albumName]) ups down ∧
      assocGet (run env sourceDir targetDir (St.init fs)).2.fs
        (resolve (targetDir ++ ["Albums"] ++ [albumName]) ups down) = some (.file c) := by
  obtain ⟨_, j2, j3⟩ := run_invLinks env sourceDir targetDir fs hempty hfiles
  obtain ⟨u, d, rfl⟩ := j3 albumName name node h
  obtain ⟨_, g2, c, g3⟩ := j2 _ u d h
  rw [List.dropLast_concat] at g2 g3
  refine ⟨u, d, c, rfl, g2, ?_, g3⟩
  intro hp
  rw [inStores_iff] at g2
  rcases g2 with g | g | g
  · exact absurd (under_child_absurd hp g) (by decide)
  · exact absurd (under_child_absurd hp g) (by decide)
  · exact absurd (under_child_absurd hp g) (by decide)

set_option maxRecDepth 100000 in
/-- C1, witness: two albums that share a photo, next to a year folder and an archive; the
entry `y.jpg` of album `B`. -/
theorem C1_witness :
    ∃ ups down c, Node.symlink 2 ["Album-only Photos", "x.jpg"] = .symlink ups down ∧
      inStores ["out"] (resolve (["out"] ++ ["Albums"] ++ ["B"]) ups down) = true ∧
      ¬ (["out"] ++ ["Albums"]) <+: resolve (["out"] ++ ["Albums"] ++ ["B"]) ups down ∧
      assocGet (run noFault ["src"] ["out"] (St.init sharedTree)).2.fs
        (resolve (["out"] ++ ["Albums"] ++ ["B"]) ups down) = some (.file c) :=
  C1_album_entries_are_links noFault ["src"] ["out"] sharedTree (by decide!) (by decide!)
    "B" "y.jpg" (.symlink 2 ["Album-only Photos", "x.jpg"]) (by decide!)

end Takeout

namespace Takeout

/-! ## C4: where the archive copy is after the archive pass -/

/-- With nothing at the desired path and `os.Stat` not failing for an outside reason, a
successful `movePhotoIntoPlace` returns the desired path. -/
theorem movePhotoIntoPlace_fresh (env : Env) (src tgt : Path) (sha : String) (st : St)
    (hf : env.fault (.stat tgt) = false) (hn : assocGet st.fs tgt = none) (p : Path)
    (h : (movePhotoIntoPlace env src tgt sha st).1 = some p) : p = tgt := by
  have hs : (osStat env tgt st).1 = .notExist := by
    rw [osStat_fst]; simp [hf, maxLinks, follow, hn]
  unfold movePhotoIntoPlace at h
  simp only [hs, ne_eq, not_true_eq_false, if_false] at h
  split at h
  · simp only [Option.some.injEq] at h; exact h.symm
  · simp at h

/-- A step of the archive pass when nothing is at the desired path of a file that can be
read: nothing happens to the file system, or the file is renamed to the desired path. -/
theorem archivePhoto_fresh (env : Env) (sd td : Path) (e : DirEntry) (st : St)
    (hf : ∀ p, env.fault (.stat p) = false)
    (hn : assocGet st.fs (sd ++ [e.name]) ≠ none → assocGet st.fs (td ++ [e.name]) = none) :
    ((archivePhoto env sd td e st).2.fs = st.fs ∧
      ((archivePhoto env sd td e st).1 = .ok () → Ext e.name = ".json")) ∨
    (∃ c, Ext e.name ≠ ".json" ∧ st.fs.readFile (sd ++ [e.name]) = some c ∧
      st.fs.rename (sd ++ [e.name]) (td ++ [e.name])
        = some (archivePhoto env sd td e st).2.fs ∧
      (Op.rename (sd ++ [e.name]) (td ++ [e.name]), true)
        ∈ (archivePhoto env sd td e st).2.log) := by
  unfold archivePhoto
  by_cases hj : Ext e.name = ".json"
  · left; simp [hj]
  · simp only [hj, if_false, bind_apply, orFail_apply]
    obtain ⟨g1, g2, ⟨ok, g3⟩, g4⟩ := getFileSha_spec env (sd ++ [e.name]) st
    rcases hg : getFileSha env (sd ++ [e.name]) st with ⟨_ | s, st1⟩
    · rw [hg] at g1
      left
      simp only at g1 ⊢
      exact ⟨g1, fun h => by simp at h⟩
    · rw [hg] at g1 g2 g3 g4
      simp only at g1 g2 g3 g4 ⊢
      obtain ⟨c, hc, rfl⟩ := g4 s rfl
      obtain ⟨m1, m2, m3⟩ := movePhotoIntoPlace_spec env (sd ++ [e.name]) (td ++ [e.name])
        (Sha1.hex c) st1
      rcases hm : movePhotoIntoPlace env (sd ++ [e.name]) (td ++ [e.name]) (Sha1.hex c) st1
        with ⟨_ | p, st2⟩
      · rw [hm] at m2
        simp only at m2 ⊢
        obtain ⟨m2a, _⟩ := m2 trivial
        left
        exact ⟨by rw [m2a, g1], fun h => by simp at h⟩
      · have hsrc : assocGet st.fs (sd ++ [e.name]) ≠ none := by
          rcases readFile_node hc with h | ⟨u, d, h⟩ <;> simp [h]
        have hp : p = td ++ [e.name] :=
          movePhotoIntoPlace_fresh env _ _ _ st1 (hf _) (by rw [g1]; exact hn hsrc) p
            (by rw [hm])
        subst hp
        rw [hm] at m3
        simp only at m3 ⊢
        obtain ⟨_, m3b, ok2, m3c⟩ := m3 _ rfl
        right
        refine ⟨c, hj, hc, ?_, ?_⟩
        · simp only [getIndex]
          cases hi : assocGet st2.index (Sha1.hex c) with
          | none => simp only [setIndex]; rw [← g1]; exact m3b
          | some q => simp only [pure_apply]; rw [← g1]; exact m3b
        · simp only [getIndex]
          cases hi : assocGet st2.index (Sha1.hex c) with
          | none => simp only [setIndex]; rw [m3c]; simp
          | some q => simp only [pure_apply]; rw [m3c]; simp

theorem archive_paths_ne {srcGP tgt : Path} (hne : tgt ≠ srcGP) (a b : String) :
    srcGP ++ ["Archive"] ++ [a] ≠ tgt ++ ["Archive"] ++ [b] := by
  intro e
  have h1 := congrArg List.dropLast e
  rw [List.dropLast_concat, List.dropLast_concat] at h1
  exact hne (List.append_cancel_right h1).symm

theorem child_inj {dir : Path} {a b : String} (h : dir ++ [a] = dir ++ [b]) : a = b := by
  have := List.append_cancel_left h
  simpa using this

theorem archivePhoto_disjoint (env : Env) (srcGP tgt : Path) (x : DirEntry) (st : St)
    (hne : tgt ≠ srcGP) (hf : ∀ p, env.fault (.stat p) = false)
    (hD : ArchiveDisjoint srcGP tgt st.fs) :
    ArchiveDisjoint srcGP tgt
      (archivePhoto env (srcGP ++ ["Archive"]) (tgt ++ ["Archive"]) x st).2.fs := by
  have hn : assocGet st.fs (srcGP ++ ["Archive"] ++ [x.name]) ≠ none →
      assocGet st.fs (tgt ++ ["Archive"] ++ [x.name]) = none := by
    intro h1
    by_contra h2
    exact h1 (hD _ h2)
  rcases archivePhoto_fresh env (srcGP ++ ["Archive"]) (tgt ++ ["Archive"]) x st hf hn with
    ⟨h1, _⟩ | ⟨c, _, hr, hmv, _⟩
  · rw [h1]; exact hD
  · obtain ⟨nd, _, _, _, h4⟩ := move_get hr hmv
    intro n hn1
    rw [h4] at hn1 ⊢
    rw [if_neg (archive_paths_ne hne n x.name)]
    by_cases hx : n = x.name
    · subst hx; simp
    · have h5 : srcGP ++ ["Archive"] ++ [n] ≠ srcGP ++ ["Archive"] ++ [x.name] :=
        fun e => hx (child_inj e)
      rw [if_neg h5]
      have h6 : tgt ++ ["Archive"] ++ [n] ≠ tgt ++ ["Archive"] ++ [x.name] :=
        fun e => hx (child_inj e)
      rw [if_neg h6, if_neg (fun e => archive_paths_ne hne x.name n e.symm)] at hn1
      exact hD n hn1

/-- The archive pass into a target `Archive` that shares no name with the source's: if it
succeeds, a regular file of the source `Archive` that is no sidecar lies afterwards under
its own name in the target's `Archive`, and no longer in the source. -/
theorem archivePass_places (env : Env) (srcGP tgt : Path) (m : String) (c : Content)
    (hne : tgt ≠ srcGP) (hf : ∀ p, env.fault (.stat p) = false) (hj : Ext m ≠ ".json")
    (st : St) (hE : ∀ n, assocGet st.fs (tgt ++ ["Archive"] ++ [n]) = none)
    (hG : assocGet st.fs (srcGP ++ ["Archive"] ++ [m]) = some (.file c))
    (hok : (archivePass env srcGP tgt st).1 = .ok ()) :
    assocGet (archivePass env srcGP tgt st).2.fs (tgt ++ ["Archive"] ++ [m]) = some (.file c) ∧
    assocGet (archivePass env srcGP tgt st).2.fs (srcGP ++ ["Archive"] ++ [m]) = none ∧
    (Op.rename (srcGP ++ ["Archive"] ++ [m]) (tgt ++ ["Archive"] ++ [m]), true)
      ∈ (archivePass env srcGP tgt st).2.log := by
  let P : St → Prop := fun s => ArchiveDisjoint srcGP tgt s.fs ∧
    assocGet s.fs (srcGP ++ ["Archive"] ++ [m]) = some (.file c)
  let Q : St → Prop := fun s => ArchiveDisjoint srcGP tgt s.fs ∧
    assocGet s.fs (tgt ++ ["Archive"] ++ [m]) = some (.file c) ∧
    assocGet s.fs (srcGP ++ ["Archive"] ++ [m]) = none ∧
    (Op.rename (srcGP ++ ["Archive"] ++ [m]) (tgt ++ ["Archive"] ++ [m]), true) ∈ s.log
  have hfresh : ∀ (x : DirEntry) (s : St), ArchiveDisjoint srcGP tgt s.fs →
      (assocGet s.fs (srcGP ++ ["Archive"] ++ [x.name]) ≠ none →
        assocGet s.fs (tgt ++ ["Archive"] ++ [x.name]) = none) := by
    intro x s hD h1
    by_contra h2
    exact h1 (hD _ h2)
  -- the step for the file itself
  have stepM : ∀ (x : DirEntry) (s : St), x.name = m → P s →
      (P (archivePhoto env (srcGP ++ ["Archive"]) (tgt ++ ["Archive"]) x s).2 ∧
        ((archivePhoto env (srcGP ++ ["Archive"]) (tgt ++ ["Archive"]) x s).1 = .ok () →
          False)) ∨
      Q (archivePhoto env (srcGP ++ ["Archive"]) (tgt ++ ["Archive"]) x s).2 := by
    intro x s hx hs
    have hD1 := archivePhoto_disjoint env srcGP tgt x s hne hf hs.1
    rcases archivePhoto_fresh env (srcGP ++ ["Archive"]) (tgt ++ ["Archive"]) x s hf
        (hfresh x s hs.1) with ⟨h1, h2⟩ | ⟨c1, _, hr, hmv, hlog⟩
    · left
      refine ⟨⟨hD1, ?_⟩, fun hk => hj (hx ▸ h2 hk)⟩
      show assocGet _ _ = _
      rw [h1]; exact hs.2
    · right
      rw [hx] at hr hmv hlog
      have hcc := readFile_file_eq hr hs.2
      obtain ⟨nd, h1, _, _, h4⟩ := move_get hr hmv
      rw [hs.2] at h1
      have hnd : nd = .file c := (Option.some.inj h1).symm
      refine ⟨hD1, ?_, ?_, hlog⟩
      · rw [h4]; simp [hnd]
      · rw [h4, if_neg (archive_paths_ne hne m m)]; simp
  have stepP : ∀ (x : DirEntry) (s : St), P s →
      P (archivePhoto env (srcGP ++ ["Archive"]) (tgt ++ ["Archive"]) x s).2 ∨
      Q (archivePhoto env (srcGP ++ ["Archive"]) (tgt ++ ["Archive"]) x s).2 := by
    intro x s hs
    by_cases hx : x.name = m
    · rcases stepM x s hx hs with h | h
      · exact Or.inl h.1
      · exact Or.inr h
    · left
      have hD1 := archivePhoto_disjoint env srcGP tgt x s hne hf hs.1
      refine ⟨hD1, ?_⟩
      rcases archivePhoto_fresh env (srcGP ++ ["Archive"]) (tgt ++ ["Archive"]) x s hf
          (hfresh x s hs.1) with ⟨h1, _⟩ | ⟨c1, _, hr, hmv, _⟩
      · show assocGet _ _ = _
        rw [h1]; exact hs.2
      · obtain ⟨nd, _, _, _, h4⟩ := move_get hr hmv
        show assocGet _ _ = _
        rw [h4, if_neg (archive_paths_ne hne m x.name),
          if_neg (fun e => hx (child_inj e).symm)]
        exact hs.2
  have stepQ : ∀ (x : DirEntry) (s : St), Q s →
      Q (archivePhoto env (srcGP ++ ["Archive"]) (tgt ++ ["Archive"]) x s).2 := by
    intro x s ⟨hD, h1, h2, h3⟩
    have hD1 := archivePhoto_disjoint env srcGP tgt x s hne hf hD
    obtain ⟨new, hl, _, _⟩ := traced_archivePhoto env (srcGP ++ ["Archive"])
      (tgt ++ ["Archive"]) x s
    have hlog : (Op.rename (srcGP ++ ["Archive"] ++ [m]) (tgt ++ ["Archive"] ++ [m]), true) ∈
        (archivePhoto env (srcGP ++ ["Archive"]) (tgt ++ ["Archive"]) x s).2.log := by
      rw [hl]; exact List.mem_append_left _ h3
    rcases archivePhoto_fresh env (srcGP ++ ["Archive"]) (tgt ++ ["Archive"]) x s hf
        (hfresh x s hD) with ⟨h4, _⟩ | ⟨c1, _, hr, hmv, _⟩
    · refine ⟨hD1, ?_, ?_, hlog⟩
      · rw [h4]; exact h1
      · rw [h4]; exact h2
    · obtain ⟨nd, h5, _, _, h6⟩ := move_get hr hmv
      have hx : x.name ≠ m := by
        intro e
        rw [e, h2] at h5
        simp at h5
      refine ⟨hD1, ?_, ?_, hlog⟩
      · rw [h6, if_neg (fun e => hx (child_inj e).symm),
          if_neg (fun e => archive_paths_ne hne x.name m e.symm)]
        exact h1
      · rw [h6, if_neg (archive_paths_ne hne m x.name),
          if_neg (fun e => hx (child_inj e).symm)]
        exact h2
  -- the pass
  have hfin : Q (archivePass env srcGP tgt st).2 := by
    unfold archivePass at hok ⊢
    simp only [bind_apply, orFail_apply] at hok ⊢
    obtain ⟨_, _, _, k4⟩ := osMkdirAll_spec env (tgt ++ ["Archive"]) st
    rcases hk : osMkdirAll env (tgt ++ ["Archive"]) st with ⟨_ | u, st1⟩
    · rw [hk] at hok; simp at hok
    · rw [hk] at hok k4
      simp only at hok k4 ⊢
      have hmk := k4 trivial
      have hE1 : ∀ n, assocGet st1.fs (tgt ++ ["Archive"] ++ [n]) = none := by
        intro n
        rcases mkdirAll_get hmk (tgt ++ ["Archive"] ++ [n]) with h1 | ⟨_, _, h3, _⟩
        · rw [h1]; exact hE n
        · have := h3.length_le
          simp at this
      have hP1 : P st1 :=
        ⟨fun n h => absurd (hE1 n) h, mkdirAll_mono hmk _ _ hG⟩
      obtain ⟨r1, _, _, r4⟩ := osReadDir_spec env (srcGP ++ ["Archive"]) st1
      rcases hr : osReadDir env (srcGP ++ ["Archive"]) st1 with ⟨_ | l, st2⟩
      · rw [hr] at hok; simp at hok
      · rw [hr] at hok r1 r4
        simp only at hok r1 r4 ⊢
        have hl := r4 l rfl
        have hmem : entryOf st1.fs (srcGP ++ ["Archive"]) m ∈ l := by
          rw [mem_readDir hl]
          refine ⟨?_, rfl⟩
          show assocGet st1.fs (srcGP ++ ["Archive"] ++ [m]) ≠ none
          rw [hP1.2]; simp
        have hP2 : P st2 := by
          refine ⟨?_, ?_⟩
          · show ArchiveDisjoint srcGP tgt st2.fs
            rw [r1]; exact hP1.1
          · show assocGet st2.fs _ = _
            rw [r1]; exact hP1.2
        refine forEach_reach P Q _ (entryOf st1.fs (srcGP ++ ["Archive"]) m) l hmem
          (fun x _ s h1 => stepP x s h1) (fun x _ s h1 => stepQ x s h1) ?_ st2 hP2 hok
        intro s hs hk2
        rcases stepM (entryOf st1.fs (srcGP ++ ["Archive"]) m) s rfl hs with h | h
        · exact absurd hk2 h.2
        · exact h
  exact ⟨hfin.2.1, hfin.2.2.1, hfin.2.2.2⟩

/-- The main pass puts nothing into the target's `Archive`. -/
theorem mainPass_keeps_archive_empty (env : Env) (srcGP tgt : Path) (es : List DirEntry)
    (st : St) (hE : ∀ n, assocGet st.fs (tgt ++ ["Archive"] ++ [n]) = none) :
    ∀ n, assocGet (mainPass env srcGP tgt es st).2.fs (tgt ++ ["Archive"] ++ [n]) = none := by
  refine mainPass_keeps (fun f _ => ∀ n, assocGet f (tgt ++ ["Archive"] ++ [n]) = none)
    env srcGP tgt es ?_ ?_ st hE
  · intro fs fs1 _ h hmk n
    rcases mkdirAll_get hmk (tgt ++ ["Archive"] ++ [n]) with h1 | ⟨_, _, h3, _⟩
    · rw [h1]; exact h n
    · have := h3.length_le
      simp at this
  · intro d _ _ x s hs n
    rcases mainPhoto_cases env (srcGP ++ [d]) (tgt ++ ["Photos"]) x s with
      ⟨h1, _⟩ | ⟨c, p, _, hr, hmv, hp, _⟩
    · rw [h1]; exact hs n
    · obtain ⟨nd, _, _, _, h4⟩ := move_get hr hmv
      rw [h4]
      have h5 : tgt ++ ["Archive"] ++ [n] ≠ p := by
        intro e
        rw [← e, List.dropLast_concat] at hp
        exact absurd (List.append_cancel_left hp) (by decide)
      rw [if_neg h5]
      by_cases h6 : tgt ++ ["Archive"] ++ [n] = srcGP ++ [d] ++ [x.name]
      · rw [if_pos h6]
      · rw [if_neg h6]; exact hs n

set_option maxRecDepth 100000 in
/-- C4, counterexample. First tree, with the source's `Google Photos` directory itself as
target: `z.jpg` of the year folder and `a_c032...jpg` of `Archive` have the same bytes
`[90]`. The main pass and the archive pass succeed and the index entry of that
fingerprint stays `Photos/z.jpg`, but the archive copy has not become a file of
`<target>/Archive`: `Archive/a.jpg`, found at its own desired path, was renamed onto it
before it was processed, and no file of `<target>/Archive` holds the bytes `[90]`. Second
tree, into an empty target: the archive entry `l.jpg` is a symbolic link to a file with
the bytes of the year-folder photo; the link is what is moved, and `<target>/Archive/l.jpg`
is a link to a missing file, not a real file. -/
theorem C4_counterexample :
    (archiveInPlace.readDir ["src", "Google Photos"]
        = some [⟨"Archive", true⟩, ⟨"Photos from 2020", true⟩] ∧
      assocGet archiveInPlace ["src", "Google Photos", "Photos from 2020", "z.jpg"]
        = some (.file [90]) ∧
      assocGet archiveInPlace
        ["src", "Google Photos", "Archive", "a_c032adc1ff629c9b66f22749ad667e6beadf144b.jpg"]
        = some (.file [90]) ∧
      (mainPass noFault ["src", "Google Photos"] ["src", "Google Photos"]
        [⟨"Archive", true⟩, ⟨"Photos from 2020", true⟩] (St.init archiveInPlace)).1 = .ok () ∧
      (archivePass noFault ["src", "Google Photos"] ["src", "Google Photos"]
        (mainPass noFault ["src", "Google Photos"] ["src", "Google Photos"]
          [⟨"Archive", true⟩, ⟨"Photos from 2020", true⟩] (St.init archiveInPlace)).2).1
        = .ok () ∧
      assocGet (archivePass noFault ["src", "Google Photos"] ["src", "Google Photos"]
        (mainPass noFault ["src", "Google Photos"] ["src", "Google Photos"]
          [⟨"Archive", true⟩, ⟨"Photos from 2020", true⟩] (St.init archiveInPlace)).2).2.index
        (Sha1.hex [90]) = some ["src", "Google Photos", "Photos", "z.jpg"] ∧
      dirHoldsContent (archivePass noFault ["src", "Google Photos"] ["src", "Google Photos"]
        (mainPass noFault ["src", "Google Photos"] ["src", "Google Photos"]
          [⟨"Archive", true⟩, ⟨"Photos from 2020", true⟩] (St.init archiveInPlace)).2).2.fs
        ["src", "Google Photos", "Archive"] [90] = false ∧
      children (archivePass noFault ["src", "Google Photos"] ["src", "Google Photos"]
        (mainPass noFault ["src", "Google Photos"] ["src", "Google Photos"]
          [⟨"Archive", true⟩, ⟨"Photos from 2020", true⟩] (St.init archiveInPlace)).2).2.fs
        ["src", "Google Photos", "Archive"]
        = ["a_c032adc1ff629c9b66f22749ad667e6beadf144b_c032adc1ff629c9b66f22749ad667e6beadf144b.jpg"]
      ∧
      (run noFault ["src"] ["src", "Google Photos"] (St.init archiveInPlace)).1 = .ok ()) ∧
    (emptyTarget archiveLink ["out"] = true ∧
      archiveLink.readDir ["src", "Google Photos"]
        = some [⟨"Archive", true⟩, ⟨"Photos from 2020", true⟩, ⟨"Trash", true⟩] ∧
      assocGet archiveLink ["src", "Google Photos", "Photos from 2020", "a.jpg"]
        = some (.file [88]) ∧
      archiveLink.readFile ["src", "Google Photos", "Archive", "l.jpg"] = some [88] ∧
      (mainPass noFault ["src", "Google Photos"] ["out"]
        [⟨"Archive", true⟩, ⟨"Photos from 2020", true⟩, ⟨"Trash", true⟩]
        (St.init archiveLink)).1 = .ok () ∧
      (archivePass noFault ["src", "Google Photos"] ["out"]
        (mainPass noFault ["src", "Google Photos"] ["out"]
          [⟨"Archive", true⟩, ⟨"Photos from 2020", true⟩, ⟨"Trash", true⟩]
          (St.init archiveLink)).2).1 = .ok () ∧
      assocGet (archivePass noFault ["src", "Google Photos"] ["out"]
        (mainPass noFault ["src", "Google Photos"] ["out"]
          [⟨"Archive", true⟩, ⟨"Photos from 2020", true⟩, ⟨"Trash", true⟩]
          (St.init archiveLink)).2).2.index (Sha1.hex [88]) = some ["out", "Photos", "a.jpg"] ∧
      assocGet (archivePass noFault ["src", "Google Photos"] ["out"]
        (mainPass noFault ["src", "Google Photos"] ["out"]
          [⟨"Archive", true⟩, ⟨"Photos from 2020", true⟩, ⟨"Trash", true⟩]
          (St.init archiveLink)).2).2.fs ["out", "Archive", "l.jpg"]
        = some (.symlink 1 ["Trash", "t.jpg"]) ∧
      follow maxLinks (archivePass noFault ["src", "Google Photos"] ["out"]
        (mainPass noFault ["src", "Google Photos"] ["out"]
          [⟨"Archive", true⟩, ⟨"Photos from 2020", true⟩, ⟨"Trash", true⟩]
          (St.init archiveLink)).2).2.fs ["out", "Archive", "l.jpg"] = .notExist ∧
      dirHoldsContent (archivePass noFault ["src", "Google Photos"] ["out"]
        (mainPass noFault ["src", "Google Photos"] ["out"]
          [⟨"Archive", true⟩, ⟨"Photos from 2020", true⟩, ⟨"Trash", true⟩]
          (St.init archiveLink)).2).2.fs ["out", "Archive"] [88] = false) := by
  decide!

/-- C4, amended: let the file system hold no symbolic link and the target be empty at the
start (nothing below it, so it is not the source's `Google Photos` directory), let
`os.Stat` not fail for an outside reason, and let a year folder and the source `Archive`
hold the same photo (regular files, no sidecars). If the main pass and then the archive
pass succeed, then after the archive pass the index entry of the photo's fingerprint is
still the path the main pass recorded, a path in `<target>/Photos`; the archive copy is a
regular file with the same bytes under its own name in `<target>/Archive`, at another
path than the recorded one, it is no longer in the source, and it got there by one
successful `os.Rename`; and the archive pass has changed no index entry that existed. -/
theorem C4_archive_duplicate (env : Env) (sourceDir targetDir : Path) (es : List DirEntry)
    (d n m : String) (c : Content) (st : St)
    (hstart : noSymlinks st.fs = true ∧ emptyTarget st.fs targetDir = true)
    (hstat : ∀ p, env.fault (.stat p) = false)
    (hes : st.fs.readDir (sourceDir ++ ["Google Photos"]) = some es)
    (hd : assocGet st.fs (sourceDir ++ ["Google Photos"] ++ [d]) = some .dir)
    (hy : photosForYearRegex d = true)
    (hF : assocGet st.fs (sourceDir ++ ["Google Photos"] ++ [d] ++ [n]) = some (.file c))
    (hn : Ext n ≠ ".json")
    (hG : assocGet st.fs (sourceDir ++ ["Google Photos"] ++ ["Archive"] ++ [m])
      = some (.file c))
    (hm : Ext m ≠ ".json")
    (hmain : (mainPass env (sourceDir ++ ["Google Photos"]) targetDir es st).1 = .ok ())
    (harch : (archivePass env (sourceDir ++ ["Google Photos"]) targetDir
      (mainPass env (sourceDir ++ ["Google Photos"]) targetDir es st).2).1 = .ok ()) :
    ∃ p,
      assocGet (mainPass env (sourceDir ++ ["Google Photos"]) targetDir es st).2.index
        (Sha1.hex c) = some p ∧
      p.dropLast = targetDir ++ ["Photos"] ∧
      assocGet (archivePass env (sourceDir ++ ["Google Photos"]) targetDir
        (mainPass env (sourceDir ++ ["Google Photos"]) targetDir es st).2).2.index
        (Sha1.hex c) = some p ∧
      assocGet (archivePass env (sourceDir ++ ["Google Photos"]) targetDir
        (mainPass env (sourceDir ++ ["Google Photos"]) targetDir es st).2).2.fs
        (targetDir ++ ["Archive"] ++ [m]) = some (.file c) ∧
      assocGet (archivePass env (sourceDir ++ ["Google Photos"]) targetDir
        (mainPass env (sourceDir ++ ["Google Photos"]) targetDir es st).2).2.fs
        (sourceDir ++ ["Google Photos"] ++ ["Archive"] ++ [m]) = none ∧
      targetDir ++ ["Archive"] ++ [m] ≠ p ∧
      (Op.rename (sourceDir ++ ["Google Photos"] ++ ["Archive"] ++ [m])
          (targetDir ++ ["Archive"] ++ [m]), true) ∈
        (archivePass env (sourceDir ++ ["Google Photos"]) targetDir
          (mainPass env (sourceDir ++ ["Google Photos"]) targetDir es st).2).2.log ∧
      ∀ s p1,
        assocGet (mainPass env (sourceDir ++ ["Google Photos"]) targetDir es st).2.index s
          = some p1 →
        assocGet (archivePass env (sourceDir ++ ["Google Photos"]) targetDir
          (mainPass env (sourceDir ++ ["Google Photos"]) targetDir es st).2).2.index s
          = some p1 := by
  have hmem : (⟨d, true⟩ : DirEntry) ∈ es := by
    rw [mem_readDir hes]
    refine ⟨by show assocGet st.fs (sourceDir ++ ["Google Photos"] ++ [d]) ≠ none; rw [hd]; simp,
      ?_⟩
    simp only [entryOf, hd, decide_True]
  have hne : targetDir ≠ sourceDir ++ ["Google Photos"] := by
    intro e
    have h1 := emptyTarget_spec hstart.2 (sourceDir ++ ["Google Photos"] ++ ["Archive"] ++ [m])
      (by rw [e, List.append_assoc]; exact List.prefix_append _ _)
      (by
        intro e2
        have := congrArg List.length e2
        rw [e] at this
        simp at this)
    rw [hG] at h1
    simp at h1
  have hE : ∀ k, assocGet st.fs (targetDir ++ ["Archive"] ++ [k]) = none := fun k =>
    emptyTarget_spec hstart.2 _ (by rw [List.append_assoc]; exact List.prefix_append _ _)
      (by
        intro e2
        have := congrArg List.length e2
        simp at this)
  obtain ⟨p, hp1, hp2⟩ := mainPass_indexes env _ targetDir es d n c hmem hy hn st hF hmain
  have hG1 := mainPass_keeps_archive env (sourceDir ++ ["Google Photos"]) targetDir es m _ st hG
  have hE1 := mainPass_keeps_archive_empty env (sourceDir ++ ["Google Photos"]) targetDir es
    st hE
  obtain ⟨q1, q2, q3⟩ := archivePass_places env _ targetDir m c hne hstat hm _ hE1 hG1 harch
  refine ⟨p, hp1, hp2, archivePass_index_keeps env _ _ _ _ _ hp1, q1, q2, ?_, q3,
    fun s p1 h => archivePass_index_keeps env _ _ _ _ _ h⟩
  intro e
  rw [← e, List.dropLast_concat] at hp2
  have := List.append_cancel_left hp2
  simp at this

set_option maxRecDepth 100000 in
/-- C4, witness: `a.jpg` in `Photos from 2020` and the same bytes as `a.jpg` in `Archive`. -/
theorem C4_witness :
    ∃ p,
      assocGet (mainPass noFault (["src"] ++ ["Google Photos"]) ["out"]
        [⟨"Archive", true⟩, ⟨"Photos from 2020", true⟩] (St.init archiveTwin)).2.index
        (Sha1.hex [88]) = some p ∧
      p.dropLast = ["out"] ++ ["Photos"] ∧
      assocGet (archivePass noFault (["src"] ++ ["Google Photos"]) ["out"]
        (mainPass noFault (["src"] ++ ["Google Photos"]) ["out"]
          [⟨"Archive", true⟩, ⟨"Photos from 2020", true⟩] (St.init archiveTwin)).2).2.index
        (Sha1.hex [88]) = some p ∧
      assocGet (archivePass noFault (["src"] ++ ["Google Photos"]) ["out"]
        (mainPass noFault (["src"] ++ ["Google Photos"]) ["out"]
          [⟨"Archive", true⟩, ⟨"Photos from 2020", true⟩] (St.init archiveTwin)).2).2.fs
        (["out"] ++ ["Archive"] ++ ["a.jpg"]) = some (.file [88]) ∧
      assocGet (archivePass noFault (["src"] ++ ["Google Photos"]) ["out"]
        (mainPass noFault (["src"] ++ ["Google Photos"]) ["out"]
          [⟨"Archive", true⟩, ⟨"Photos from 2020", true⟩] (St.init archiveTwin)).2).2.fs
        (["src"] ++ ["Google Photos"] ++ ["Archive"] ++ ["a.jpg"]) = none ∧
      ["out"] ++ ["Archive"] ++ ["a.jpg"] ≠ p ∧
      (Op.rename (["src"] ++ ["Google Photos"] ++ ["Archive"] ++ ["a.jpg"])
          (["out"] ++ ["Archive"] ++ ["a.jpg"]), true) ∈
        (archivePass noFault (["src"] ++ ["Google Photos"]) ["out"]
          (mainPass noFault (["src"] ++ ["Google Photos"]) ["out"]
            [⟨"Archive", true⟩, ⟨"Photos from 2020", true⟩] (St.init archiveTwin)).2).2.log ∧
      ∀ s p1,
        assocGet (mainPass noFault (["src"] ++ ["Google Photos"]) ["out"]
          [⟨"Archive", true⟩, ⟨"Photos from 2020", true⟩] (St.init archiveTwin)).2.index s
          = some p1 →
        assocGet (archivePass noFault (["src"] ++ ["Google Photos"]) ["out"]
          (mainPass noFault (["src"] ++ ["Google Photos"]) ["out"]
            [⟨"Archive", true⟩, ⟨"Photos from 2020", true⟩] (St.init archiveTwin)).2).2.index s
          = some p1 :=
  C4_archive_duplicate noFault ["src"] ["out"] [⟨"Archive", true⟩, ⟨"Photos from 2020", true⟩]
    "Photos from 2020" "a.jpg" "a.jpg" [88] (St.init archiveTwin)
    ⟨by decide!, by decide!⟩ (fun _ => rfl) (by decide!) (by decide!) (by decide!) (by decide!)
    (by decide!) (by decide!) (by decide!) (by decide!) (by decide!)

end Takeout
namespace Takeout

/-! ## The order of a listing -/

theorem char_eq_of_toNat {a b : Char} (h : a.toNat = b.toNat) : a = b := by
  apply Char.ext
  apply UInt32.ext
  exact h

theorem charsLe_total : ∀ a b : List Char, charsLe a b = true ∨ charsLe b a = true
  | [], _ => Or.inl (by simp [charsLe])
  | _ :: _, [] => Or.inr (by simp [charsLe])
  | a :: as, b :: bs => by
    unfold charsLe
    by_cases h1 : a.toNat < b.toNat
    · simp [h1]
    · by_cases h2 : b.toNat < a.toNat
      · simp [h2]
      · simp only [h1, h2, if_false]
        exact charsLe_total as bs

theorem charsLe_trans : ∀ a b c : List Char, charsLe a b = true → charsLe b c = true →
    charsLe a c = true
  | [], _, _, _, _ => by simp [charsLe]
  | _ :: _, [], _, h, _ => by simp [charsLe] at h
  | _ :: _, _ :: _, [], _, h => by simp [charsLe] at h
  | a :: as, b :: bs, c :: cs, h1, h2 => by
    unfold charsLe at h1 h2 ⊢
    by_cases hab : a.toNat < b.toNat
    · by_cases hbc : b.toNat < c.toNat
      · have : a.toNat < c.toNat := by omega
        simp [this]
      · by_cases hcb : c.toNat < b.toNat
        · simp [hbc, hcb] at h2
        · have : a.toNat < c.toNat := by omega
          simp [this]
    · by_cases hba : b.toNat < a.toNat
      · simp [hab, hba] at h1
      · simp only [hab, hba, if_false] at h1
        by_cases hbc : b.toNat < c.toNat
        · have : a.toNat < c.toNat := by omega
          simp [this]
        · by_cases hcb : c.toNat < b.toNat
          · simp [hbc, hcb] at h2
          · simp only [hbc, hcb, if_false] at h2
            have e1 : ¬ a.toNat < c.toNat := by omega
            have e2 : ¬ c.toNat < a.toNat := by omega
            simp only [e1, e2, if_false]
            exact charsLe_trans as bs cs h1 h2

theorem charsLe_antisymm : ∀ a b : List Char, charsLe a b = true → charsLe b a = true → a = b
  | [], [], _, _ => rfl
  | [], _ :: _, _, h => by simp [charsLe] at h
  | _ :: _, [], h, _ => by simp [charsLe] at h
  | a :: as, b :: bs, h1, h2 => by
    unfold charsLe at h1 h2
    by_cases hab : a.toNat < b.toNat
    · have hba : ¬ b.toNat < a.toNat := by omega
      simp [hab, hba] at h2
    · by_cases hba : b.toNat < a.toNat
      · simp [hab, hba] at h1
      · simp only [hab, hba, if_false] at h1 h2
        have e : a = b := char_eq_of_toNat (by omega)
        rw [e, charsLe_antisymm as bs h1 h2]

/-- Two lists with the same members give the same sorted listing. -/
theorem sortedNames_congr (l1 l2 : List String) (h : ∀ n, n ∈ l1 ↔ n ∈ l2) :
    l1.dedup.insertionSort (fun a b => charsLe a.data b.data = true)
      = l2.dedup.insertionSort (fun a b => charsLe a.data b.data = true) := by
  have tot : IsTotal String (fun a b => charsLe a.data b.data = true) :=
    ⟨fun a b => charsLe_total a.data b.data⟩
  have tra : IsTrans String (fun a b => charsLe a.data b.data = true) :=
    ⟨fun a b c h1 h2 => charsLe_trans a.data b.data c.data h1 h2⟩
  have ant : IsAntisymm String (fun a b => charsLe a.data b.data = true) :=
    ⟨fun a b h1 h2 => String.ext (charsLe_antisymm a.data b.data h1 h2)⟩
  have hp : l1.dedup.Perm l2.dedup :=
    (List.perm_ext_iff_of_nodup (List.nodup_dedup l1) (List.nodup_dedup l2)).2
      (fun n => by rw [List.mem_dedup, List.mem_dedup]; exact h n)
  exact List.eq_of_perm_of_sorted
    (((List.perm_insertionSort _ _).trans hp).trans (List.perm_insertionSort _ _).symm)
    (List.sorted_insertionSort _ _) (List.sorted_insertionSort _ _)



/-! ## Creating directories -/

theorem mkdirs_spec : ∀ (qs : List Path) (fs : FS),
    (∀ q ∈ qs, assocGet fs q = none ∨ assocGet fs q = some .dir) →
    ∃ fs1, mkdirs fs qs = some fs1 ∧
      ∀ q, assocGet fs1 q =
        if q ∈ qs ∧ assocGet fs q = none then some .dir else assocGet fs q
  | [], fs, _ => ⟨fs, rfl, fun q => by simp⟩
  | a :: qs, fs, h => by
    unfold mkdirs
    rcases h a (List.mem_cons_self _ _) with ha | ha
    · simp only [ha]
      have h1 : ∀ q ∈ qs, assocGet (assocSet fs a .dir) q = none ∨
          assocGet (assocSet fs a .dir) q = some .dir := by
        intro q hq
        rw [assocGet_set]
        by_cases e : q = a
        · simp [e]
        · simp only [e, if_false]
          exact h q (List.mem_cons_of_mem _ hq)
      obtain ⟨fs1, g1, g2⟩ := mkdirs_spec qs _ h1
      refine ⟨fs1, g1, fun q => ?_⟩
      rw [g2, assocGet_set]
      by_cases e : q = a
      · subst e; simp [ha]
      · simp [e]
    · have hf : follow maxLinks fs a = .found .dir := by simp [maxLinks, follow, ha]
      simp only [ha, hf, if_true]
      obtain ⟨fs1, g1, g2⟩ := mkdirs_spec qs fs (fun q hq => h q (List.mem_cons_of_mem _ hq))
      refine ⟨fs1, g1, fun q => ?_⟩
      rw [g2]
      by_cases e : q = a
      · subst e; simp [ha]
      · simp [e]

theorem mem_inits_tail (p q : Path) : q ∈ p.inits.tail ↔ q <+: p ∧ q ≠ [] := by
  cases p with
  | nil => simp
  | cons a p =>
    rw [List.inits_cons, List.tail_cons]
    constructor
    · intro h
      rw [List.mem_map] at h
      obtain ⟨r, h1, rfl⟩ := h
      refine ⟨?_, by simp⟩
      rw [List.mem_inits] at h1
      exact (List.prefix_cons_inj a).2 h1
    · rintro ⟨h1, h2⟩
      have h3 := (List.mem_inits _ _).2 h1
      rw [List.inits_cons] at h3
      rcases List.mem_cons.1 h3 with h4 | h4
      · exact absurd h4 h2
      · exact h4

/-- The call `os.MkdirAll` succeeds when what is on the way is a directory or missing; it
then makes a directory of everything missing on the way and changes nothing else. -/
theorem mkdirAll_spec {fs : FS} {p : Path}
    (h : ∀ q, q <+: p → q ≠ [] → assocGet fs q = none ∨ assocGet fs q = some .dir) :
    ∃ fs1, fs.mkdirAll p = some fs1 ∧
      ∀ q, assocGet fs1 q =
        if (q <+: p ∧ q ≠ []) ∧ assocGet fs q = none then some .dir else assocGet fs q := by
  obtain ⟨fs1, g1, g2⟩ := mkdirs_spec p.inits.tail fs
    (fun q hq => h q ((mem_inits_tail p q).1 hq).1 ((mem_inits_tail p q).1 hq).2)
  refine ⟨fs1, g1, fun q => ?_⟩
  simp only [g2, mem_inits_tail]

/-! ## Lookups in composed trees -/

theorem assocGet_append {κ ν : Type} [DecidableEq κ] (l1 l2 : List (κ × ν)) (k : κ) :
    assocGet (l1 ++ l2) k = match assocGet l1 k with
      | some v => some v
      | none => assocGet l2 k := by
  induction l1 with
  | nil => simp [assocGet]
  | cons e l1 ih =>
    obtain ⟨k1, v1⟩ := e
    by_cases h : k1 = k
    · simp [assocGet, h]
    · simp [assocGet, h, ih]

theorem assocGet_dirs (ps : List Path) (q : Path) :
    assocGet (ps.map (fun r => (r, Node.dir))) q = if q ∈ ps then some .dir else none := by
  induction ps with
  | nil => simp [assocGet]
  | cons a ps ih =>
    by_cases h : a = q
    · simp [assocGet, h]
    · have h2 : ¬ q = a := fun e => h e.symm
      simp [assocGet, h, h2, ih]

theorem assocGet_graft (root : Path) (tree : FS) (b : Path) :
    assocGet (graft root tree) (root ++ b) = assocGet tree b := by
  unfold graft
  induction tree with
  | nil => simp [assocGet]
  | cons e tree ih =>
    obtain ⟨k, v⟩ := e
    by_cases h : k = b
    · simp [assocGet, h]
    · simp [assocGet, h, ih]

theorem assocGet_graft_under (root : Path) (tree : FS) (q : Path)
    (h : assocGet (graft root tree) q ≠ none) : root <+: q := by
  cases hg : assocGet (graft root tree) q with
  | none => exact absurd hg h
  | some n =>
    have hm := assocGet_mem hg
    unfold graft at hm
    rw [List.mem_map] at hm
    obtain ⟨e, _, he⟩ := hm
    have : q = root ++ e.1 := (congrArg Prod.fst he).symm
    rw [this]
    exact List.prefix_append _ _

/-! ## Paths that lie apart -/

theorem apart_spec {a b : Path} (h : apart a b = true) : ¬ a <+: b ∧ ¬ b <+: a := by
  unfold apart at h
  simp only [Bool.and_eq_true, Bool.not_eq_true', ← Bool.not_eq_true] at h
  exact ⟨fun e => h.1 (isPrefixOf_iff.2 e), fun e => h.2 (isPrefixOf_iff.2 e)⟩

theorem apart_ne {t gp : Path} (h : apart t gp = true) (a b : Path) : t ++ a ≠ gp ++ b := by
  obtain ⟨h1, h2⟩ := apart_spec h
  intro e
  rcases List.append_eq_append_iff.1 e with ⟨a1, e1, _⟩ | ⟨c1, e1, _⟩
  · exact h1 ⟨a1, e1.symm⟩
  · exact h2 ⟨c1, e1.symm⟩

theorem apart_not_under {t gp : Path} (h : apart t gp = true) (a b : Path) :
    ¬ (gp ++ b) <+: (t ++ a) := by
  rintro ⟨c, e⟩
  rw [List.append_assoc] at e
  exact apart_ne h a (b ++ c) e.symm

theorem apart_not_above {t gp : Path} (h : apart t gp = true) (a b : Path) :
    ¬ (t ++ a) <+: (gp ++ b) := by
  rintro ⟨c, e⟩
  rw [List.append_assoc] at e
  exact apart_ne h (a ++ c) b e


/-! ## A file system seen as two relative trees -/

theorem rep_init {gp t : Path} (hap : apart t gp = true) (S : FS) :
    Rep gp t (dirsAbove gp ++ graft gp S) S [] := by
  obtain ⟨h1, h2⟩ := apart_spec hap
  have hdirs : ∀ q, assocGet (dirsAbove gp) q =
      if q <+: gp.dropLast ∧ q ≠ [] then some .dir else none := by
    intro q
    unfold dirsAbove
    simp only [assocGet_dirs, mem_inits_tail]
  have hup : gp.dropLast <+: gp := List.dropLast_prefix gp
  refine ⟨fun b => ?_, fun a ha => ?_, fun q hq => ?_⟩
  · rw [assocGet_append, hdirs]
    have hn : ¬ (gp ++ b <+: gp.dropLast ∧ gp ++ b ≠ []) := by
      rintro ⟨e1, e2⟩
      have e3 := e1.length_le
      rw [List.length_append, List.length_dropLast] at e3
      have e4 : gp = [] := by
        cases gp with
        | nil => rfl
        | cons x xs => simp at e3; omega
      subst e4
      simp at e1
      exact e2 (by simpa using e1)
    rw [if_neg hn]
    exact assocGet_graft gp S b
  · rw [assocGet_append, hdirs]
    have hn : ¬ (t ++ a <+: gp.dropLast ∧ t ++ a ≠ []) := by
      rintro ⟨e1, _⟩
      exact h1 ((List.prefix_append t a).trans (e1.trans hup))
    rw [if_neg hn]
    simp only [assocGet]
    by_contra e
    have := assocGet_graft_under gp S (t ++ a) e
    exact apart_not_under hap a [] (by simpa using this)
  · rw [assocGet_append, hdirs]
    by_cases e : q <+: gp.dropLast ∧ q ≠ []
    · rw [if_pos e]; exact Or.inr rfl
    · rw [if_neg e]
      left
      by_contra e2
      exact h2 ((assocGet_graft_under gp S q e2).trans hq)

theorem rep_readDir {gp t : Path} {fs S T : FS} (h : Rep gp t fs S T) (b : Path)
    (hd : assocGet S b = some .dir) : fs.readDir (gp ++ b) = S.readDir b := by
  have hfs : isDirAt fs (gp ++ b) = true := by
    unfold isDirAt; simp [maxLinks, follow, h.1 b, hd]
  have hS : isDirAt S b = true := by
    unfold isDirAt; simp [maxLinks, follow, hd]
  unfold FS.readDir
  simp only [hfs, hS, if_true]
  congr 1
  rw [sortedNames_congr (children fs (gp ++ b)) (children S b)
    (fun n => by rw [mem_children, mem_children, List.append_assoc, h.1])]
  apply List.map_congr_left
  intro n _
  simp only [entryOf]
  rw [List.append_assoc, h.1]

theorem rep_readFile {gp t : Path} {fs S T : FS} (h : Rep gp t fs S T) (b : Path) (c : Content)
    (hb : assocGet S b = some (.file c)) : fs.readFile (gp ++ b) = some c :=
  readFile_of_file (by rw [h.1]; exact hb)

theorem rep_stat {gp t : Path} {fs S T : FS} (h : Rep gp t fs S T) (a : Path) (ha : a ≠ [])
    (hn : assocGet T a = none) : follow maxLinks fs (t ++ a) = .notExist := by
  simp [maxLinks, follow, h.2.1 a ha, hn]

theorem under_target_cases {t a q : Path} (h : q <+: t ++ a) :
    q <+: t ∨ ∃ a1, a1 ≠ [] ∧ a1 <+: a ∧ q = t ++ a1 := by
  rcases List.prefix_or_prefix_of_prefix h (List.prefix_append t a) with h1 | h1
  · exact Or.inl h1
  · obtain ⟨a1, rfl⟩ := h1
    by_cases e : a1 = []
    · left; subst e; simp
    · right
      exact ⟨a1, e, (List.prefix_append_right_inj t).1 h, rfl⟩

theorem rep_mkdirAll {gp t : Path} {fs S T : FS} (hap : apart t gp = true)
    (h : Rep gp t fs S T) (a : Path) (T1 : FS)
    (hpre : a.inits.tail.all (fun a1 =>
      decide (assocGet T a1 = none) || decide (assocGet T a1 = some .dir)) = true)
    (hT : T.mkdirAll a = some T1) :
    ∃ fs1, fs.mkdirAll (t ++ a) = some fs1 ∧ Rep gp t fs1 S T1 := by
  have hpre1 : ∀ a1, a1 <+: a → a1 ≠ [] →
      assocGet T a1 = none ∨ assocGet T a1 = some .dir := by
    intro a1 e1 e2
    rw [List.all_eq_true] at hpre
    have := hpre a1 ((mem_inits_tail a a1).2 ⟨e1, e2⟩)
    simpa using this
  obtain ⟨T2, k1, k2⟩ := mkdirAll_spec hpre1
  rw [hT] at k1
  have hTT : T2 = T1 := (Option.some.inj k1).symm
  subst hTT
  have hfs : ∀ q, q <+: t ++ a → q ≠ [] → assocGet fs q = none ∨ assocGet fs q = some .dir := by
    intro q hq _
    rcases under_target_cases hq with e | ⟨a1, e1, e2, rfl⟩
    · exact h.2.2 q e
    · rw [h.2.1 a1 e1]; exact hpre1 a1 e2 e1
  obtain ⟨fs1, g1, g2⟩ := mkdirAll_spec hfs
  refine ⟨fs1, g1, fun b => ?_, fun a1 e1 => ?_, fun q hq => ?_⟩
  · rw [g2, if_neg (fun e => apart_not_under hap a b e.1.1)]
    exact h.1 b
  · rw [g2, k2, h.2.1 a1 e1]
    have e2 : t ++ a1 ≠ [] := by simp [e1]
    simp only [List.prefix_append_right_inj, e1, e2, ne_eq, not_false_eq_true, and_true]
  · rw [g2]
    by_cases e : (q <+: t ++ a ∧ q ≠ []) ∧ assocGet fs q = none
    · rw [if_pos e]; exact Or.inr rfl
    · rw [if_neg e]; exact h.2.2 q hq

theorem rep_rename {gp t : Path} {fs S T : FS} (hap : apart t gp = true)
    (h : Rep gp t fs S T) (b a : Path) (c : Content)
    (hb : assocGet S b = some (.file c)) (hnew : assocGet T a = none)
    (hpar : a.dropLast ≠ [] ∧ assocGet T a.dropLast = some .dir) :
    ∃ fs1, fs.rename (gp ++ b) (t ++ a) = some fs1 ∧
      Rep gp t fs1 (assocDel S b) ((a, .file c) :: T) := by
  have ha : a ≠ [] := by
    rintro rfl
    exact hpar.1 rfl
  have hsrc : assocGet fs (gp ++ b) = some (.file c) := by rw [h.1]; exact hb
  have hne : gp ++ b ≠ t ++ a := fun e => apart_ne hap a b e.symm
  have hdst : assocGet fs (t ++ a) = none := by rw [h.2.1 a ha]; exact hnew
  have hdir : isDirAt fs (t ++ a).dropLast = true := by
    rw [List.dropLast_append_of_ne_nil _ ha]
    unfold isDirAt
    simp [maxLinks, follow, h.2.1 _ hpar.1, hpar.2]
  refine ⟨assocSet (assocDel fs (gp ++ b)) (t ++ a) (.file c), ?_, fun b1 => ?_, fun a1 e1 => ?_,
    fun q hq => ?_⟩
  · unfold FS.rename
    simp [hsrc, hne, hdir, hdst]
  · rw [assocGet_set, assocGet_del, assocGet_del, if_neg (fun e => apart_ne hap a b1 e.symm), h.1]
    simp only [List.append_cancel_left_eq]
  · rw [assocGet_set, assocGet_del, if_neg (apart_ne hap a1 b), h.2.1 a1 e1]
    simp only [List.append_cancel_left_eq, assocGet]
    by_cases e : a1 = a
    · simp [e]
    · have e2 : ¬ a = a1 := fun x => e x.symm
      simp [e, e2]
  · rw [assocGet_set, assocGet_del]
    have e1 : q ≠ t ++ a := by
      rintro rfl
      have := hq.length_le
      rw [List.length_append] at this
      have : a.length = 0 := by omega
      exact ha (List.length_eq_zero.1 this)
    have e2 : q ≠ gp ++ b := by
      rintro rfl
      exact (apart_spec hap).2 ((List.prefix_append gp b).trans hq)
    rw [if_neg e1, if_neg e2]
    exact h.2.2 q hq

theorem rep_symlink {gp t : Path} {fs S T : FS} (hap : apart t gp = true)
    (h : Rep gp t fs S T) (u : Nat) (d a : Path)
    (hnew : assocGet T a = none)
    (hpar : a.dropLast ≠ [] ∧ assocGet T a.dropLast = some .dir) :
    ∃ fs1, fs.symlink u d (t ++ a) = some fs1 ∧
      Rep gp t fs1 S ((a, .symlink u d) :: T) := by
  have ha : a ≠ [] := by
    rintro rfl
    exact hpar.1 rfl
  have hdst : assocGet fs (t ++ a) = none := by rw [h.2.1 a ha]; exact hnew
  have hdir : isDirAt fs (t ++ a).dropLast = true := by
    rw [List.dropLast_append_of_ne_nil _ ha]
    unfold isDirAt
    simp [maxLinks, follow, h.2.1 _ hpar.1, hpar.2]
  refine ⟨assocSet fs (t ++ a) (.symlink u d), ?_, fun b1 => ?_, fun a1 e1 => ?_,
    fun q hq => ?_⟩
  · unfold FS.symlink
    simp [hdir, hdst]
  · rw [assocGet_set, if_neg (fun e => apart_ne hap a b1 e.symm), h.1]
  · rw [assocGet_set, h.2.1 a1 e1]
    simp only [List.append_cancel_left_eq, assocGet]
    by_cases e : a1 = a
    · simp [e]
    · have e2 : ¬ a = a1 := fun x => e x.symm
      simp [e, e2]
  · rw [assocGet_set]
    have e1 : q ≠ t ++ a := by
      rintro rfl
      have := hq.length_le
      rw [List.length_append] at this
      have : a.length = 0 := by omega
      exact ha (List.length_eq_zero.1 this)
    rw [if_neg e1]
    exact h.2.2 q hq

theorem commonLen_append (t a b : Path) :
    commonLen (t ++ a) (t ++ b) = t.length + commonLen a b := by
  induction t with
  | nil => simp
  | cons x t ih =>
    have h1 : commonLen (x :: (t ++ a)) (x :: (t ++ b)) = commonLen (t ++ a) (t ++ b) + 1 := by
      simp [commonLen]
    rw [List.cons_append, List.cons_append, h1, ih, List.length_cons]
    omega

/-- The relative path between two places below the same directory does not depend on that
directory. -/
theorem Rel_append (t a b : Path) : Rel (t ++ a) (t ++ b) = Rel a b := by
  unfold Rel
  rw [commonLen_append, List.length_append]
  have h1 : t.length + a.length - (t.length + commonLen a b) = a.length - commonLen a b := by
    omega
  rw [h1, List.drop_append]


/-! ## The calls on a file system seen as two relative trees, when no call fails for an
outside reason -/

theorem osReadDir_rep {gp t : Path} {S T : FS} (st : St) (h : Rep gp t st.fs S T) (b : Path)
    (es : List DirEntry) (hd : assocGet S b = some .dir) (hes : S.readDir b = some es) :
    ∃ st1, osReadDir noFault (gp ++ b) st = (some es, st1) ∧ Rep gp t st1.fs S T ∧
      st1.index = st.index := by
  have e := rep_readDir h b hd
  rw [hes] at e
  exact ⟨st.logged (.readDir (gp ++ b)) true, by simp [osReadDir, noFault, e], h, rfl⟩

theorem osMkdirAll_rep {gp t : Path} {S T : FS} (hap : apart t gp = true) (st : St)
    (h : Rep gp t st.fs S T) (a : Path) (T1 : FS)
    (hpre : a.inits.tail.all (fun a1 =>
      decide (assocGet T a1 = none) || decide (assocGet T a1 = some .dir)) = true)
    (hT : T.mkdirAll a = some T1) :
    ∃ st1, osMkdirAll noFault (t ++ a) st = (some (), st1) ∧ Rep gp t st1.fs S T1 ∧
      st1.index = st.index := by
  obtain ⟨fs1, e, r⟩ := rep_mkdirAll hap h a T1 hpre hT
  exact ⟨{ st with fs := fs1 }.logged (.mkdirAll (t ++ a)) true,
    by simp [osMkdirAll, noFault, e], r, rfl⟩

theorem getFileSha_rep {gp t : Path} {S T : FS} (st : St) (h : Rep gp t st.fs S T) (b : Path)
    (c : Content) (hb : assocGet S b = some (.file c)) :
    ∃ st1, getFileSha noFault (gp ++ b) st = (some (Sha1.hex c), st1) ∧ Rep gp t st1.fs S T ∧
      st1.index = st.index := by
  have e := rep_readFile h b c hb
  exact ⟨st.logged (.readFile (gp ++ b)) true, by simp [getFileSha, noFault, e], h, rfl⟩

theorem movePhotoIntoPlace_rep {gp t : Path} {S T : FS} (hap : apart t gp = true) (st : St)
    (h : Rep gp t st.fs S T) (b a : Path) (c : Content) (sha : String)
    (hb : assocGet S b = some (.file c)) (hnew : assocGet T a = none)
    (hpar : a.dropLast ≠ [] ∧ assocGet T a.dropLast = some .dir) :
    ∃ st1, movePhotoIntoPlace noFault (gp ++ b) (t ++ a) sha st = (some (t ++ a), st1) ∧
      Rep gp t st1.fs (assocDel S b) ((a, .file c) :: T) ∧ st1.index = st.index := by
  have ha : a ≠ [] := by
    rintro rfl
    exact hpar.1 rfl
  have e1 := rep_stat h a ha hnew
  obtain ⟨fs1, e2, r⟩ := rep_rename hap h b a c hb hnew hpar
  refine ⟨{ (st.logged (.stat (t ++ a)) false) with fs := fs1 }.logged
    (.rename (gp ++ b) (t ++ a)) true, ?_, r, rfl⟩
  simp [movePhotoIntoPlace, osStat, osRename, noFault, e1, e2]

theorem osRel_rep (base targ : Path) (st : St) :
    osRel noFault base targ st = (some (Rel base targ), st.logged (.rel base targ) true) := by
  simp [osRel, noFault]

theorem osSymlink_rep {gp t : Path} {S T : FS} (hap : apart t gp = true) (st : St)
    (h : Rep gp t st.fs S T) (u : Nat) (d a : Path)
    (hnew : assocGet T a = none)
    (hpar : a.dropLast ≠ [] ∧ assocGet T a.dropLast = some .dir) :
    ∃ st1, osSymlink noFault (u, d) (t ++ a) st = (some (), st1) ∧
      Rep gp t st1.fs S ((a, .symlink u d) :: T) ∧ st1.index = st.index := by
  obtain ⟨fs1, e, r⟩ := rep_symlink hap h u d a hnew hpar
  exact ⟨{ st with fs := fs1 }.logged (.symlink u d (t ++ a)) true,
    by simp [osSymlink, noFault, e], r, rfl⟩

theorem exifPass_ok (t : Path) (st : St) :
    (exifPass noFault t st).1 = .ok () ∧ (exifPass noFault t st).2.fs = st.fs := by
  refine ⟨?_, exifPass_keeps (fun f _ => f = st.fs) noFault t st rfl⟩
  simp [exifPass, forEach, orFail, osExiftool, noFault]


/-! ## The first scenario, for any bytes, source and target -/

theorem join2 (p : Path) (a b : String) : p ++ [a] ++ [b] = p ++ [a, b] := by simp

theorem join3 (p : Path) (a b c : String) : p ++ [a] ++ [b] ++ [c] = p ++ [a, b, c] := by simp

theorem scenario_mainPass {gp t : Path} (hap : apart t gp = true) (X : Content) (st : St)
    (h : Rep gp t st.fs (scenarioFooRel X) []) :
    ∃ st1, mainPass noFault gp t
        [⟨"AlbumFoo", true⟩, ⟨"Archive", true⟩, ⟨"Photos from 2020", true⟩] st = (.ok (), st1) ∧
      Rep gp t st1.fs (assocDel (scenarioFooRel X) ["Photos from 2020", "a.jpg"])
        [(["Photos", "a.jpg"], .file X), (["Photos"], .dir)] ∧
      st1.index = assocSet st.index (Sha1.hex X) (t ++ ["Photos", "a.jpg"]) := by
  obtain ⟨st1, c1, r1, i1⟩ := osMkdirAll_rep hap st h ["Photos"] [(["Photos"], .dir)] rfl rfl
  obtain ⟨st2, c2, r2, i2⟩ :=
    osReadDir_rep st1 r1 ["Photos from 2020"] [⟨"a.jpg", false⟩] rfl rfl
  obtain ⟨st3, c3, r3, i3⟩ := getFileSha_rep st2 r2 ["Photos from 2020", "a.jpg"] X rfl
  obtain ⟨st4, c4, r4, i4⟩ := movePhotoIntoPlace_rep hap st3 r3 ["Photos from 2020", "a.jpg"]
    ["Photos", "a.jpg"] X (Sha1.hex X) rfl rfl ⟨by simp, rfl⟩
  rw [← join2] at c3 c4
  rw [← join2 t] at c4
  refine ⟨{ st4 with index := assocSet st4.index (Sha1.hex X) (t ++ ["Photos"] ++ ["a.jpg"]) },
    ?_, r4, ?_⟩
  · have y1 : photosForYearRegex "AlbumFoo" = false := by decide
    have y2 : photosForYearRegex "Archive" = false := by decide
    have y3 : photosForYearRegex "Photos from 2020" = true := by decide
    have x1 : Ext "a.jpg" ≠ ".json" := by decide
    simp only [mainPass, forEach, mainDir, mainPhoto, bind_apply, orFail_apply, pure_apply, c1,
      c2, c3, c4, y1, y2, y3, x1, setIndex, Bool.not_true, Bool.not_false, Bool.false_eq_true,
      if_false, if_true]
  · simp only [i4, i3, i2, i1, join2]

theorem scenario_archivePass {gp t : Path} (hap : apart t gp = true) (X : Content) (st : St)
    (h : Rep gp t st.fs (assocDel (scenarioFooRel X) ["Photos from 2020", "a.jpg"])
      [(["Photos", "a.jpg"], .file X), (["Photos"], .dir)]) :
    ∃ st1, archivePass noFault gp t st = (.ok (), st1) ∧
      Rep gp t st1.fs (assocDel (scenarioFooRel X) ["Photos from 2020", "a.jpg"])
        [(["Archive"], .dir), (["Photos", "a.jpg"], .file X), (["Photos"], .dir)] ∧
      st1.index = st.index := by
  obtain ⟨st1, c1, r1, i1⟩ := osMkdirAll_rep hap st h ["Archive"]
    [(["Archive"], .dir), (["Photos", "a.jpg"], .file X), (["Photos"], .dir)] rfl rfl
  obtain ⟨st2, c2, r2, i2⟩ := osReadDir_rep st1 r1 ["Archive"] [] rfl rfl
  refine ⟨st2, ?_, r2, by rw [i2, i1]⟩
  simp only [archivePass, forEach, bind_apply, orFail_apply, pure_apply, c1, c2]

theorem scenario_albumPass {gp t : Path} (hap : apart t gp = true) (X : Content) (st : St)
    (h : Rep gp t st.fs (assocDel (scenarioFooRel X) ["Photos from 2020", "a.jpg"])
      [(["Archive"], .dir), (["Photos", "a.jpg"], .file X), (["Photos"], .dir)])
    (hi : assocGet st.index (Sha1.hex X) = some (t ++ ["Photos", "a.jpg"])) :
    ∃ st1, albumPass noFault gp t
        [⟨"AlbumFoo", true⟩, ⟨"Archive", true⟩, ⟨"Photos from 2020", true⟩] st = (.ok (), st1) ∧
      Rep gp t st1.fs (assocDel (scenarioFooRel X) ["Photos from 2020", "a.jpg"])
        [(["Albums", "AlbumFoo", "a.jpg"], .symlink 2 ["Photos", "a.jpg"]),
         (["Albums", "AlbumFoo"], .dir), (["Albums"], .dir), (["Album-only Photos"], .dir),
         (["Archive"], .dir), (["Photos", "a.jpg"], .file X), (["Photos"], .dir)] := by
  obtain ⟨st1, c1, r1, i1⟩ := osMkdirAll_rep hap st h ["Album-only Photos"]
    [(["Album-only Photos"], .dir),
     (["Archive"], .dir), (["Photos", "a.jpg"], .file X), (["Photos"], .dir)] rfl rfl
  obtain ⟨st2, c2, r2, i2⟩ := osMkdirAll_rep hap st1 r1 ["Albums"]
    [(["Albums"], .dir), (["Album-only Photos"], .dir),
     (["Archive"], .dir), (["Photos", "a.jpg"], .file X), (["Photos"], .dir)] rfl rfl
  obtain ⟨st3, c3, r3, i3⟩ := osReadDir_rep st2 r2 ["AlbumFoo"] [⟨"a.jpg", false⟩] rfl rfl
  obtain ⟨st4, c4, r4, i4⟩ := osMkdirAll_rep hap st3 r3 ["Albums", "AlbumFoo"]
    [(["Albums", "AlbumFoo"], .dir), (["Albums"], .dir), (["Album-only Photos"], .dir),
     (["Archive"], .dir), (["Photos", "a.jpg"], .file X), (["Photos"], .dir)] rfl rfl
  obtain ⟨st5, c5, r5, i5⟩ := getFileSha_rep st4 r4 ["AlbumFoo", "a.jpg"] X rfl
  have hi5 : assocGet st5.index (Sha1.hex X) = some (t ++ ["Photos", "a.jpg"]) := by
    rw [i5, i4, i3, i2, i1]; exact hi
  have hrel : Rel (t ++ ["Albums"] ++ ["AlbumFoo"]) (t ++ ["Photos", "a.jpg"])
      = (2, ["Photos", "a.jpg"]) := by
    rw [join2, Rel_append]; rfl
  obtain ⟨st6, c6, r6, i6⟩ := osSymlink_rep hap
    (st5.logged (.rel (t ++ ["Albums"] ++ ["AlbumFoo"]) (t ++ ["Photos", "a.jpg"])) true) r5
    2 ["Photos", "a.jpg"] ["Albums", "AlbumFoo", "a.jpg"] rfl ⟨by simp, rfl⟩
  rw [← join2] at c4 c5
  rw [← join3] at c6
  refine ⟨st6, ?_, r6⟩
  have y1 : photosForYearRegex "AlbumFoo" = false := by decide
  have y2 : photosForYearRegex "Archive" = false := by decide
  have y3 : photosForYearRegex "Photos from 2020" = true := by decide
  have x1 : Ext "a.jpg" ≠ ".json" := by decide
  have n1 : ("AlbumFoo" : String) ≠ "Trash" := by decide
  have n2 : ("AlbumFoo" : String) ≠ "Archive" := by decide
  have n3 : ("Archive" : String) ≠ "Trash" := by decide
  simp only [albumPass, forEach, albumDir, albumPhoto, bind_apply, orFail_apply, pure_apply, c1,
    c2, c3, c4, c5, c6, y1, y2, y3, x1, n1, n2, n3, getIndex, hi5, osRel_rep, hrel,
    List.dropLast_concat, Bool.not_true, Bool.not_false, Bool.false_eq_true, if_false, if_true]

/-- The scenario for any bytes, and any source and target that lie apart: when the source
is the scenario tree and nothing is in the target, `run` succeeds, and at the end the
source and the target are the two relative trees given here. -/
theorem scenario_run (sourceDir targetDir : Path) (X : Content) (fs : FS)
    (hap : apart targetDir (sourceDir ++ ["Google Photos"]) = true)
    (h0 : Rep (sourceDir ++ ["Google Photos"]) targetDir fs (scenarioFooRel X) []) :
    ∃ st, run noFault sourceDir targetDir (St.init fs) = (.ok (), st) ∧
      Rep (sourceDir ++ ["Google Photos"]) targetDir st.fs
        (assocDel (scenarioFooRel X) ["Photos from 2020", "a.jpg"])
        [(["Albums", "AlbumFoo", "a.jpg"], .symlink 2 ["Photos", "a.jpg"]),
         (["Albums", "AlbumFoo"], .dir), (["Albums"], .dir), (["Album-only Photos"], .dir),
         (["Archive"], .dir), (["Photos", "a.jpg"], .file X), (["Photos"], .dir)] := by
  obtain ⟨st1, c1, r1, _⟩ := osReadDir_rep (St.init fs) h0 []
    [⟨"AlbumFoo", true⟩, ⟨"Archive", true⟩, ⟨"Photos from 2020", true⟩] rfl rfl
  rw [List.append_nil] at c1
  obtain ⟨st2, c2, r2, i2⟩ := scenario_mainPass hap X { st1 with index := [] } r1
  obtain ⟨st3, c3, r3, i3⟩ := scenario_archivePass hap X st2 r2
  obtain ⟨st4, c4, r4⟩ := scenario_albumPass hap X st3 r3
    (by rw [i3, i2, assocGet_set]; simp)
  obtain ⟨e1, e2⟩ := exifPass_ok targetDir st4
  refine ⟨(exifPass noFault targetDir st4).2, ?_, by rw [e2]; exact r4⟩
  simp only [run, bind_apply, orFail_apply, newIndex, c1, c2, c3, c4]
  exact Prod.ext e1 rfl

/-- A source tree given relative to `gp`, an empty target and a way to the target that can
be created: the file system is the two relative trees, the second one empty. -/
theorem rep_of_start {gp t : Path} {fs S : FS}
    (hsrc : ∀ rel, assocGet fs (gp ++ rel) = assocGet S rel)
    (hempty : emptyTarget fs t = true) (hway : canMkdirAll fs t = true) :
    Rep gp t fs S [] := by
  refine ⟨hsrc, fun a ha => ?_, fun q hq => ?_⟩
  · simp only [assocGet]
    refine emptyTarget_spec hempty (t ++ a) (List.prefix_append _ _) ?_
    intro e
    have := congrArg List.length e
    rw [List.length_append] at this
    exact ha (List.length_eq_zero.1 (by omega))
  · unfold canMkdirAll at hway
    rw [List.all_eq_true] at hway
    have := hway q ((List.mem_inits _ _).2 hq)
    simpa using this

end Takeout

namespace Takeout

/-! ## C7: the first end-to-end scenario -/

theorem resolve_two (t : Path) (a b : String) (d : Path) : resolve (t ++ [a, b]) 2 d = t ++ d := by
  simp [resolve]

/-- A target that lies apart from `<source>/Google Photos` is empty in the scenario: nothing
exists at or below it. -/
theorem scenario_emptyTarget (sourceDir targetDir : Path) (X : Content)
    (hap : apart targetDir (sourceDir ++ ["Google Photos"]) = true) :
    emptyTarget (scenarioFooAt sourceDir X) targetDir = true := by
  obtain ⟨h1, h2⟩ := apart_spec hap
  unfold emptyTarget
  rw [List.all_eq_true]
  intro e he
  have hn : ¬ targetDir <+: e.1 := by
    intro hp
    unfold scenarioFooAt at he
    rcases List.mem_append.1 he with h | h
    · unfold dirsAbove at h
      rw [List.mem_map] at h
      obtain ⟨q, hq, rfl⟩ := h
      have hq1 := ((mem_inits_tail _ q).1 hq).1
      exact h1 (hp.trans (hq1.trans ( List.dropLast_prefix _)))
    · unfold graft at h
      rw [List.mem_map] at h
      obtain ⟨x, _, rfl⟩ := h
      rcases List.prefix_or_prefix_of_prefix hp (List.prefix_append _ x.1) with h3 | h3
      · exact h1 h3
      · exact h2 h3
  have hb : targetDir.isPrefixOf e.1 = false := by
    rw [← Bool.not_eq_true]
    exact fun h => hn (isPrefixOf_iff.1 h)
  simp [hb]

theorem scenario_noSymlinks (sourceDir : Path) (X : Content) :
    noSymlinks (scenarioFooAt sourceDir X) = true := by
  unfold noSymlinks
  rw [List.all_eq_true]
  intro e he
  unfold scenarioFooAt at he
  rcases List.mem_append.1 he with h | h
  · unfold dirsAbove at h
    rw [List.mem_map] at h
    obtain ⟨q, _, rfl⟩ := h
    rfl
  · unfold graft scenarioFooRel at h
    simp only [List.map_cons, List.map_nil, List.mem_cons, List.mem_singleton,
      List.not_mem_nil, or_false] at h
    rcases h with h | h | h | h | h | h <;> rw [h]

set_option maxRecDepth 100000 in
/-- C7, counterexample: on the tree of the scenario as the claim writes it (the year
folder and the album, nothing else) `run` fails, because it lists
`<source>/Google Photos/Archive`, which is not there; the photo has been moved, no album
directory and no link exist. And when the tree has the `Archive` directory, an empty
target is not enough: with that empty directory `<source>/Google Photos/Archive` itself
as target, `run` fails in the archive pass, which finds the target's own directories in
the listing of the source `Archive`. -/
theorem C7_counterexample :
    (run noFault ["src"] ["out"] (St.init scenarioFoo)).1 = .error .readArchive ∧
    assocGet (run noFault ["src"] ["out"] (St.init scenarioFoo)).2.fs ["out", "Photos", "a.jpg"]
      = some (.file [88]) ∧
    assocGet (run noFault ["src"] ["out"] (St.init scenarioFoo)).2.fs ["out", "Albums"] = none ∧
    assocGet (run noFault ["src"] ["out"] (St.init scenarioFoo)).2.fs
      ["out", "Albums", "AlbumFoo", "a.jpg"] = none ∧
    emptyTarget (scenarioFooAt ["src"] [88]) ["src", "Google Photos", "Archive"] = true ∧
    (run noFault ["src"] ["src", "Google Photos", "Archive"]
        (St.init (scenarioFooAt ["src"] [88]))).1
      = .error (.sha ["src", "Google Photos", "Archive", "Archive", "Archive"]) := by
  decide!

theorem scenario_canMkdirAll (sourceDir targetDir : Path) (X : Content)
    (hap : apart targetDir (sourceDir ++ ["Google Photos"]) = true) :
    canMkdirAll (scenarioFooAt sourceDir X) targetDir = true := by
  have h := (rep_init hap (scenarioFooRel X)).2.2
  unfold canMkdirAll
  rw [List.all_eq_true]
  intro q hq
  rcases h q ((List.mem_inits _ _).1 hq) with e | e
  · unfold scenarioFooAt; simp [e]
  · unfold scenarioFooAt; simp [e]

/-- C7, amended: take any bytes X, any source directory and any target directory that
lies apart from `<source>/Google Photos` (neither inside the other), and any file system
without symbolic links in which `<source>/Google Photos` holds exactly the source tree of
the scenario with an `Archive` directory (`Photos from 2020/a.jpg` with content X,
`AlbumFoo/a.jpg` with the same content, and an empty `Archive`), and in which the target
is empty: nothing exists below it, and the target and what leads to it are directories or
do not exist yet. With no call failing for an outside reason, `run` succeeds; afterwards
`<target>/Photos/a.jpg` is a real file with content X, `<target>/Albums/AlbumFoo/a.jpg` is
a link that resolves to `<target>/Photos/a.jpg`, `<target>/Album-only Photos` is an empty
directory and `AlbumFoo/a.jpg` is still at its source path. More generally, an album step
on a member whose fingerprint is in the index changes neither the index nor any path
other than the link's, where it can only add the link; if it succeeds the link is there
and resolves to the indexed path. -/
theorem C7_scenario_and_indexed_member :
    (∀ (sourceDir targetDir : Path) (X : Content) (fs : FS),
      apart targetDir (sourceDir ++ ["Google Photos"]) = true →
      noSymlinks fs = true →
      (∀ rel, assocGet fs (sourceDir ++ ["Google Photos"] ++ rel)
        = assocGet (scenarioFooRel X) rel) →
      emptyTarget fs targetDir = true →
      canMkdirAll fs targetDir = true →
      (run noFault sourceDir targetDir (St.init fs)).1 = .ok () ∧
      assocGet (run noFault sourceDir targetDir (St.init fs)).2.fs
        (targetDir ++ ["Photos", "a.jpg"]) = some (.file X) ∧
      assocGet (run noFault sourceDir targetDir (St.init fs)).2.fs
        (targetDir ++ ["Albums", "AlbumFoo", "a.jpg"]) = some (.symlink 2 ["Photos", "a.jpg"]) ∧
      resolve (targetDir ++ ["Albums", "AlbumFoo"]) 2 ["Photos", "a.jpg"]
        = targetDir ++ ["Photos", "a.jpg"] ∧
      follow maxLinks (run noFault sourceDir targetDir (St.init fs)).2.fs
        (targetDir ++ ["Albums", "AlbumFoo", "a.jpg"]) = .found (.file X) ∧
      assocGet (run noFault sourceDir targetDir (St.init fs)).2.fs
        (targetDir ++ ["Album-only Photos"]) = some .dir ∧
      children (run noFault sourceDir targetDir (St.init fs)).2.fs
        (targetDir ++ ["Album-only Photos"]) = [] ∧
      assocGet (run noFault sourceDir targetDir (St.init fs)).2.fs
        (sourceDir ++ ["Google Photos"] ++ ["AlbumFoo", "a.jpg"]) = some (.file X)) ∧
    (∀ (env : Env) (sourceAlbumDir targetAlbumDir targetAlbumOnlyPhotosDir : Path)
      (member : DirEntry) (st : St) (c : Content) (indexed : Path),
      Ext member.name ≠ ".json" →
      st.fs.readFile (sourceAlbumDir ++ [member.name]) = some c →
      assocGet st.index (Sha1.hex c) = some indexed →
      (albumPhoto env sourceAlbumDir targetAlbumDir targetAlbumOnlyPhotosDir member st).2.index
        = st.index ∧
      (∀ q, q ≠ targetAlbumDir ++ [member.name] →
        assocGet (albumPhoto env sourceAlbumDir targetAlbumDir targetAlbumOnlyPhotosDir
          member st).2.fs q = assocGet st.fs q) ∧
      (assocGet (albumPhoto env sourceAlbumDir targetAlbumDir targetAlbumOnlyPhotosDir
          member st).2.fs (targetAlbumDir ++ [member.name])
          = assocGet st.fs (targetAlbumDir ++ [member.name]) ∨
        (assocGet st.fs (targetAlbumDir ++ [member.name]) = none ∧
          assocGet (albumPhoto env sourceAlbumDir targetAlbumDir targetAlbumOnlyPhotosDir
            member st).2.fs (targetAlbumDir ++ [member.name])
            = some (.symlink (Rel targetAlbumDir indexed).1 (Rel targetAlbumDir indexed).2))) ∧
      ((albumPhoto env sourceAlbumDir targetAlbumDir targetAlbumOnlyPhotosDir member st).1
          = .ok () →
        assocGet (albumPhoto env sourceAlbumDir targetAlbumDir targetAlbumOnlyPhotosDir
          member st).2.fs (targetAlbumDir ++ [member.name])
          = some (.symlink (Rel targetAlbumDir indexed).1 (Rel targetAlbumDir indexed).2) ∧
        resolve targetAlbumDir (Rel targetAlbumDir indexed).1 (Rel targetAlbumDir indexed).2
          = indexed)) := by
  refine ⟨?_, ?_⟩
  · intro sourceDir targetDir X fs hap _ hsrc hempty hway
    obtain ⟨st, hrun, hS, hT, _⟩ := scenario_run sourceDir targetDir X fs hap
      (rep_of_start hsrc hempty hway)
    rw [hrun]
    have hfile : assocGet st.fs (targetDir ++ ["Photos", "a.jpg"]) = some (.file X) := by
      rw [hT _ (by simp)]; rfl
    have hlink : assocGet st.fs (targetDir ++ ["Albums", "AlbumFoo", "a.jpg"])
        = some (.symlink 2 ["Photos", "a.jpg"]) := by
      rw [hT _ (by simp)]; rfl
    have hres : resolve (targetDir ++ ["Albums", "AlbumFoo"]) 2 ["Photos", "a.jpg"]
        = targetDir ++ ["Photos", "a.jpg"] := resolve_two _ _ _ _
    have hdl : (targetDir ++ ["Albums", "AlbumFoo", "a.jpg"]).dropLast
        = targetDir ++ ["Albums", "AlbumFoo"] := by
      rw [List.dropLast_append_of_ne_nil _ (by simp)]; rfl
    refine ⟨rfl, hfile, hlink, hres, ?_, ?_, ?_, ?_⟩
    · simp [maxLinks, follow, hlink, hdl, hres, hfile]
    · rw [hT _ (by simp)]; rfl
    · rw [List.eq_nil_iff_forall_not_mem]
      intro n hn
      rw [mem_children, join2, hT _ (by simp)] at hn
      simp [assocGet] at hn
    · rw [hS]; rfl
  · intro env sd ta tao x st c ip hj hc hi
    obtain ⟨h1, h2, h3, h4⟩ := albumPhoto_indexed env sd ta tao x st c ip hc hi
    exact ⟨h1, h2, h3, fun hok => ⟨h4 hok hj, resolve_Rel ta ip⟩⟩

set_option maxRecDepth 100000 in
/-- C7, witness: the bytes `[88]`, the source `src`, the target `out`, and the file system
that holds the source tree and nothing else. -/
theorem C7_witness :
    apart ["out"] (["src"] ++ ["Google Photos"]) = true ∧
    noSymlinks (scenarioFooAt ["src"] [88]) = true ∧
    emptyTarget (scenarioFooAt ["src"] [88]) ["out"] = true ∧
    canMkdirAll (scenarioFooAt ["src"] [88]) ["out"] = true ∧
    (run noFault ["src"] ["out"] (St.init (scenarioFooAt ["src"] [88]))).1 = .ok () ∧
    assocGet (run noFault ["src"] ["out"] (St.init (scenarioFooAt ["src"] [88]))).2.fs
      (["out"] ++ ["Photos", "a.jpg"]) = some (.file [88]) ∧
    follow maxLinks (run noFault ["src"] ["out"] (St.init (scenarioFooAt ["src"] [88]))).2.fs
      (["out"] ++ ["Albums", "AlbumFoo", "a.jpg"]) = .found (.file [88]) := by
  have hap : apart ["out"] (["src"] ++ ["Google Photos"]) = true := by decide
  have h := C7_scenario_and_indexed_member.1 ["src"] ["out"] [88] (scenarioFooAt ["src"] [88])
    hap (scenario_noSymlinks ["src"] [88]) (rep_init hap (scenarioFooRel [88])).1
    (scenario_emptyTarget ["src"] ["out"] [88] hap) (scenario_canMkdirAll ["src"] ["out"] [88] hap)
  exact ⟨hap, scenario_noSymlinks ["src"] [88], scenario_emptyTarget ["src"] ["out"] [88] hap,
    scenario_canMkdirAll ["src"] ["out"] [88] hap, h.1, h.2.1, h.2.2.2.2.1⟩

end Takeout
